import Mathlib

set_option maxRecDepth 100000

/-!
Verification of the mark-and-sweep garbage collector in
`src/garbage_collector/mark_and_sweep.c`.

The C program is shallowly embedded as follows.  Addresses are natural
numbers counting `header_t`-sized (16-byte) units; byte addresses are
`16 * a`.  A `header_t` is a record of its `size` field (an `unsigned int`,
so writes reduce modulo `2 ^ 32`) and its stored `next` pointer, which the
program tags with a mark bit in bit 0; the stored 64-bit word is represented
by its untagged pointer part `next` together with the tag bit `mark`, and
`Header.rawNext` recovers the raw compared value.  `size_t` arithmetic
reduces modulo `2 ^ 64`.  The static sentinel `base` lives in the data
segment at unit address `base = 1`, below everything `sbrk` ever returns.
All loops take explicit fuel and return `none` when it runs out (the C
loops would simply not have terminated yet).
-/

namespace MarkAndSweep

/-- Size of `header_t` in bytes (`unsigned int` plus padding plus a pointer
on x86-64, as the code's own comment says: 16-byte chunks). -/
def hdrSize : Nat := 16

/-- `MIN_ALLOC_SIZE`: page-sized chunk, the least request sent to `sbrk`. -/
def MIN_ALLOC_SIZE : Nat := 4096

/-- Unit address of the static sentinel block `base` (data segment, below
every heap address). -/
def base : Nat := 1

/-- A `header_t` record.  `size` is the block's size in header units
(including the header itself); `next` and `mark` are the untagged pointer
part and the tag bit of the stored `next` field. -/
@[ext] structure Header where
  size : Nat
  next : Nat
  mark : Bool
deriving DecidableEq

/-- The raw 64-bit value stored in a `next` field, as compared by the C
code: the byte address of the successor with the mark bit in bit 0. -/
def Header.rawNext (h : Header) : Nat :=
  hdrSize * h.next + (bif h.mark then 1 else 0)

/-- Global state of the collector: the heap headers, the payload words
(8-byte words indexed by byte-address / 8), the static variables `freep`
and `usedp`, the program break `brk` (in units), the initial break `lo`
(the heap obtained from the OS is `[lo, brk)`), the word values of the
static data segment `[&etext, &end)` scanned as the root set, and whether
`sbrk` grants requests. -/
@[ext] structure GC where
  mem : Nat → Header
  words : Nat → Int
  freep : Nat
  usedp : Option Nat
  brk : Nat
  lo : Nat
  roots : List Int
  canGrow : Bool

/-- Write the header at unit address `a`. -/
def setMem (s : GC) (a : Nat) (h : Header) : GC :=
  { s with mem := Function.update s.mem a h }

/-- The search loop of `add_to_free_list`:
`for (p = freep; !(bp > p && bp < p->next); p = p->next)
   if (p >= p->next && (bp > p || bp < p->next)) break;`.
Comparisons with the stored field `p->next` use its raw tagged value.
Returns the node after which `bp` will be inserted. -/
def free_spot (s : GC) (bp : Nat) : Nat → Nat → Option Nat
  | _, 0 => none
  | p, fuel + 1 =>
    if bp > p ∧ hdrSize * bp < (s.mem p).rawNext then some p
    else if hdrSize * p ≥ (s.mem p).rawNext ∧
        (bp > p ∨ hdrSize * bp < (s.mem p).rawNext) then some p
    else free_spot s bp ((s.mem p).next) fuel

/-- The forward-coalescence step of `add_to_free_list`: if
`bp + bp->size == p->next` (a comparison with the raw stored field), absorb
`p->next`'s size into `bp` and link `bp` past it, else `bp->next = p->next`.
Assignments of one stored `next` field to another copy the raw value, hence
both components; `size` fields are `unsigned int`, hence the `% 2 ^ 32`. -/
def add_fwd (s : GC) (bp p : Nat) : GC :=
  if hdrSize * (bp + (s.mem bp).size) = (s.mem p).rawNext then
    setMem s bp { size := ((s.mem bp).size + (s.mem ((s.mem p).next)).size) % 2 ^ 32,
                  next := (s.mem ((s.mem p).next)).next,
                  mark := (s.mem ((s.mem p).next)).mark }
  else
    setMem s bp { s.mem bp with next := (s.mem p).next, mark := (s.mem p).mark }

/-- The backward-coalescence step of `add_to_free_list`: if
`p + p->size == bp`, absorb `bp` into `p`, else `p->next = bp`. -/
def add_bwd (s : GC) (bp p : Nat) : GC :=
  if p + (s.mem p).size = bp then
    setMem s p { size := ((s.mem p).size + (s.mem bp).size) % 2 ^ 32,
                 next := (s.mem bp).next, mark := (s.mem bp).mark }
  else
    setMem s p { s.mem p with next := bp, mark := false }

/-- The straight-line body of `add_to_free_list` once the insertion point
`p` is found: coalesce forward, then backward, finally `freep = p`. -/
def add_at (s : GC) (bp p : Nat) : GC :=
  { add_bwd (add_fwd s bp p) bp p with freep := p }

/-- `add_to_free_list(bp)`: find the insertion point, then run `add_at`. -/
def add_to_free_list (s : GC) (bp : Nat) (fuel : Nat) : Option GC :=
  match free_spot s bp s.freep fuel with
  | none => none
  | some p => some (add_at s bp p)

/-- The effect of a successful `sbrk(nb)` plus the header store in
`more_core`: the break advances by `nb` bytes and the fresh region at the
old break gets `up->size = nb / sizeof(header_t)` (an `unsigned int`
store).  Every call site passes a multiple of `hdrSize`. -/
def grow_state (s : GC) (nb : Nat) : GC :=
  setMem { s with brk := s.brk + nb / hdrSize } s.brk
    { s.mem s.brk with size := nb / hdrSize % 2 ^ 32 }

/-- `more_core(num_bytes)`: request `max(num_bytes, MIN_ALLOC_SIZE)` bytes
from the OS at the current break, give the fresh region a header covering
it and insert it into the free list.  `sbrk` fails exactly when `canGrow`
is false; that case is the C function's `NULL` return, modelled as
`some none`, while the outer `none` means the free-list walk ran out of
fuel. -/
def more_core (s : GC) (num_bytes : Nat) (fuel : Nat) : Option (Option GC) :=
  if s.canGrow then
    match add_to_free_list
        (grow_state s (if num_bytes < MIN_ALLOC_SIZE then MIN_ALLOC_SIZE else num_bytes))
        s.brk fuel with
    | none => none
    | some s2 => some (some s2)
  else some none

/-- `num_units = (alloc_size + sizeof(header_t) - 1) / sizeof(header_t) + 1`
in `size_t` (64-bit) arithmetic. -/
def num_units (alloc_size : Nat) : Nat :=
  (alloc_size + hdrSize - 1) % 2 ^ 64 / hdrSize + 1

/-- The exact-or-split step of `gc_malloc` at a fitting block `p`: on an
exact fit, `prevp->next = p->next` (a raw-field copy) unlinks `p`;
otherwise `p->size -= num_units; p += p->size; p->size = num_units` (the
last store is to an `unsigned int`).  Yields the state and the block that
becomes the allocation. -/
def malloc_cut (nu : Nat) (s : GC) (prevp p : Nat) : GC × Nat :=
  if (s.mem p).size = nu then
    (setMem s prevp
      { s.mem prevp with next := (s.mem p).next, mark := (s.mem p).mark }, p)
  else
    (setMem (setMem s p { s.mem p with size := (s.mem p).size - nu })
      (p + ((s.mem p).size - nu))
      { (setMem s p { s.mem p with size := (s.mem p).size - nu }).mem
          (p + ((s.mem p).size - nu)) with size := nu % 2 ^ 32 },
     p + ((s.mem p).size - nu))

/-- Push block `q` on the used list: `usedp == NULL` makes `q` a self-loop,
otherwise `q->next = usedp->next; usedp->next = q` (raw-field copies). -/
def malloc_push (s : GC) (q : Nat) : GC :=
  match s.usedp with
  | none => { setMem s q { s.mem q with next := q, mark := false } with
              usedp := some q }
  | some u =>
    setMem (setMem s q { s.mem q with next := (s.mem u).next, mark := (s.mem u).mark })
      u { s.mem u with next := q, mark := false }

/-- The straight-line body of `gc_malloc`'s search loop once a fitting
block `p` is found: cut it out of the free block, set `freep = prevp`
(next-fit), push it on the used list and return the payload address
`p + 1`. -/
def malloc_found (nu : Nat) (s : GC) (prevp p : Nat) : Nat × GC :=
  ((malloc_cut nu s prevp p).2 + 1,
   malloc_push { (malloc_cut nu s prevp p).1 with freep := prevp }
     (malloc_cut nu s prevp p).2)

/-- The search loop of `gc_malloc`, started at `prevp = freep`,
`p = prevp->next`.  The first fitting block is taken via `malloc_found`.
After a full circle (`p == freep`) it calls `more_core` and continues, or
fails (the C `NULL` return) if that reports `sbrk` failure.  The returned
triple also counts the `more_core` calls made during this `gc_malloc`;
outer `none` means the walk ran out of fuel. -/
def gc_malloc_loop (nu : Nat) :
    GC → Nat → Nat → Nat → Nat → Option (Option Nat × GC × Nat)
  | _, _, _, _, 0 => none
  | s, prevp, p, grows, fuel + 1 =>
    if nu ≤ (s.mem p).size then
      some (some (malloc_found nu s prevp p).1, (malloc_found nu s prevp p).2, grows)
    else if p = s.freep then
      match more_core s (nu * hdrSize % 2 ^ 64) fuel with
      | none => none
      | some none => some (none, s, grows + 1)
      | some (some s') =>
        gc_malloc_loop nu s' s'.freep ((s'.mem s'.freep).next) (grows + 1) fuel
    else
      gc_malloc_loop nu s p ((s.mem p).next) grows fuel

/-- `gc_malloc(alloc_size)`.  Yields `some (res, s, grows)` where `res` is
the returned payload address (or `none` for a `NULL` return), `s` the final
state and `grows` the number of `more_core` calls made. -/
def gc_malloc (s : GC) (alloc_size : Nat) (fuel : Nat) :
    Option (Option Nat × GC × Nat) :=
  gc_malloc_loop (num_units alloc_size) s s.freep ((s.mem s.freep).next) 0 fuel

/-- The inner do-while of `scan_region`: walk the used list from `cu`
(initially `usedp`); if the candidate word `ptr` lies in a block's payload
range `[(cu+1)*16, (cu+size)*16)`, set that block's mark bit and stop;
stop anyway once `UNTAG(cu->next)` is back at `usedp = u`. -/
def scan_ptr (s : GC) (u : Nat) (ptr : Int) : Nat → Nat → Option GC
  | _, 0 => none
  | cu, fuel + 1 =>
    if (hdrSize * (cu + 1) : Int) ≤ ptr ∧
        ptr < (hdrSize * (cu + (s.mem cu).size) : Int) then
      some (setMem s cu { s.mem cu with mark := true })
    else if (s.mem cu).next = u then some s
    else scan_ptr s u ptr ((s.mem cu).next) fuel

/-- `scan_region(sp, end)` with `usedp = u`: the word values of the scanned
range are the list `ws`; each is tested against the used list in turn. -/
def scan_region (s : GC) (u : Nat) (ws : List Int) (fuel : Nat) : Option GC :=
  match ws with
  | [] => some s
  | ptr :: rest =>
    match scan_ptr s u ptr u fuel with
    | none => none
    | some s' => scan_region s' u rest fuel

/-- The payload word indices of a block at `a` of the given size:
`(long *)(a + 1)` up to `(long *)(a + size)`, two 8-byte words per unit. -/
def payload_words (a size : Nat) : List Nat :=
  (List.range (2 * (size - 1))).map (fun i => 2 * (a + 1) + i)

/-- The inner do-while of `scan_heap`: walk the used list from `up`
(initially `UNTAG(cu->next)`) until back at `cu`; mark and stop at the
first block other than `cu` whose payload range contains `ptr`. -/
def scan_heap_ptr (s : GC) (cu : Nat) (ptr : Int) : Nat → Nat → Option GC
  | _, 0 => none
  | up, fuel + 1 =>
    if up ≠ cu ∧ (hdrSize * (up + 1) : Int) ≤ ptr ∧
        ptr < (hdrSize * (up + (s.mem up).size) : Int) then
      some (setMem s up { s.mem up with mark := true })
    else if (s.mem up).next = cu then some s
    else scan_heap_ptr s cu ptr ((s.mem up).next) fuel

/-- The payload scan of one marked block `cu` in `scan_heap`: test each
payload word against the used list, restarting the inner walk at
`UNTAG(cu->next)` for each word. -/
def scan_block (s : GC) (cu : Nat) (ws : List Nat) (fuel : Nat) : Option GC :=
  match ws with
  | [] => some s
  | w :: rest =>
    match scan_heap_ptr s cu (s.words w) ((s.mem cu).next) fuel with
    | none => none
    | some s' => scan_block s' cu rest fuel

/-- The outer do-while of `scan_heap`: visit each used block once, in list
order starting at `usedp = u`; scan the payload of the ones found marked. -/
def scan_heap_loop (u : Nat) : GC → Nat → Nat → Option GC
  | _, _, 0 => none
  | s, cu, fuel + 1 =>
    let s1res :=
      if (s.mem cu).mark then
        scan_block s cu (payload_words cu ((s.mem cu).size)) fuel
      else some s
    match s1res with
    | none => none
    | some s1 =>
      if (s1.mem cu).next = u then some s1
      else scan_heap_loop u s1 ((s1.mem cu).next) fuel

/-- `scan_heap()` where `usedp = u`. -/
def scan_heap (s : GC) (u : Nat) (fuel : Nat) : Option GC :=
  scan_heap_loop u s u fuel

/-- The collection loop of `gc_collect`, `prevp = usedp`,
`p = UNTAG(usedp->next)` initially.  An unmarked `p` is captured as `tp`,
`p` advances, `tp` goes back to the free list; if `tp` was `usedp` the used
list becomes empty and the loop breaks, otherwise `prevp->next` is relinked
past `tp` (keeping `prevp`'s own mark bit) and the loop re-enters at
`next_chunk` without advancing `prevp`.  A marked `p` has its mark cleared
and the loop stops after handling `p == usedp`. -/
def sweep_loop (u : Nat) : GC → Nat → Nat → Nat → Option GC
  | _, _, _, 0 => none
  | s, prevp, p, fuel + 1 =>
    if (s.mem p).mark = false then
      let p' := (s.mem p).next
      match add_to_free_list s p fuel with
      | none => none
      | some s1 =>
        if u = p then some { s1 with usedp := none }
        else
          let s2 := setMem s1 prevp { s1.mem prevp with next := p' }
          sweep_loop u s2 prevp p' fuel
    else
      let s1 := setMem s p { s.mem p with mark := false }
      if p = u then some s1
      else sweep_loop u s1 p ((s1.mem p).next) fuel

/-- `gc_collect()`: return at once if the used list is empty, scan the data
segment, scan the heap, then sweep. -/
def gc_collect (s : GC) (fuel : Nat) : Option GC :=
  match s.usedp with
  | none => some s
  | some u =>
    match scan_region s u s.roots fuel with
    | none => none
    | some s1 =>
      match scan_heap s1 u fuel with
      | none => none
      | some s2 => sweep_loop u s2 u ((s2.mem u).next) fuel

/-- The program state right before `initialize()` runs: `base = {0, &base}`,
`freep = &base`, `usedp = NULL`, nothing yet obtained from the OS. -/
def start_state (lo : Nat) (roots : List Int) (words : Nat → Int)
    (canGrow : Bool) : GC :=
  { mem := Function.update (fun _ => { size := 0, next := 0, mark := false })
      base { size := 0, next := base, mark := false },
    words := words, freep := base, usedp := none, brk := lo, lo := lo,
    roots := roots, canGrow := canGrow }

/-- `initialize()`: `more_core(MIN_ALLOC_SIZE)`. -/
def gc_init (s : GC) (fuel : Nat) : Option (Option GC) :=
  more_core s MIN_ALLOC_SIZE fuel

/-- A throwaway state, used only as the default of defensive matches below. -/
def dummyGC : GC := start_state 0 [] (fun _ => 0) false

/-- A memory assignment built from finitely many header writes. -/
def memOf (l : List (Nat × Header)) : Nat → Header :=
  l.foldr (fun p f => Function.update f p.1 p.2)
    (fun _ => { size := 0, next := 0, mark := false })

/-- The scenario of claim C4: the pristine program state whose first `sbrk`
will return unit address 256 (byte address 4096), with growth enabled, an
empty root segment and zeroed payload memory. -/
def c4_s0 : GC := start_state 256 [] (fun _ => 0) true

/-- The C4 scenario state after `initialize()`: one fresh 4096-byte arena,
a single free block of 256 units at unit address 256. -/
def c4_s1 : GC :=
  match gc_init c4_s0 100 with
  | some (some s) => s
  | _ => dummyGC

/-- The C4 scenario state after `gc_malloc(16)`. -/
def c4_s2 : GC :=
  match gc_malloc c4_s1 16 100 with
  | some (some _, s, _) => s
  | _ => dummyGC

/-- The C4 scenario state after `gc_malloc(16)` then `gc_malloc(4080)`. -/
def c4_s3 : GC :=
  match gc_malloc c4_s2 4080 100 with
  | some (some _, s, _) => s
  | _ => dummyGC

/-- A sequence of `gc_malloc` calls: the list of returned payload addresses
and the final state; `none` when any call returns `NULL` or runs out of
fuel.  This is the harness of claim C3. -/
def malloc_seq (fuel : Nat) : GC → List Nat → Option (List Nat × GC)
  | s, [] => some ([], s)
  | s, b :: bs =>
    match gc_malloc s b fuel with
    | some (some r, s', _) =>
      match malloc_seq fuel s' bs with
      | some (rs, t) => some (r :: rs, t)
      | none => none
    | _ => none

/-- The C3 witness run: a single 16-byte allocation from the
post-`initialize` state `c4_s1`. -/
def c3w : List Nat × GC :=
  match malloc_seq 100 c4_s1 [16] with
  | some rt => rt
  | none => ([], dummyGC)

/-- The C10 witness run: `gc_malloc(16)` from the post-`initialize` state. -/
def c10w : Option Nat × GC × Nat :=
  match gc_malloc c4_s1 16 100 with
  | some rtg => rtg
  | none => (none, dummyGC, 0)

/-- The C9 witness run: the state after `initialize()` and `gc_malloc(16)`
(used list `[510]`, free list `[256]`, empty root segment), collected
once. -/
def c9w : GC :=
  match gc_collect c4_s2 100 with
  | some t => t
  | none => dummyGC

/-- The C9 witness run, collected a second time. -/
def c9w2 : GC :=
  match gc_collect c9w 100 with
  | some t => t
  | none => dummyGC

/-- The failing input of claim C1: three used blocks of two units each, at
unit addresses 300, 310 and 320, with the used list in the order
310, 300, 320 starting at `usedp = 310`.  Block 300 is already marked (as
the root scan would leave it); 300's first payload word (word index 602,
byte address 4816) holds 4976, a pointer into 310's payload; 310's first
payload word (index 622) holds 5136, a pointer into 320's payload. -/
def c1_state : GC :=
  { mem := memOf [(base, { size := 0, next := base, mark := false }),
                  (300, { size := 2, next := 320, mark := true }),
                  (310, { size := 2, next := 300, mark := false }),
                  (320, { size := 2, next := 310, mark := false })],
    words := fun w => if w = 602 then 4976 else if w = 622 then 5136 else 0,
    freep := base, usedp := some 310, brk := 512, lo := 256,
    roots := [], canGrow := true }

/-- The failing input of claim C2: two used blocks of two units each at
unit addresses 300 (`usedp`, the head) and 310; the root segment holds the
single word 4976, a pointer into 310's payload, and no pointer into 300's;
payload memory holds no pointers; the free list is just the sentinel. -/
def c2_state : GC :=
  { mem := memOf [(base, { size := 0, next := base, mark := false }),
                  (300, { size := 2, next := 310, mark := false }),
                  (310, { size := 2, next := 300, mark := false })],
    words := fun _ => 0,
    freep := base, usedp := some 300, brk := 512, lo := 256,
    roots := [4976], canGrow := true }

/-- The counterexample state of claim C5: one free block of `2^31` units at
unit address 256 (the whole list is `base -> 256`); the block of `2^31`
units at `256 + 2^31` is address-adjacent to it, and merging the two
overflows the 32-bit size store: `(2^31 + 2^31) % 2^32 = 0`. -/
def c5_state : GC :=
  { mem := memOf [(base, { size := 0, next := 256, mark := false }),
                  (256, { size := 2 ^ 31, next := base, mark := false }),
                  (256 + 2 ^ 31, { size := 2 ^ 31, next := 0, mark := false })],
    words := fun _ => 0,
    freep := base, usedp := none, brk := 256 + 2 ^ 32, lo := 256,
    roots := [], canGrow := true }

/-- A small well-formed state exercising the amended claim C5: free list
`base -> 260` (4 units), block to insert at 270 (2 units, not adjacent to
anything). -/
def c5w_state : GC :=
  { mem := memOf [(base, { size := 0, next := 260, mark := false }),
                  (260, { size := 4, next := base, mark := false }),
                  (270, { size := 2, next := 0, mark := false })],
    words := fun _ => 0,
    freep := base, usedp := none, brk := 512, lo := 256,
    roots := [], canGrow := true }

/-! ### Well-formedness of the two circular lists

The free list is described by its spine `fs`: the heap nodes visited after
the sentinel, in link order, so that the node cycle is `base :: fs`.  The
used list is described by its node list `us`, whose head is `usedp`. -/

/-- `chain s a l`: starting at `a`, following the untagged `next` links
visits exactly the nodes of `l` in order. -/
def chain (s : GC) : Nat → List Nat → Prop
  | _, [] => True
  | a, x :: l => (s.mem a).next = x ∧ chain s x l

instance instDecidableChain (s : GC) : ∀ (a : Nat) (l : List Nat), Decidable (chain s a l)
  | _, [] => isTrue trivial
  | a, x :: l =>
    have : Decidable (chain s x l) := instDecidableChain s x l
    instDecidableAnd

/-- Two blocks with disjoint ranges (by stored size). -/
def Disj (s : GC) (a b : Nat) : Prop :=
  a + (s.mem a).size ≤ b ∨ b + (s.mem b).size ≤ a

instance (s : GC) (a b : Nat) : Decidable (Disj s a b) := by
  unfold Disj; infer_instance

/-- A sound free-list node: inside the OS-provided heap `[lo, brk)`, with a
32-bit size and a clear mark bit. -/
def goodFree (s : GC) (a : Nat) : Prop :=
  s.lo ≤ a ∧ a < s.brk ∧ a + (s.mem a).size ≤ s.brk ∧
  (s.mem a).size < 2 ^ 32 ∧ (s.mem a).mark = false

instance (s : GC) (a : Nat) : Decidable (goodFree s a) := by
  unfold goodFree; infer_instance

/-- A sound used-list block: inside the heap, nonempty, 32-bit size. -/
def goodUsed (s : GC) (a : Nat) : Prop :=
  s.lo ≤ a ∧ a < s.brk ∧ a + (s.mem a).size ≤ s.brk ∧
  1 ≤ (s.mem a).size ∧ (s.mem a).size < 2 ^ 32

instance (s : GC) (a : Nat) : Decidable (goodUsed s a) := by
  unfold goodUsed; infer_instance

/-- Well-formedness of the free list with spine `fs` (the cycle is
`base :: fs`, in ascending address order, blocks disjoint, sentinel of
size zero below the heap, cursor on the cycle). -/
structure FreeWF (s : GC) (fs : List Nat) : Prop where
  links : chain s base (fs ++ [base])
  good : ∀ a ∈ fs, goodFree s a
  sorted : (base :: fs).Chain' (· < ·)
  gaps : (base :: fs).Chain' (fun a b => a + (s.mem a).size ≤ b)
  base_size : (s.mem base).size = 0
  base_mark : (s.mem base).mark = false
  base_lo : base < s.lo
  cursor : s.freep ∈ base :: fs

/-- Well-formedness of the used list with node list `us` (head `usedp`,
a cycle, sound pairwise-disjoint blocks). -/
structure UsedWF (s : GC) (us : List Nat) : Prop where
  head : s.usedp = us.head?
  links : us = [] ∨ chain s (us.headD 0) (us.tail ++ [us.headD 0])
  good : ∀ a ∈ us, goodUsed s a
  disj : us.Pairwise (Disj s)

/-- Full heap well-formedness: both lists sound, every free node is
range-disjoint from every used block, and no free-list header lies inside
a used block. -/
structure WF (s : GC) (fs us : List Nat) : Prop where
  free : FreeWF s fs
  used : UsedWF s us
  cross : ∀ a ∈ base :: fs, ∀ b ∈ us,
    Disj s a b ∧ ¬ (b ≤ a ∧ a < b + (s.mem b).size)
  lo_brk : s.lo ≤ s.brk

/-- `x` lies in the stored range of some block of `l`. -/
def cover (s : GC) (l : List Nat) (x : Nat) : Prop :=
  ∃ a ∈ l, a ≤ x ∧ x < a + (s.mem a).size

/-- The stop condition of the `add_to_free_list` search loop at node `p`. -/
def stopP (s : GC) (bp p : Nat) : Prop :=
  (bp > p ∧ hdrSize * bp < (s.mem p).rawNext) ∨
  (hdrSize * p ≥ (s.mem p).rawNext ∧ (bp > p ∨ hdrSize * bp < (s.mem p).rawNext))

instance (s : GC) (bp p : Nat) : Decidable (stopP s bp p) := by
  unfold stopP; infer_instance

/-! ### A pure model of the mark phases -/

/-- The containment test of the scan loops: does the word value `ptr` point
into the payload of the block at unit address `x` (with sizes read from
`sz`)? -/
def inBlock (sz : Nat → Nat) (x : Nat) (ptr : Int) : Bool :=
  decide ((hdrSize * (x + 1) : Int) ≤ ptr) &&
  decide (ptr < (hdrSize * (x + sz x) : Int))

/-- The size fields of a state, as a bare function. -/
def szOf (s : GC) : Nat → Nat :=
  fun z => (s.mem z).size

/-- The mark bits of a state, as a bare function. -/
def markOf (s : GC) : Nat → Bool :=
  fun z => (s.mem z).mark

/-- The heap pass of `scan_heap`, as a pure function on mark assignments:
process the pending blocks in order; a block found marked has its payload
words scanned, each marking its containing block among `L` other than the
scanned one.  By disjointness of the used blocks a word has at most one
container, so the walk order of the inner loops does not matter and the
per-block effect is this order-independent union. -/
def mpass (sz : Nat → Nat) (wordf : Nat → Int) (L : List Nat) :
    List Nat → (Nat → Bool) → (Nat → Bool)
  | [], m => m
  | cu :: rest, m =>
    mpass sz wordf L rest
      (if m cu = true then
        (fun y => (m y ||
          (decide (y ∈ L) && !decide (y = cu) &&
            (payload_words cu (sz cu)).any (fun w => inBlock sz y (wordf w)))))
      else m)

/-- `t` agrees with `s` except that marks of blocks in `L` may differ: the
mark phases only ever touch the tag bits of used-list headers. -/
structure MarksOnly (s t : GC) (L : List Nat) : Prop where
  size : ∀ x, (t.mem x).size = (s.mem x).size
  next : ∀ x, (t.mem x).next = (s.mem x).next
  off : ∀ x, x ∉ L → t.mem x = s.mem x
  words : t.words = s.words
  freep : t.freep = s.freep
  usedp : t.usedp = s.usedp
  brk : t.brk = s.brk
  lo : t.lo = s.lo
  roots : t.roots = s.roots
  canGrow : t.canGrow = s.canGrow

/-! ### Basic lemmas about state updates -/

@[simp] lemma setMem_canGrow (s : GC) (a : Nat) (h : Header) :
    (setMem s a h).canGrow = s.canGrow := rfl

@[simp] lemma setMem_freep (s : GC) (a : Nat) (h : Header) :
    (setMem s a h).freep = s.freep := rfl

@[simp] lemma setMem_usedp (s : GC) (a : Nat) (h : Header) :
    (setMem s a h).usedp = s.usedp := rfl

@[simp] lemma setMem_brk (s : GC) (a : Nat) (h : Header) :
    (setMem s a h).brk = s.brk := rfl

@[simp] lemma setMem_lo (s : GC) (a : Nat) (h : Header) :
    (setMem s a h).lo = s.lo := rfl

@[simp] lemma setMem_roots (s : GC) (a : Nat) (h : Header) :
    (setMem s a h).roots = s.roots := rfl

@[simp] lemma setMem_words (s : GC) (a : Nat) (h : Header) :
    (setMem s a h).words = s.words := rfl

@[simp] lemma setMem_mem_same (s : GC) (a : Nat) (h : Header) :
    (setMem s a h).mem a = h := by
  simp [setMem]

lemma setMem_mem_other (s : GC) (a : Nat) (h : Header) (b : Nat) (hne : b ≠ a) :
    (setMem s a h).mem b = s.mem b := by
  simp [setMem, Function.update_noteq hne]

@[simp] lemma add_fwd_canGrow (s : GC) (bp p : Nat) :
    (add_fwd s bp p).canGrow = s.canGrow := by
  unfold add_fwd; split <;> rfl

@[simp] lemma add_fwd_usedp (s : GC) (bp p : Nat) :
    (add_fwd s bp p).usedp = s.usedp := by
  unfold add_fwd; split <;> rfl

@[simp] lemma add_fwd_brk (s : GC) (bp p : Nat) :
    (add_fwd s bp p).brk = s.brk := by
  unfold add_fwd; split <;> rfl

@[simp] lemma add_fwd_lo (s : GC) (bp p : Nat) :
    (add_fwd s bp p).lo = s.lo := by
  unfold add_fwd; split <;> rfl

@[simp] lemma add_fwd_roots (s : GC) (bp p : Nat) :
    (add_fwd s bp p).roots = s.roots := by
  unfold add_fwd; split <;> rfl

@[simp] lemma add_fwd_words (s : GC) (bp p : Nat) :
    (add_fwd s bp p).words = s.words := by
  unfold add_fwd; split <;> rfl

@[simp] lemma add_fwd_freep (s : GC) (bp p : Nat) :
    (add_fwd s bp p).freep = s.freep := by
  unfold add_fwd; split <;> rfl

@[simp] lemma add_bwd_canGrow (s : GC) (bp p : Nat) :
    (add_bwd s bp p).canGrow = s.canGrow := by
  unfold add_bwd; split <;> rfl

@[simp] lemma add_bwd_usedp (s : GC) (bp p : Nat) :
    (add_bwd s bp p).usedp = s.usedp := by
  unfold add_bwd; split <;> rfl

@[simp] lemma add_bwd_brk (s : GC) (bp p : Nat) :
    (add_bwd s bp p).brk = s.brk := by
  unfold add_bwd; split <;> rfl

@[simp] lemma add_bwd_lo (s : GC) (bp p : Nat) :
    (add_bwd s bp p).lo = s.lo := by
  unfold add_bwd; split <;> rfl

@[simp] lemma add_bwd_roots (s : GC) (bp p : Nat) :
    (add_bwd s bp p).roots = s.roots := by
  unfold add_bwd; split <;> rfl

@[simp] lemma add_bwd_words (s : GC) (bp p : Nat) :
    (add_bwd s bp p).words = s.words := by
  unfold add_bwd; split <;> rfl

@[simp] lemma add_at_canGrow (s : GC) (bp p : Nat) :
    (add_at s bp p).canGrow = s.canGrow := by
  unfold add_at; simp

@[simp] lemma add_at_usedp (s : GC) (bp p : Nat) :
    (add_at s bp p).usedp = s.usedp := by
  unfold add_at; simp

@[simp] lemma add_at_brk (s : GC) (bp p : Nat) :
    (add_at s bp p).brk = s.brk := by
  unfold add_at; simp

@[simp] lemma add_at_lo (s : GC) (bp p : Nat) :
    (add_at s bp p).lo = s.lo := by
  unfold add_at; simp

@[simp] lemma add_at_roots (s : GC) (bp p : Nat) :
    (add_at s bp p).roots = s.roots := by
  unfold add_at; simp

@[simp] lemma add_at_words (s : GC) (bp p : Nat) :
    (add_at s bp p).words = s.words := by
  unfold add_at; simp

@[simp] lemma add_at_freep (s : GC) (bp p : Nat) :
    (add_at s bp p).freep = p := rfl

/-! ### Chains, cycles and the free-list search -/

lemma chain_append (s : GC) (l1 l2 : List Nat) :
    ∀ a, chain s a (l1 ++ l2) ↔ chain s a l1 ∧ chain s (l1.getLastD a) l2 := by
  induction l1 with
  | nil => intro a; simp [chain]
  | cons x l1 ih =>
    intro a
    show (s.mem a).next = x ∧ chain s x (l1 ++ l2) ↔
      ((s.mem a).next = x ∧ chain s x l1) ∧ chain s ((x :: l1).getLastD a) l2
    rw [List.getLastD_cons, ih x]
    tauto

lemma chain_next_mid (s : GC) :
    ∀ (F1 : List Nat) (a z w : Nat) (F2 : List Nat),
      chain s a (F1 ++ z :: w :: F2) → (s.mem z).next = w := by
  intro F1
  induction F1 with
  | nil => intro a z w F2 h; exact h.2.1
  | cons x F1 ih => intro a z w F2 h; exact ih x z w F2 h.2

/-- The successor of a node in the free cycle `base :: fs` is the head of
what follows it, wrapping to `base`. -/
lemma cycle_next (s : GC) (fs : List Nat) (hlinks : chain s base (fs ++ [base]))
    (P Q : List Nat) (z : Nat) (hsplit : base :: fs = P ++ z :: Q) :
    (s.mem z).next = (Q ++ [base]).headD 0 := by
  rcases hq : Q ++ [base] with _ | ⟨w, R⟩
  · exact absurd hq (by simp)
  rcases P with _ | ⟨b, P'⟩
  · simp only [List.nil_append] at hsplit
    injection hsplit with h1 h2
    subst h1
    rw [h2, hq] at hlinks
    simp only [List.headD_cons]
    exact hlinks.1
  · injection hsplit with h1 h2
    have hrw : fs ++ [base] = P' ++ z :: w :: R := by
      rw [h2]; simp [hq]
    rw [hrw] at hlinks
    simp only [List.headD_cons]
    exact chain_next_mid s P' base z w R hlinks

lemma free_spot_succ (s : GC) (bp p fuel : Nat) :
    free_spot s bp p (fuel + 1) =
      if bp > p ∧ hdrSize * bp < (s.mem p).rawNext then some p
      else if hdrSize * p ≥ (s.mem p).rawNext ∧
          (bp > p ∨ hdrSize * bp < (s.mem p).rawNext) then some p
      else free_spot s bp ((s.mem p).next) fuel := rfl

lemma free_spot_stop (s : GC) (bp p fuel : Nat) (h : stopP s bp p) :
    free_spot s bp p (fuel + 1) = some p := by
  rw [free_spot_succ]
  rcases h with h | h
  · rw [if_pos h]
  · by_cases h1 : bp > p ∧ hdrSize * bp < (s.mem p).rawNext
    · rw [if_pos h1]
    · rw [if_neg h1, if_pos h]

lemma free_spot_go (s : GC) (bp p fuel : Nat) (h : ¬ stopP s bp p) :
    free_spot s bp p (fuel + 1) = free_spot s bp ((s.mem p).next) fuel := by
  rw [free_spot_succ]
  rw [if_neg (fun hc => h (Or.inl hc)), if_neg (fun hc => h (Or.inr hc))]

lemma free_spot_path (s : GC) (bp tgt : Nat) :
    ∀ (l : List Nat) (x : Nat) (fuel : Nat),
      chain s x (l ++ [tgt]) → ¬ stopP s bp x → (∀ z ∈ l, ¬ stopP s bp z) →
      stopP s bp tgt → l.length + 2 ≤ fuel →
      free_spot s bp x fuel = some tgt := by
  intro l
  induction l with
  | nil =>
    intro x fuel hc hx _ ht hf
    obtain ⟨f1, rfl⟩ : ∃ f, fuel = f + 1 := ⟨fuel - 1, by omega⟩
    rw [free_spot_go s bp x f1 hx, hc.1]
    obtain ⟨f2, rfl⟩ : ∃ f, f1 = f + 1 := ⟨f1 - 1, by omega⟩
    exact free_spot_stop s bp tgt f2 ht
  | cons y l ih =>
    intro x fuel hc hx hl ht hf
    obtain ⟨f1, rfl⟩ : ∃ f, fuel = f + 1 := ⟨fuel - 1, by omega⟩
    rw [free_spot_go s bp x f1 hx, hc.1]
    refine ih y f1 hc.2 (hl y (by simp)) (fun z hz => hl z (by simp [hz])) ht ?_
    simp only [List.length_cons] at hf
    omega

/-- Splitting a strictly sorted list around a value `bp` that is above its
head and not an element. -/
lemma split_below (bp : Nat) :
    ∀ (l : List Nat) (h0 : Nat), h0 < bp → (h0 :: l).Chain' (· < ·) →
      bp ∉ h0 :: l →
      ∃ A p B, h0 :: l = A ++ p :: B ∧ p < bp ∧
        (∀ a ∈ A, a < bp) ∧ (∀ b ∈ B, bp < b) := by
  intro l
  induction l with
  | nil =>
    intro h0 hh0 _ _
    exact ⟨[], h0, [], by simp, hh0, by simp, by simp⟩
  | cons y l ih =>
    intro h0 hh0 hsort hnotin
    by_cases hy : y < bp
    · obtain ⟨A, p, B, hsplit, hp, hA, hB⟩ :=
        ih y hy (hsort.tail) (fun hc => hnotin (List.mem_cons_of_mem _ hc))
      exact ⟨h0 :: A, p, B, by rw [List.cons_append, ← hsplit], hp,
        by intro a ha; rcases List.mem_cons.mp ha with rfl | ha
           · exact hh0
           · exact hA a ha, hB⟩
    · have hyne : y ≠ bp := fun hc => hnotin (by simp [hc])
      have hygt : bp < y := by omega
      have hsorted2 : (y :: l).Pairwise (· < ·) :=
        List.chain'_iff_pairwise.mp hsort.tail
      refine ⟨[], h0, y :: l, by simp, hh0, by simp, ?_⟩
      intro b hb
      rcases List.mem_cons.mp hb with rfl | hb
      · exact hygt
      · exact lt_trans hygt ((List.pairwise_cons.mp hsorted2).1 b hb)

lemma stopP_unmarked (s : GC) (bp p : Nat) (hm : (s.mem p).mark = false) :
    stopP s bp p ↔
      ((p < bp ∧ bp < (s.mem p).next) ∨
       ((s.mem p).next ≤ p ∧ (p < bp ∨ bp < (s.mem p).next))) := by
  unfold stopP Header.rawNext
  rw [hm]
  simp only [Bool.cond_false, Nat.add_zero, hdrSize, gt_iff_lt, ge_iff_le]
  omega

lemma pairwise_split_lt {L X Y : List Nat} {z : Nat}
    (hpw : L.Pairwise (· < ·)) (hL : L = X ++ z :: Y) : ∀ y ∈ Y, z < y := by
  subst hL
  have h1 : (z :: Y).Pairwise (· < ·) :=
    List.Pairwise.sublist (List.sublist_append_right X (z :: Y)) hpw
  exact (List.pairwise_cons.mp h1).1

lemma nodup_split_ne {L X Y Z : List Nat} {t : Nat} (hnd : L.Nodup)
    (hL : L = X ++ Y ++ t :: Z) : ∀ z ∈ Y, z ≠ t := by
  subst hL
  intro z hz hc
  subst hc
  rw [List.append_assoc, List.nodup_append] at hnd
  have h2 := hnd.2.1
  rw [List.nodup_append] at h2
  exact h2.2.2 hz (by simp)

lemma nodup_split_ne' {L X Z : List Nat} {t : Nat} (hnd : L.Nodup)
    (hL : L = X ++ t :: Z) : ∀ z ∈ Z, z ≠ t := by
  subst hL
  intro z hz hc
  subst hc
  rw [List.nodup_append] at hnd
  have h2 := hnd.2.1
  rw [List.nodup_cons] at h2
  exact h2.1 hz

lemma freeWF_marks (s : GC) (fs : List Nat) (wf : FreeWF s fs) :
    ∀ z ∈ base :: fs, (s.mem z).mark = false := by
  intro z hz
  rcases List.mem_cons.mp hz with rfl | hz
  · exact wf.base_mark
  · exact (wf.good z hz).2.2.2.2

lemma freeWF_nodup (s : GC) (fs : List Nat) (wf : FreeWF s fs) :
    (base :: fs).Nodup :=
  (List.chain'_iff_pairwise.mp wf.sorted).nodup

/-- At the unique straddle node the search loop stops; at every other node
of the cycle it does not. -/
lemma spot_spec (s : GC) (fs : List Nat) (wf : FreeWF s fs) (bp : Nat)
    (hbp : base < bp) (hnotin : bp ∉ base :: fs) :
    ∃ A p B, base :: fs = A ++ p :: B ∧ p < bp ∧
      (∀ a ∈ A, a < bp) ∧ (∀ b ∈ B, bp < b) ∧
      stopP s bp p ∧ (∀ z ∈ base :: fs, z ≠ p → ¬ stopP s bp z) := by
  obtain ⟨A, p, B, hsplit, hp, hA, hB⟩ := split_below bp fs base hbp wf.sorted hnotin
  have hpw : (base :: fs).Pairwise (· < ·) := List.chain'_iff_pairwise.mp wf.sorted
  have hmk := freeWF_marks s fs wf
  have hnd := freeWF_nodup s fs wf
  have hpmem : p ∈ base :: fs := by rw [hsplit]; simp
  have hnextp : (s.mem p).next = (B ++ [base]).headD 0 :=
    cycle_next s fs wf.links A B p hsplit
  refine ⟨A, p, B, hsplit, hp, hA, hB, ?_, ?_⟩
  · rw [stopP_unmarked s bp p (hmk p hpmem), hnextp]
    rcases B with _ | ⟨c, B2⟩
    · simp only [List.nil_append, List.headD_cons]
      right
      constructor
      · rcases List.mem_cons.mp hpmem with rfl | hpfs
        · exact le_refl _
        · exact Nat.le_of_lt ((List.pairwise_cons.mp hpw).1 p hpfs)
      · exact Or.inl hp
    · simp only [List.cons_append, List.headD_cons]
      exact Or.inl ⟨hp, hB c (by simp)⟩
  · intro z hz hzp
    have hzmem : z ∈ A ∨ z ∈ B := by
      rw [hsplit] at hz
      rcases List.mem_append.mp hz with h | h
      · exact Or.inl h
      · rcases List.mem_cons.mp h with rfl | h
        · exact absurd rfl hzp
        · exact Or.inr h
    rw [stopP_unmarked s bp z (hmk z hz)]
    rcases hzmem with hzA | hzB
    · obtain ⟨A1, A2, hA12⟩ := List.append_of_mem hzA
      have hsplit2 : base :: fs = A1 ++ z :: (A2 ++ p :: B) := by
        rw [hsplit, hA12]; simp
      have hnextz : (s.mem z).next = ((A2 ++ p :: B) ++ [base]).headD 0 :=
        cycle_next s fs wf.links A1 (A2 ++ p :: B) z hsplit2
      have hzlt : ∀ y ∈ A2 ++ p :: B, z < y := pairwise_split_lt hpw hsplit2
      rcases A2 with _ | ⟨a2, A3⟩
      · simp only [List.nil_append, List.cons_append, List.headD_cons] at hnextz
        rw [hnextz]
        have h1 : z < p := hzlt p (by simp)
        intro hc
        rcases hc with ⟨_, hc2⟩ | ⟨hc1, _⟩ <;> omega
      · simp only [List.cons_append, List.headD_cons] at hnextz
        rw [hnextz]
        have h1 : z < a2 := hzlt a2 (by simp)
        have h2 : a2 < bp := hA a2 (by rw [hA12]; simp)
        intro hc
        rcases hc with ⟨_, hc2⟩ | ⟨hc1, _⟩ <;> omega
    · obtain ⟨B1, B2, hB12⟩ := List.append_of_mem hzB
      have hsplit2 : base :: fs = (A ++ p :: B1) ++ z :: B2 := by
        rw [hsplit, hB12]; simp
      have hnextz : (s.mem z).next = (B2 ++ [base]).headD 0 :=
        cycle_next s fs wf.links (A ++ p :: B1) B2 z hsplit2
      have hzgt : bp < z := hB z hzB
      rcases B2 with _ | ⟨c, B3⟩
      · simp only [List.nil_append, List.headD_cons] at hnextz
        rw [hnextz]
        intro hc
        rcases hc with ⟨hc1, _⟩ | ⟨_, hc2 | hc3⟩ <;> omega
      · simp only [List.cons_append, List.headD_cons] at hnextz
        rw [hnextz]
        have h1 : z < c := pairwise_split_lt hpw hsplit2 c (by simp)
        have h2 : bp < c := hB c (by rw [hB12]; simp)
        intro hc
        rcases hc with ⟨hc1, _⟩ | ⟨hc1, _⟩ <;> omega

/-- From any start node on the cycle, the search loop reaches the unique
stop node. -/
lemma free_spot_reaches (s : GC) (fs : List Nat) (hlinks : chain s base (fs ++ [base]))
    (hnd : (base :: fs).Nodup) (bp tgt x : Nat)
    (hx : x ∈ base :: fs) (htgt : tgt ∈ base :: fs)
    (hstop : stopP s bp tgt) (huniq : ∀ z ∈ base :: fs, z ≠ tgt → ¬ stopP s bp z)
    (fuel : Nat) (hf : 2 * fs.length + 3 ≤ fuel) :
    free_spot s bp x fuel = some tgt := by
  by_cases hxt : x = tgt
  · subst hxt
    obtain ⟨f1, rfl⟩ : ∃ f, fuel = f + 1 := ⟨fuel - 1, by omega⟩
    exact free_spot_stop s bp x f1 hstop
  obtain ⟨P, Q, hPQ⟩ := List.append_of_mem hx
  have hlen : fs.length + 1 = P.length + Q.length + 1 := by
    have h := congrArg List.length hPQ
    simp only [List.length_cons, List.length_append] at h
    omega
  rcases P with _ | ⟨b, P'⟩
  · -- x = base, the walk goes forward through fs
    simp only [List.nil_append] at hPQ
    injection hPQ with h1 h2
    subst h1
    have hcx : chain s base (Q ++ [base]) := by rw [← h2]; exact hlinks
    have htgtQ : tgt ∈ Q := by
      rcases List.mem_cons.mp htgt with rfl | h
      · exact absurd rfl hxt
      · rw [h2] at h; exact h
    obtain ⟨Q1, Q2, hQ12⟩ := List.append_of_mem htgtQ
    have hq12len : Q.length = Q1.length + Q2.length + 1 := by
      rw [hQ12]; simp; omega
    have hchain : chain s base ((Q1 ++ [tgt]) ++ (Q2 ++ [base])) := by
      rw [← List.append_assoc]
      have hrw : Q1 ++ [tgt] ++ Q2 = Q := by rw [hQ12]; simp
      rw [hrw]; exact hcx
    have hpre : chain s base (Q1 ++ [tgt]) := ((chain_append s _ _ base).mp hchain).1
    refine free_spot_path s bp tgt Q1 base fuel hpre
      (huniq base hx hxt) ?_ hstop ?_
    · intro z hz
      refine huniq z ?_ ?_
      · rw [h2, hQ12]; simp [hz]
      · exact nodup_split_ne hnd
          (show base :: fs = [base] ++ Q1 ++ tgt :: Q2 by rw [h2, hQ12]; simp) z hz
    · have hqfs : fs.length = Q.length := by rw [h2]
      omega
  · -- x ∈ fs
    injection hPQ with h1 h2
    have hfseq : fs = P' ++ x :: Q := h2
    have hchains : chain s base ((P' ++ [x]) ++ (Q ++ [base])) := by
      have : (P' ++ [x]) ++ (Q ++ [base]) = fs ++ [base] := by rw [hfseq]; simp
      rw [this]; exact hlinks
    have hsplitc := (chain_append s (P' ++ [x]) (Q ++ [base]) base).mp hchains
    have hlast : (P' ++ [x]).getLastD base = x := by simp
    have hcx : chain s x (Q ++ [base]) := by rw [← hlast]; exact hsplitc.2
    have hcP : chain s base (P' ++ [x]) := hsplitc.1
    by_cases htq : tgt ∈ Q
    · obtain ⟨Q1, Q2, hQ12⟩ := List.append_of_mem htq
      have hchain : chain s x ((Q1 ++ [tgt]) ++ (Q2 ++ [base])) := by
        have : (Q1 ++ [tgt]) ++ (Q2 ++ [base]) = Q ++ [base] := by rw [hQ12]; simp
        rw [this]; exact hcx
      have hpre : chain s x (Q1 ++ [tgt]) := ((chain_append s _ _ x).mp hchain).1
      refine free_spot_path s bp tgt Q1 x fuel hpre
        (huniq x hx hxt) ?_ hstop ?_
      · intro z hz
        refine huniq z ?_ ?_
        · rw [hfseq, hQ12]; simp [hz]
        · exact nodup_split_ne hnd
            (show base :: fs = (base :: P' ++ [x]) ++ Q1 ++ tgt :: Q2 by
              rw [hfseq, hQ12]; simp) z hz
      · have hq12len : Q.length = Q1.length + Q2.length + 1 := by
          rw [hQ12]; simp; omega
        have hle := congrArg List.length hfseq
        simp only [List.length_append, List.length_cons] at hle
        omega
    · -- the walk wraps through base
      have hbase_ne_x : base ≠ x := by
        intro hc
        rw [List.nodup_cons] at hnd
        exact hnd.1 (by rw [hfseq, ← hc]; simp)
      rcases List.mem_cons.mp htgt with htb | htfs
      · -- tgt = base
        subst htb
        refine free_spot_path s bp base Q x fuel hcx (huniq x hx hxt) ?_ hstop ?_
        · intro z hz
          refine huniq z (by rw [hfseq]; simp [hz]) ?_
          rw [List.nodup_cons] at hnd
          intro hc
          exact hnd.1 (by rw [hfseq, ← hc]; simp [hz])
        · have hle := congrArg List.length hfseq
          simp only [List.length_append, List.length_cons] at hle
          omega
      · -- tgt ∈ P': the path runs through Q, wraps at base, then through R1
        have htP' : tgt ∈ P' := by
          rw [hfseq] at htfs
          rcases List.mem_append.mp htfs with h | h
          · exact h
          · rcases List.mem_cons.mp h with rfl | h
            · exact absurd rfl hxt
            · exact absurd h htq
        obtain ⟨R1, R2, hR12⟩ := List.append_of_mem htP'
        have hcPpre : chain s base ((R1 ++ [tgt]) ++ (R2 ++ [x])) := by
          have hrw : (R1 ++ [tgt]) ++ (R2 ++ [x]) = P' ++ [x] := by rw [hR12]; simp
          rw [hrw]; exact hcP
        have hfull : chain s x ((Q ++ [base]) ++ (R1 ++ [tgt])) := by
          rw [chain_append]
          refine ⟨hcx, ?_⟩
          have hl : (Q ++ [base]).getLastD x = base := by simp
          rw [hl]
          exact ((chain_append s (R1 ++ [tgt]) (R2 ++ [x]) base).mp hcPpre).1
        have hform : (Q ++ [base]) ++ (R1 ++ [tgt]) = (Q ++ base :: R1) ++ [tgt] := by
          simp
        rw [hform] at hfull
        refine free_spot_path s bp tgt (Q ++ base :: R1) x fuel hfull
          (huniq x hx hxt) ?_ hstop ?_
        · intro z hz
          have harr : base :: fs = (base :: R1) ++ tgt :: (R2 ++ x :: Q) := by
            rw [hfseq, hR12]; simp
          rcases List.mem_append.mp hz with hzQ | hzbr
          · refine huniq z (by rw [hfseq]; simp [hzQ]) ?_
            exact nodup_split_ne' hnd harr z (by simp [hzQ])
          · rcases List.mem_cons.mp hzbr with rfl | hzR1
            · refine huniq base (by simp) ?_
              rw [List.nodup_cons] at hnd
              intro hc
              exact hnd.1 (by rw [hc, hfseq, hR12]; simp)
            · refine huniq z (by rw [hfseq, hR12]; simp [hzR1]) ?_
              exact nodup_split_ne hnd
                (show base :: fs = [base] ++ R1 ++ tgt :: (R2 ++ x :: Q) by
                  rw [harr]; simp) z hzR1
        · have hR1len : R1.length ≤ P'.length := by
            rw [hR12]; simp only [List.length_append, List.length_cons]; omega
          simp only [List.length_append, List.length_cons] at hlen ⊢
          omega

/-! ### The effect of `add_at` on a well-formed free list -/

lemma chain_iff_chain' (s : GC) : ∀ (l : List Nat) (a : Nat),
    chain s a l ↔ (a :: l).Chain' (fun u v => (s.mem u).next = v) := by
  intro l
  induction l with
  | nil => intro a; simp [chain]
  | cons x l ih =>
    intro a
    rw [List.chain'_cons]
    show (s.mem a).next = x ∧ chain s x l ↔ _
    rw [ih x]

lemma chain'_mem_congr (s t : GC) (P : Header → Nat → Nat → Prop) :
    ∀ (l : List Nat), (∀ z ∈ l.dropLast, t.mem z = s.mem z) →
      l.Chain' (fun u v => P (s.mem u) u v) →
      l.Chain' (fun u v => P (t.mem u) u v) := by
  intro l
  induction l with
  | nil => intro _ _; simp
  | cons a l ih =>
    cases l with
    | nil => intro _ _; simp
    | cons b l' =>
      intro hmem hc
      rw [List.chain'_cons] at hc ⊢
      refine ⟨?_, ih (fun z hz => hmem z ?_) hc.2⟩
      · rw [hmem a (by simp)]
        exact hc.1
      · simp only [List.dropLast_cons₂, List.mem_cons] at hz ⊢
        exact Or.inr hz

lemma add_fwd_pos (s : GC) (bp p : Nat)
    (h : hdrSize * (bp + (s.mem bp).size) = (s.mem p).rawNext) :
    add_fwd s bp p = setMem s bp
      { size := ((s.mem bp).size + (s.mem ((s.mem p).next)).size) % 2 ^ 32,
        next := (s.mem ((s.mem p).next)).next,
        mark := (s.mem ((s.mem p).next)).mark } := by
  unfold add_fwd; rw [if_pos h]

lemma add_fwd_neg (s : GC) (bp p : Nat)
    (h : ¬ hdrSize * (bp + (s.mem bp).size) = (s.mem p).rawNext) :
    add_fwd s bp p = setMem s bp
      { s.mem bp with next := (s.mem p).next, mark := (s.mem p).mark } := by
  unfold add_fwd; rw [if_neg h]

lemma add_bwd_pos (s : GC) (bp p : Nat) (h : p + (s.mem p).size = bp) :
    add_bwd s bp p = setMem s p
      { size := ((s.mem p).size + (s.mem bp).size) % 2 ^ 32,
        next := (s.mem bp).next, mark := (s.mem bp).mark } := by
  unfold add_bwd; rw [if_pos h]

lemma add_bwd_neg (s : GC) (bp p : Nat) (h : ¬ p + (s.mem p).size = bp) :
    add_bwd s bp p = setMem s p
      { s.mem p with next := bp, mark := false } := by
  unfold add_bwd; rw [if_neg h]

lemma headD_of_head? {l : List Nat} {y : Nat} (h : l.head? = some y) :
    l.headD 0 = y := by
  cases l with
  | nil => cases h
  | cons a l =>
    simp only [List.head?_cons, Option.some.injEq] at h
    simp [h]

/-- Rebuilding free-list well-formedness after `add_at`: the nodes before
the insertion point keep their headers, `p` now links to the head of the
rebuilt rest `R`, and `R`'s nodes satisfy the invariants in the new
state. -/
lemma freeWF_rebuild (s t : GC) (fs A B R : List Nat) (p bp szp' : Nat)
    (wf : FreeWF s fs)
    (hsplit : base :: fs = A ++ p :: B)
    (hbrk : t.brk = s.brk) (hlo : t.lo = s.lo) (hfreep : t.freep ∈ A ++ p :: R)
    (ht_p : t.mem p = { size := szp', next := (R ++ [base]).headD 0, mark := false })
    (ht_A : ∀ z ∈ A, t.mem z = s.mem z)
    (hpz : p = base → szp' = 0)
    (hpbp : p < bp)
    (hR_lt : ∀ b ∈ R, bp ≤ b)
    (hR_sorted : R.Chain' (· < ·))
    (hR_chain : (R ++ [base]).Chain' (fun u v => (t.mem u).next = v))
    (hR_gaps : R.Chain' (fun u v => u + (t.mem u).size ≤ v))
    (hR_good : ∀ b ∈ R, goodFree t b)
    (hgap_p : ∀ hd ∈ R.head?, p + szp' ≤ hd)
    (hszp_ext : p + szp' ≤ s.brk)
    (hszp_32 : szp' < 2 ^ 32) :
    ∃ fs', base :: fs' = A ++ p :: R ∧ FreeWF t fs' := by
  rcases A with _ | ⟨a0, A'⟩
  · -- A = [], so p is the sentinel itself
    simp only [List.nil_append] at hsplit
    injection hsplit with h1 h2
    subst h1
    have hsz0 : szp' = 0 := hpz rfl
    refine ⟨R, by simp, ?_⟩
    constructor
    · rw [chain_iff_chain' t (R ++ [base]) base, List.chain'_cons']
      refine ⟨?_, hR_chain⟩
      intro y hy
      rw [Option.mem_def] at hy
      rw [ht_p]
      exact headD_of_head? hy
    · exact fun a ha => hR_good a ha
    · rw [List.chain'_cons']
      refine ⟨?_, hR_sorted⟩
      intro y hy
      rw [Option.mem_def] at hy
      have hmy : y ∈ R := by
        cases R with
        | nil => cases hy
        | cons a l => injection hy with hy; simp [hy]
      exact lt_of_lt_of_le hpbp (hR_lt y hmy)
    · rw [List.chain'_cons']
      refine ⟨?_, hR_gaps⟩
      intro y hy
      rw [ht_p]
      exact hgap_p y hy
    · rw [ht_p, hsz0]
    · rw [ht_p]
    · rw [hlo]; exact wf.base_lo
    · simpa using hfreep
  · -- A = base :: A'
    injection hsplit with h1 h2
    subst h1
    have hnd := freeWF_nodup s fs wf
    have hpfs : p ∈ fs := by rw [h2]; simp
    have hpbase : p ≠ base := by
      intro hc
      rw [List.nodup_cons] at hnd
      exact hnd.1 (hc ▸ hpfs)
    have hgp := wf.good p hpfs
    have holdlist : base :: fs = ((base :: A') ++ [p]) ++ B := by
      rw [h2]; simp
    have hA_dl : ((base :: A') ++ [p]).dropLast = base :: A' := by
      rw [List.dropLast_concat]
    have hsorted_old : ((base :: A') ++ [p]).Chain' (· < ·) := by
      have h0 := wf.sorted
      rw [show (base :: fs) = ((base :: A') ++ [p]) ++ B from holdlist] at h0
      exact (List.chain'_append.mp h0).1
    have hgaps_old : ((base :: A') ++ [p]).Chain'
        (fun u v => u + (s.mem u).size ≤ v) := by
      have h0 := wf.gaps
      rw [show (base :: fs) = ((base :: A') ++ [p]) ++ B from holdlist] at h0
      exact (List.chain'_append.mp h0).1
    have hlinks_old : ((base :: A') ++ [p]).Chain'
        (fun u v => (s.mem u).next = v) := by
      have h0 := wf.links
      rw [chain_iff_chain'] at h0
      rw [show (base :: (fs ++ [base])) = ((base :: A') ++ [p]) ++ (B ++ [base]) by
        rw [h2]; simp] at h0
      exact (List.chain'_append.mp h0).1
    refine ⟨A' ++ p :: R, by simp, ?_⟩
    have hnew : base :: (A' ++ p :: R) = ((base :: A') ++ [p]) ++ R := by simp
    constructor
    · rw [chain_iff_chain' t]
      rw [show (base :: ((A' ++ p :: R) ++ [base])) = ((base :: A') ++ [p]) ++ (R ++ [base]) by
        simp]
      rw [List.chain'_append]
      refine ⟨?_, hR_chain, ?_⟩
      · exact chain'_mem_congr s t (fun h u v => h.next = v) _
          (by rw [hA_dl]; exact ht_A) hlinks_old
      · intro x hx y hy
        rw [List.getLast?_concat, Option.mem_def] at hx
        injection hx with hx
        subst hx
        rw [Option.mem_def] at hy
        rw [ht_p]
        exact headD_of_head? hy
    · intro a ha
      have ha2 : a ∈ A' ∨ a = p ∨ a ∈ R := by
        rcases List.mem_append.mp ha with h | h
        · exact Or.inl h
        · rcases List.mem_cons.mp h with h | h
          · exact Or.inr (Or.inl h)
          · exact Or.inr (Or.inr h)
      rcases ha2 with h | h | h
      · have hafs : a ∈ fs := by rw [h2]; simp [h]
        have hga := wf.good a hafs
        have hmema : t.mem a = s.mem a := ht_A a (by simp [h])
        exact ⟨hlo ▸ hga.1, hbrk ▸ hga.2.1, by rw [hmema, hbrk]; exact hga.2.2.1,
          by rw [hmema]; exact hga.2.2.2.1, by rw [hmema]; exact hga.2.2.2.2⟩
      · subst h
        exact ⟨hlo ▸ hgp.1, hbrk ▸ hgp.2.1, by rw [ht_p, hbrk]; exact hszp_ext,
          by rw [ht_p]; exact hszp_32, by rw [ht_p]⟩
      · exact hR_good a h
    · rw [hnew, List.chain'_append]
      refine ⟨hsorted_old, hR_sorted, ?_⟩
      intro x hx y hy
      rw [List.getLast?_concat, Option.mem_def] at hx
      injection hx with hx
      subst hx
      rw [Option.mem_def] at hy
      have hmy : y ∈ R := by
        cases R with
        | nil => cases hy
        | cons c l => injection hy with hy; simp [hy]
      exact lt_of_lt_of_le hpbp (hR_lt y hmy)
    · rw [hnew, List.chain'_append]
      refine ⟨?_, hR_gaps, ?_⟩
      · exact chain'_mem_congr s t (fun h u v => u + h.size ≤ v) _
          (by rw [hA_dl]; exact ht_A) hgaps_old
      · intro x hx y hy
        rw [List.getLast?_concat, Option.mem_def] at hx
        injection hx with hx
        subst hx
        rw [ht_p]
        exact hgap_p y hy
    · rw [ht_A base (by simp)]; exact wf.base_size
    · rw [ht_A base (by simp)]; exact wf.base_mark
    · rw [hlo]; exact wf.base_lo
    · simpa using hfreep

lemma rawNext_eq {h : Header} (hm : h.mark = false) :
    h.rawNext = hdrSize * h.next := by
  simp [Header.rawNext, hm]

lemma pairwise_split_rel {R : Nat → Nat → Prop} {L X Y : List Nat} {z : Nat}
    (hpw : L.Pairwise R) (hL : L = X ++ z :: Y) : ∀ y ∈ Y, R z y := by
  subst hL
  have h1 : (z :: Y).Pairwise R :=
    List.Pairwise.sublist (List.sublist_append_right X (z :: Y)) hpw
  exact (List.pairwise_cons.mp h1).1

/-- The gap relation holds between any two spine positions, not just
adjacent ones. -/
lemma freeWF_pairwise_gaps (s : GC) (fs : List Nat) (wf : FreeWF s fs) :
    (base :: fs).Pairwise (fun a b => a + (s.mem a).size ≤ b) := by
  haveI : IsTrans Nat (fun a b => a + (s.mem a).size ≤ b) :=
    ⟨fun a b c hab hbc => by omega⟩
  exact List.chain'_iff_pairwise.mp wf.gaps

/-- Any two distinct free-cycle nodes have disjoint ranges. -/
lemma freeWF_mem_disj (s : GC) (fs : List Nat) (wf : FreeWF s fs) :
    ∀ a ∈ base :: fs, ∀ b ∈ base :: fs, a ≠ b → Disj s a b := by
  have h2 : (base :: fs).Pairwise (fun a b => Disj s a b) :=
    (freeWF_pairwise_gaps s fs wf).imp (fun h => Or.inl h)
  have hsym : Symmetric (fun a b => Disj s a b) := by
    intro a b h
    unfold Disj at h ⊢
    exact Or.symm h
  exact fun a ha b hb hab => h2.forall hsym ha hb hab

lemma usedWF_nodup (s : GC) (us : List Nat) (wf : UsedWF s us) : us.Nodup := by
  refine List.Pairwise.imp_of_mem ?_ wf.disj
  intro a b ha hb hd hc
  subst hc
  have h1 : a + (s.mem a).size ≤ a := by rcases hd with h | h <;> exact h
  exact absurd (wf.good a ha).2.2.2.1 (by omega)

/-- The untagged successor of a free-cycle node is a free-cycle node. -/
lemma cycle_closed (s : GC) (fs : List Nat) (hlinks : chain s base (fs ++ [base])) :
    ∀ a ∈ base :: fs, (s.mem a).next ∈ base :: fs := by
  intro a ha
  obtain ⟨P, Q, hPQ⟩ := List.append_of_mem ha
  rw [cycle_next s fs hlinks P Q a hPQ]
  cases Q with
  | nil => simp
  | cons c Q' =>
    rw [hPQ]
    simp

/-- A cycle node whose successor is `p ≠ base` sits right before `p` on the
spine. -/
lemma cycle_pred (s : GC) (fs : List Nat) (hlinks : chain s base (fs ++ [base]))
    (prevp p : Nat) (hprev : prevp ∈ base :: fs) (hnext : (s.mem prevp).next = p)
    (hpb : p ≠ base) :
    ∃ C D, base :: fs = C ++ prevp :: p :: D := by
  obtain ⟨Y, Z, hYZ⟩ := List.append_of_mem hprev
  have h1 := cycle_next s fs hlinks Y Z prevp hYZ
  rw [hnext] at h1
  cases Z with
  | nil => exact absurd h1 (by simpa using hpb)
  | cons z Z' =>
    simp only [List.cons_append, List.headD_cons] at h1
    exact ⟨Y, Z', by rw [hYZ, h1]⟩

/-- A successful free-list walk ends at a stop node, inside any set closed
under the successor map that holds the start. -/
lemma free_spot_closure (s : GC) (bp : Nat) (L : List Nat)
    (hcl : ∀ a ∈ L, (s.mem a).next ∈ L) :
    ∀ (fuel x p : Nat), x ∈ L → free_spot s bp x fuel = some p →
      p ∈ L ∧ stopP s bp p := by
  intro fuel
  induction fuel with
  | zero => intro x p _ h; cases h
  | succ f ih =>
    intro x p hx h
    by_cases hs : stopP s bp x
    · rw [free_spot_stop s bp x f hs] at h
      injection h with h
      subst h
      exact ⟨hx, hs⟩
    · rw [free_spot_go s bp x f hs] at h
      exact ih ((s.mem x).next) p (hcl x hx) h

lemma chain_congr (s t : GC) (l : List Nat) (a : Nat)
    (hmem : ∀ z ∈ (a :: l).dropLast, t.mem z = s.mem z)
    (h : chain s a l) : chain t a l := by
  rw [chain_iff_chain'] at h ⊢
  exact chain'_mem_congr s t (fun h u v => h.next = v) (a :: l) hmem h

/-- Free-list well-formedness transports to a state that agrees on the
cycle's headers, keeps `lo` and the cursor, and does not shrink the heap. -/
lemma freeWF_congr (s t : GC) (fs : List Nat)
    (hmem : ∀ a ∈ base :: fs, t.mem a = s.mem a)
    (hbrk : s.brk ≤ t.brk) (hlo : t.lo = s.lo) (hfreep : t.freep = s.freep)
    (wf : FreeWF s fs) : FreeWF t fs := by
  constructor
  · refine chain_congr s t (fs ++ [base]) base ?_ wf.links
    intro z hz
    rw [show base :: (fs ++ [base]) = (base :: fs) ++ [base] by simp,
      List.dropLast_concat] at hz
    exact hmem z hz
  · intro a ha
    have hg := wf.good a ha
    have hm := hmem a (List.mem_cons_of_mem _ ha)
    exact ⟨by rw [hlo]; exact hg.1, lt_of_lt_of_le hg.2.1 hbrk,
      by rw [hm]; exact le_trans hg.2.2.1 hbrk,
      by rw [hm]; exact hg.2.2.2.1, by rw [hm]; exact hg.2.2.2.2⟩
  · exact wf.sorted
  · refine chain'_mem_congr s t (fun h u v => u + h.size ≤ v) (base :: fs) ?_ wf.gaps
    intro z hz
    exact hmem z (List.dropLast_subset _ hz)
  · rw [hmem base (by simp)]; exact wf.base_size
  · rw [hmem base (by simp)]; exact wf.base_mark
  · rw [hlo]; exact wf.base_lo
  · rw [hfreep]; exact wf.cursor

/-- Used-list well-formedness transports likewise. -/
lemma usedWF_congr (s t : GC) (us : List Nat)
    (hmem : ∀ a ∈ us, t.mem a = s.mem a)
    (hbrk : s.brk ≤ t.brk) (hlo : t.lo = s.lo) (husedp : t.usedp = s.usedp)
    (wf : UsedWF s us) : UsedWF t us := by
  constructor
  · rw [husedp, wf.head]
  · cases us with
    | nil => exact Or.inl rfl
    | cons u rest =>
      rcases wf.links with h | h
      · cases h
      · refine Or.inr (chain_congr s t _ _ ?_ h)
        intro z hz
        rw [show ((u :: rest).headD 0) :: ((u :: rest).tail ++ [(u :: rest).headD 0])
            = (u :: rest) ++ [u] by simp, List.dropLast_concat] at hz
        exact hmem z hz
  · intro a ha
    have hg := wf.good a ha
    have hm := hmem a ha
    exact ⟨by rw [hlo]; exact hg.1, lt_of_lt_of_le hg.2.1 hbrk,
      by rw [hm]; exact le_trans hg.2.2.1 hbrk,
      by rw [hm]; exact hg.2.2.2.1, by rw [hm]; exact hg.2.2.2.2⟩
  · refine List.Pairwise.imp_of_mem ?_ wf.disj
    intro a b ha hb hd
    unfold Disj at hd ⊢
    rw [hmem a ha, hmem b hb]
    exact hd

/-- The four-way effect of `add_at` at the straddle point of a well-formed
free list: plain insertion, forward coalescence, backward coalescence, or
both.  In every case the free list is well-formed again, only the headers
of `bp` and `p` are written, and the covered addresses only grow by `bp`'s
range. -/
lemma add_at_spec (s : GC) (fs A B : List Nat) (p bp : Nat)
    (wf : FreeWF s fs)
    (hsplit : base :: fs = A ++ p :: B)
    (hpb : p < bp) (hAlt : ∀ a ∈ A, a < bp) (hBgt : ∀ b ∈ B, bp < b)
    (hlo : s.lo ≤ bp) (hbrkb : bp < s.brk)
    (hext : bp + (s.mem bp).size ≤ s.brk) (hszb : (s.mem bp).size < 2 ^ 32)
    (hdisj : ∀ z ∈ fs, Disj s bp z) (hnotin : bp ∉ base :: fs) :
    ∃ fs', FreeWF (add_at s bp p) fs' ∧
      (∀ a, a ≠ bp → a ≠ p → (add_at s bp p).mem a = s.mem a) ∧
      (∀ x, cover (add_at s bp p) fs' x →
        cover s fs x ∨ (bp ≤ x ∧ x < bp + (s.mem bp).size)) ∧
      ((bp + (s.mem bp).size ≠ (B ++ [base]).headD 0 ∧ p + (s.mem p).size ≠ bp ∧
        base :: fs' = A ++ p :: bp :: B ∧
        (add_at s bp p).mem bp =
          { size := (s.mem bp).size, next := (B ++ [base]).headD 0, mark := false } ∧
        (add_at s bp p).mem p =
          { size := (s.mem p).size, next := bp, mark := false }) ∨
       (∃ c B2, B = c :: B2 ∧ bp + (s.mem bp).size = c ∧ p + (s.mem p).size ≠ bp ∧
        base :: fs' = A ++ p :: bp :: B2 ∧
        (add_at s bp p).mem bp =
          { size := ((s.mem bp).size + (s.mem c).size) % 2 ^ 32,
            next := (B2 ++ [base]).headD 0, mark := false } ∧
        (add_at s bp p).mem p =
          { size := (s.mem p).size, next := bp, mark := false }) ∨
       (bp + (s.mem bp).size ≠ (B ++ [base]).headD 0 ∧ p + (s.mem p).size = bp ∧
        base :: fs' = A ++ p :: B ∧
        (add_at s bp p).mem p =
          { size := ((s.mem p).size + (s.mem bp).size) % 2 ^ 32,
            next := (B ++ [base]).headD 0, mark := false }) ∨
       (∃ c B2, B = c :: B2 ∧ bp + (s.mem bp).size = c ∧ p + (s.mem p).size = bp ∧
        base :: fs' = A ++ p :: B2 ∧
        (add_at s bp p).mem p =
          { size := ((s.mem p).size + ((s.mem bp).size + (s.mem c).size) % 2 ^ 32) % 2 ^ 32,
            next := (B2 ++ [base]).headD 0, mark := false })) := by
  have hmk := freeWF_marks s fs wf
  have hnd := freeWF_nodup s fs wf
  have hpmem : p ∈ base :: fs := by rw [hsplit]; simp
  have hpneb : p ≠ bp := Nat.ne_of_lt hpb
  have hbpneq : bp ≠ p := Nat.ne_of_gt hpb
  have hbaselt : base ≤ p := by
    rcases List.mem_cons.mp hpmem with rfl | h
    · exact le_refl _
    · exact Nat.le_of_lt
        ((List.pairwise_cons.mp (List.chain'_iff_pairwise.mp wf.sorted)).1 p h)
  have hbbp : base < bp := lt_of_le_of_lt hbaselt hpb
  have hnextp : (s.mem p).next = (B ++ [base]).headD 0 :=
    cycle_next s fs wf.links A B p hsplit
  have hmarkp : (s.mem p).mark = false := hmk p hpmem
  have hpz : p = base → (s.mem p).size = 0 := fun hc => hc ▸ wf.base_size
  have hpsz_ext : p + (s.mem p).size ≤ s.brk := by
    rcases List.mem_cons.mp hpmem with rfl | h
    · rw [wf.base_size]
      omega
    · exact (wf.good p h).2.2.1
  have hpsz_32 : (s.mem p).size < 2 ^ 32 := by
    rcases List.mem_cons.mp hpmem with rfl | h
    · rw [wf.base_size]; norm_num
    · exact (wf.good p h).2.2.2.1
  have hgap_pbp : p + (s.mem p).size ≤ bp := by
    rcases List.mem_cons.mp hpmem with rfl | h
    · rw [wf.base_size]; omega
    · rcases hdisj p h with h1 | h1
      · omega
      · exact h1
  have hBfs : ∀ b ∈ B, b ∈ fs := by
    intro b hb
    have h1 : b ∈ base :: fs := by rw [hsplit]; simp [hb]
    rcases List.mem_cons.mp h1 with rfl | h2
    · exact absurd (hBgt base hb) (by omega)
    · exact h2
  have hpA : p ∉ A := by
    have h0 : (A ++ p :: B).Nodup := hsplit ▸ hnd
    rw [List.nodup_append] at h0
    intro hc
    exact h0.2.2 hc (by simp)
  have hBnp : ∀ z ∈ B, z ≠ p := by
    have h0 : (A ++ p :: B).Nodup := hsplit ▸ hnd
    rw [List.nodup_append] at h0
    have h1 := h0.2.1
    rw [List.nodup_cons] at h1
    intro z hz hc
    exact h1.1 (hc ▸ hz)
  have hAmem : ∀ z ∈ A, z ∈ base :: fs := by
    intro z hz; rw [hsplit]; simp [hz]
  have hBne_bp : ∀ z ∈ B, z ≠ bp := by
    intro z hz hc
    exact hnotin (hc ▸ (by rw [hsplit]; simp [hz] : z ∈ base :: fs))
  have huntouched : ∀ a, a ≠ bp → a ≠ p → (add_at s bp p).mem a = s.mem a := by
    intro a hab hap
    show (add_bwd (add_fwd s bp p) bp p).mem a = s.mem a
    have h1 : (add_fwd s bp p).mem a = s.mem a := by
      unfold add_fwd; split <;> exact setMem_mem_other _ _ _ _ hab
    have h2 : (add_bwd (add_fwd s bp p) bp p).mem a = (add_fwd s bp p).mem a := by
      unfold add_bwd; split <;> exact setMem_mem_other _ _ _ _ hap
    rw [h2, h1]
  have hmidp : (add_fwd s bp p).mem p = s.mem p := by
    unfold add_fwd; split <;> exact setMem_mem_other _ _ _ _ hpneb
  have hfwd_iff : (hdrSize * (bp + (s.mem bp).size) = (s.mem p).rawNext) ↔
      bp + (s.mem bp).size = (B ++ [base]).headD 0 := by
    rw [rawNext_eq hmarkp, hnextp]
    constructor
    · intro h
      exact Nat.eq_of_mul_eq_mul_left (by norm_num [hdrSize]) h
    · intro h
      rw [h]
  -- decompositions of the old invariants over the split
  have holdlist : (base :: fs) = (A ++ [p]) ++ B := by rw [hsplit]; simp
  have hsorted_split := List.chain'_append.mp (holdlist ▸ wf.sorted)
  have hgaps_split := List.chain'_append.mp (holdlist ▸ wf.gaps)
  have hlinks_split : ((A ++ [p]) ++ (B ++ [base])).Chain'
      (fun u v => (s.mem u).next = v) := by
    have h0 := wf.links
    rw [chain_iff_chain'] at h0
    rw [show (base :: (fs ++ [base])) = ((A ++ [p]) ++ (B ++ [base])) by
      rw [show (base :: (fs ++ [base])) = (base :: fs) ++ [base] by simp, hsplit]
      simp] at h0
    exact h0
  have hlinks_B : (B ++ [base]).Chain' (fun u v => (s.mem u).next = v) :=
    (List.chain'_append.mp hlinks_split).2.1
  have hsorted_B : B.Chain' (· < ·) := hsorted_split.2.1
  have hgaps_B : B.Chain' (fun u v => u + (s.mem u).size ≤ v) := hgaps_split.2.1
  have htrans_next : ∀ (L : List Nat), (∀ z ∈ L.dropLast, z ≠ bp ∧ z ≠ p) →
      L.Chain' (fun u v => (s.mem u).next = v) →
      L.Chain' (fun u v => ((add_at s bp p).mem u).next = v) := by
    intro L hne hc
    exact chain'_mem_congr s _ (fun h u v => h.next = v) L
      (fun z hz => huntouched z (hne z hz).1 (hne z hz).2) hc
  have htrans_gaps : ∀ (L : List Nat), (∀ z ∈ L.dropLast, z ≠ bp ∧ z ≠ p) →
      L.Chain' (fun u v => u + (s.mem u).size ≤ v) →
      L.Chain' (fun u v => u + ((add_at s bp p).mem u).size ≤ v) := by
    intro L hne hc
    exact chain'_mem_congr s _ (fun h u v => u + h.size ≤ v) L
      (fun z hz => huntouched z (hne z hz).1 (hne z hz).2) hc
  have ht_A : ∀ z ∈ A, (add_at s bp p).mem z = s.mem z := fun z hz =>
    huntouched z (fun hc => hnotin (hc ▸ hAmem z hz)) (fun hc => hpA (hc ▸ hz))
  have hgood_B : ∀ b ∈ B, goodFree (add_at s bp p) b := by
    intro b hb
    have hgb := wf.good b (hBfs b hb)
    have hub : (add_at s bp p).mem b = s.mem b :=
      huntouched b (hBne_bp b hb) (hBnp b hb)
    exact ⟨by rw [add_at_lo]; exact hgb.1, by rw [add_at_brk]; exact hgb.2.1,
      by rw [add_at_brk, hub]; exact hgb.2.2.1, by rw [hub]; exact hgb.2.2.2.1,
      by rw [hub]; exact hgb.2.2.2.2⟩
  have hcover_A : ∀ a ∈ A, ∀ x, a ≤ x → x < a + ((add_at s bp p).mem a).size →
      cover s fs x := by
    intro a ha x hx1 hx2
    rw [ht_A a ha] at hx2
    rcases List.mem_cons.mp (hAmem a ha) with rfl | hafs
    · rw [wf.base_size] at hx2
      omega
    · exact ⟨a, hafs, hx1, hx2⟩
  by_cases hb : p + (s.mem p).size = bp
  all_goals by_cases hf : bp + (s.mem bp).size = (B ++ [base]).headD 0
  -- case: backward and forward merge
  · have hpnotbase : p ≠ base := by
      intro hc
      rw [hc, wf.base_size] at hb
      have hb1 : base = 1 := rfl
      omega
    have hpfs : p ∈ fs := by
      rcases List.mem_cons.mp hpmem with rfl | h
      · exact absurd rfl hpnotbase
      · exact h
    have hgp := wf.good p hpfs
    rcases B with _ | ⟨c, B2⟩
    · exfalso
      simp only [List.nil_append, List.headD_cons] at hf
      have hb1 : base = 1 := rfl
      omega
    simp only [List.cons_append, List.headD_cons] at hf
    have hcB : c ∈ c :: B2 := by simp
    have hcfs : c ∈ fs := hBfs c hcB
    have hcmark : (s.mem c).mark = false := hmk c (by rw [hsplit]; simp)
    have hnextc : (s.mem c).next = (B2 ++ [base]).headD 0 :=
      cycle_next s fs wf.links (A ++ [p]) B2 c (by rw [hsplit]; simp)
    have hgc := wf.good c hcfs
    have hmid : add_fwd s bp p = setMem s bp
        { size := ((s.mem bp).size + (s.mem c).size) % 2 ^ 32,
          next := (B2 ++ [base]).headD 0, mark := false } := by
      rw [add_fwd_pos s bp p (hfwd_iff.mpr (by simpa using hf))]
      rw [hnextp]
      simp only [List.cons_append, List.headD_cons]
      rw [hnextc, hcmark]
    have hmidbp : (add_fwd s bp p).mem bp =
        { size := ((s.mem bp).size + (s.mem c).size) % 2 ^ 32,
          next := (B2 ++ [base]).headD 0, mark := false } := by
      rw [hmid, setMem_mem_same]
    have hbwdcond : p + ((add_fwd s bp p).mem p).size = bp := by
      rw [hmidp]; exact hb
    have ht_p : (add_at s bp p).mem p =
        { size := ((s.mem p).size + ((s.mem bp).size + (s.mem c).size) % 2 ^ 32) % 2 ^ 32,
          next := (B2 ++ [base]).headD 0, mark := false } := by
      show (add_bwd (add_fwd s bp p) bp p).mem p = _
      rw [add_bwd_pos _ _ _ hbwdcond, setMem_mem_same, hmidp, hmidbp]
    have hsorted_B2 : B2.Chain' (· < ·) := hsorted_B.tail
    have hgaps_B2 : B2.Chain' (fun u v => u + (s.mem u).size ≤ v) := hgaps_B.tail
    have hlinks_B2 : (B2 ++ [base]).Chain' (fun u v => (s.mem u).next = v) :=
      (List.chain'_cons'.mp hlinks_B).2
    have hcgap : ∀ hd ∈ B2.head?, c + (s.mem c).size ≤ hd :=
      (List.chain'_cons'.mp hgaps_B).1
    have hszp' : ((s.mem p).size + ((s.mem bp).size + (s.mem c).size) % 2 ^ 32) % 2 ^ 32
        ≤ (s.mem p).size + (s.mem bp).size + (s.mem c).size := by
      have h1 := Nat.mod_le ((s.mem bp).size + (s.mem c).size) (2 ^ 32)
      have h2 := Nat.mod_le ((s.mem p).size + ((s.mem bp).size + (s.mem c).size) % 2 ^ 32) (2 ^ 32)
      omega
    obtain ⟨fs', hfs'eq, hwf'⟩ := freeWF_rebuild s (add_at s bp p) fs A (c :: B2) B2
      p bp (((s.mem p).size + ((s.mem bp).size + (s.mem c).size) % 2 ^ 32) % 2 ^ 32)
      wf hsplit
      (add_at_brk s bp p) (add_at_lo s bp p) (by rw [add_at_freep]; simp)
      ht_p ht_A (fun hc => absurd hc hpnotbase) hpb
      (fun b hbm => Nat.le_of_lt (hBgt b (by simp [hbm])))
      hsorted_B2
      (htrans_next (B2 ++ [base])
        (by intro z hz
            rw [List.dropLast_concat] at hz
            exact ⟨hBne_bp z (by simp [hz]), hBnp z (by simp [hz])⟩)
        hlinks_B2)
      (htrans_gaps B2
        (fun z hz => ⟨hBne_bp z (by simp [List.dropLast_subset _ hz]),
          hBnp z (by simp [List.dropLast_subset _ hz])⟩)
        hgaps_B2)
      (fun b hbm => hgood_B b (by simp [hbm]))
      (by intro hd hhd
          have h1 := hcgap hd hhd
          omega)
      (by have h1 := hgc.2.2.1
          omega)
      (Nat.mod_lt _ (by norm_num))
    refine ⟨fs', hwf', huntouched, ?_,
      Or.inr (Or.inr (Or.inr ⟨c, B2, rfl, hf, hb, hfs'eq, ht_p⟩))⟩
    rintro x ⟨a, ha, hax1, hax2⟩
    have hamem : a ∈ A ++ p :: B2 := by
      rw [← hfs'eq]
      exact List.mem_cons_of_mem _ ha
    rcases List.mem_append.mp hamem with haA | haPR
    · exact Or.inl (hcover_A a haA x hax1 hax2)
    · rcases List.mem_cons.mp haPR with rfl | haB
      · rw [ht_p] at hax2
        dsimp only at hax2
        by_cases hx1 : x < a + (s.mem a).size
        · exact Or.inl ⟨a, hpfs, hax1, hx1⟩
        · by_cases hx2 : x < bp + (s.mem bp).size
          · exact Or.inr ⟨by omega, hx2⟩
          · refine Or.inl ⟨c, hcfs, by omega, by omega⟩
      · rw [huntouched a (hBne_bp a (by simp [haB])) (hBnp a (by simp [haB]))] at hax2
        exact Or.inl ⟨a, hBfs a (by simp [haB]), hax1, hax2⟩
  -- case: backward merge only
  · have hpnotbase : p ≠ base := by
      intro hc
      rw [hc, wf.base_size] at hb
      have hb1 : base = 1 := rfl
      omega
    have hpfs : p ∈ fs := by
      rcases List.mem_cons.mp hpmem with rfl | h
      · exact absurd rfl hpnotbase
      · exact h
    have hgp := wf.good p hpfs
    have hmid : add_fwd s bp p = setMem s bp
        { s.mem bp with next := (s.mem p).next, mark := (s.mem p).mark } :=
      add_fwd_neg s bp p (fun hc => hf (hfwd_iff.mp hc))
    have hmidbp : (add_fwd s bp p).mem bp =
        { size := (s.mem bp).size, next := (B ++ [base]).headD 0, mark := false } := by
      rw [hmid, setMem_mem_same, hnextp, hmarkp]
    have hbwdcond : p + ((add_fwd s bp p).mem p).size = bp := by
      rw [hmidp]; exact hb
    have ht_p : (add_at s bp p).mem p =
        { size := ((s.mem p).size + (s.mem bp).size) % 2 ^ 32,
          next := (B ++ [base]).headD 0, mark := false } := by
      show (add_bwd (add_fwd s bp p) bp p).mem p = _
      rw [add_bwd_pos _ _ _ hbwdcond, setMem_mem_same, hmidp, hmidbp]
    have hszp' : ((s.mem p).size + (s.mem bp).size) % 2 ^ 32
        ≤ (s.mem p).size + (s.mem bp).size := Nat.mod_le _ _
    obtain ⟨fs', hfs'eq, hwf'⟩ := freeWF_rebuild s (add_at s bp p) fs A B B
      p bp (((s.mem p).size + (s.mem bp).size) % 2 ^ 32) wf hsplit
      (add_at_brk s bp p) (add_at_lo s bp p) (by rw [add_at_freep]; simp)
      ht_p ht_A (fun hc => absurd hc hpnotbase) hpb
      (fun b hbm => Nat.le_of_lt (hBgt b hbm))
      hsorted_B
      (htrans_next (B ++ [base])
        (by intro z hz
            rw [List.dropLast_concat] at hz
            exact ⟨hBne_bp z hz, hBnp z hz⟩)
        hlinks_B)
      (htrans_gaps B
        (fun z hz => ⟨hBne_bp z (List.dropLast_subset _ hz),
          hBnp z (List.dropLast_subset _ hz)⟩)
        hgaps_B)
      hgood_B
      (by intro hd hhd
          have hhdB := List.mem_of_mem_head? hhd
          have h1 : bp + (s.mem bp).size ≤ hd := by
            rcases hdisj hd (hBfs hd hhdB) with h1 | h1
            · exact h1
            · exact absurd h1 (by have h2 := hBgt hd hhdB; omega)
          omega)
      (by omega)
      (Nat.mod_lt _ (by norm_num))
    refine ⟨fs', hwf', huntouched, ?_,
      Or.inr (Or.inr (Or.inl ⟨hf, hb, hfs'eq, ht_p⟩))⟩
    rintro x ⟨a, ha, hax1, hax2⟩
    have hamem : a ∈ A ++ p :: B := by
      rw [← hfs'eq]
      exact List.mem_cons_of_mem _ ha
    rcases List.mem_append.mp hamem with haA | haPR
    · exact Or.inl (hcover_A a haA x hax1 hax2)
    · rcases List.mem_cons.mp haPR with rfl | haB
      · rw [ht_p] at hax2
        dsimp only at hax2
        by_cases hx1 : x < a + (s.mem a).size
        · exact Or.inl ⟨a, hpfs, hax1, hx1⟩
        · exact Or.inr ⟨by omega, by omega⟩
      · rw [huntouched a (hBne_bp a haB) (hBnp a haB)] at hax2
        exact Or.inl ⟨a, hBfs a haB, hax1, hax2⟩
  -- case: forward merge only
  · rcases B with _ | ⟨c, B2⟩
    · exfalso
      simp only [List.nil_append, List.headD_cons] at hf
      have hb1 : base = 1 := rfl
      omega
    simp only [List.cons_append, List.headD_cons] at hf
    have hcB : c ∈ c :: B2 := by simp
    have hcfs : c ∈ fs := hBfs c hcB
    have hcmark : (s.mem c).mark = false := hmk c (by rw [hsplit]; simp)
    have hnextc : (s.mem c).next = (B2 ++ [base]).headD 0 :=
      cycle_next s fs wf.links (A ++ [p]) B2 c (by rw [hsplit]; simp)
    have hgc := wf.good c hcfs
    have hmid : add_fwd s bp p = setMem s bp
        { size := ((s.mem bp).size + (s.mem c).size) % 2 ^ 32,
          next := (B2 ++ [base]).headD 0, mark := false } := by
      rw [add_fwd_pos s bp p (hfwd_iff.mpr (by simpa using hf))]
      rw [hnextp]
      simp only [List.cons_append, List.headD_cons]
      rw [hnextc, hcmark]
    have hmidbp : (add_fwd s bp p).mem bp =
        { size := ((s.mem bp).size + (s.mem c).size) % 2 ^ 32,
          next := (B2 ++ [base]).headD 0, mark := false } := by
      rw [hmid, setMem_mem_same]
    have hbwdcond : ¬ p + ((add_fwd s bp p).mem p).size = bp := by
      rw [hmidp]; exact hb
    have ht_p : (add_at s bp p).mem p =
        { size := (s.mem p).size, next := bp, mark := false } := by
      show (add_bwd (add_fwd s bp p) bp p).mem p = _
      rw [add_bwd_neg _ _ _ hbwdcond, setMem_mem_same, hmidp]
    have ht_bp : (add_at s bp p).mem bp =
        { size := ((s.mem bp).size + (s.mem c).size) % 2 ^ 32,
          next := (B2 ++ [base]).headD 0, mark := false } := by
      show (add_bwd (add_fwd s bp p) bp p).mem bp = _
      rw [add_bwd_neg _ _ _ hbwdcond, setMem_mem_other _ _ _ _ hbpneq, hmidbp]
    have hsorted_B2 : B2.Chain' (· < ·) := hsorted_B.tail
    have hgaps_B2 : B2.Chain' (fun u v => u + (s.mem u).size ≤ v) := hgaps_B.tail
    have hlinks_B2 : (B2 ++ [base]).Chain' (fun u v => (s.mem u).next = v) :=
      (List.chain'_cons'.mp hlinks_B).2
    have hcgap : ∀ hd ∈ B2.head?, c + (s.mem c).size ≤ hd :=
      (List.chain'_cons'.mp hgaps_B).1
    have hclt : ∀ hd ∈ B2.head?, c < hd :=
      (List.chain'_cons'.mp hsorted_B).1
    obtain ⟨fs', hfs'eq, hwf'⟩ := freeWF_rebuild s (add_at s bp p) fs A (c :: B2)
      (bp :: B2) p bp ((s.mem p).size) wf hsplit
      (add_at_brk s bp p) (add_at_lo s bp p) (by rw [add_at_freep]; simp)
      (by rw [ht_p]; simp)
      ht_A hpz hpb
      (by intro b hbm
          rcases List.mem_cons.mp hbm with rfl | hbm
          · exact le_refl _
          · exact Nat.le_of_lt (hBgt b (by simp [hbm])))
      (List.chain'_cons'.mpr
        ⟨fun y hy => lt_trans (hBgt c hcB) (hclt y hy), hsorted_B2⟩)
      (by rw [List.cons_append, List.chain'_cons']
          refine ⟨?_, htrans_next (B2 ++ [base]) ?_ hlinks_B2⟩
          · intro y hy
            rw [ht_bp]
            exact headD_of_head? hy
          · intro z hz
            rw [List.dropLast_concat] at hz
            exact ⟨hBne_bp z (by simp [hz]), hBnp z (by simp [hz])⟩)
      (List.chain'_cons'.mpr
        ⟨by intro y hy
            rw [ht_bp]
            dsimp only
            have h1 := hcgap y hy
            have h2 := Nat.mod_le ((s.mem bp).size + (s.mem c).size) (2 ^ 32)
            omega,
         htrans_gaps B2 (fun z hz => ⟨hBne_bp z (by simp [List.dropLast_subset _ hz]),
           hBnp z (by simp [List.dropLast_subset _ hz])⟩) hgaps_B2⟩)
      (by intro b hbm
          rcases List.mem_cons.mp hbm with rfl | hbm
          · refine ⟨by rw [add_at_lo]; exact hlo, by rw [add_at_brk]; exact hbrkb,
              ?_, by rw [ht_bp]; exact Nat.mod_lt _ (by norm_num), by rw [ht_bp]⟩
            rw [add_at_brk, ht_bp]
            dsimp only
            have h1 := hgc.2.2.1
            have h2 := Nat.mod_le ((s.mem b).size + (s.mem c).size) (2 ^ 32)
            omega
          · exact hgood_B b (by simp [hbm]))
      (by intro hd hhd
          simp only [List.head?_cons, Option.mem_def, Option.some.injEq] at hhd
          rw [← hhd]
          exact hgap_pbp)
      hpsz_ext hpsz_32
    refine ⟨fs', hwf', huntouched, ?_,
      Or.inr (Or.inl ⟨c, B2, rfl, hf, hb, hfs'eq, ht_bp, ht_p⟩)⟩
    rintro x ⟨a, ha, hax1, hax2⟩
    have hamem : a ∈ A ++ p :: bp :: B2 := by
      rw [← hfs'eq]
      exact List.mem_cons_of_mem _ ha
    rcases List.mem_append.mp hamem with haA | haPR
    · exact Or.inl (hcover_A a haA x hax1 hax2)
    · rcases List.mem_cons.mp haPR with rfl | haR
      · rw [ht_p] at hax2
        rcases List.mem_cons.mp hpmem with rfl | hpfs
        · rw [wf.base_size] at hax2
          omega
        · exact Or.inl ⟨a, hpfs, hax1, hax2⟩
      · rcases List.mem_cons.mp haR with rfl | haB
        · rw [ht_bp] at hax2
          dsimp only at hax2
          by_cases hx2 : x < a + (s.mem a).size
          · exact Or.inr ⟨hax1, hx2⟩
          · have h2 := Nat.mod_le ((s.mem a).size + (s.mem c).size) (2 ^ 32)
            refine Or.inl ⟨c, hcfs, by omega, by omega⟩
        · rw [huntouched a (hBne_bp a (by simp [haB])) (hBnp a (by simp [haB]))] at hax2
          exact Or.inl ⟨a, hBfs a (by simp [haB]), hax1, hax2⟩
  · -- no merge at all
    have hmid : add_fwd s bp p = setMem s bp
        { s.mem bp with next := (s.mem p).next, mark := (s.mem p).mark } :=
      add_fwd_neg s bp p (fun hc => hf (hfwd_iff.mp hc))
    have hmidbp : (add_fwd s bp p).mem bp =
        { size := (s.mem bp).size, next := (B ++ [base]).headD 0, mark := false } := by
      rw [hmid, setMem_mem_same, hnextp, hmarkp]
    have hbwdcond : ¬ p + ((add_fwd s bp p).mem p).size = bp := by
      rw [hmidp]; exact hb
    have ht_p : (add_at s bp p).mem p =
        { size := (s.mem p).size, next := bp, mark := false } := by
      show (add_bwd (add_fwd s bp p) bp p).mem p = _
      rw [add_bwd_neg _ _ _ hbwdcond, setMem_mem_same, hmidp]
    have ht_bp : (add_at s bp p).mem bp =
        { size := (s.mem bp).size, next := (B ++ [base]).headD 0, mark := false } := by
      show (add_bwd (add_fwd s bp p) bp p).mem bp = _
      rw [add_bwd_neg _ _ _ hbwdcond, setMem_mem_other _ _ _ _ hbpneq, hmidbp]
    obtain ⟨fs', hfs'eq, hwf'⟩ := freeWF_rebuild s (add_at s bp p) fs A B (bp :: B)
      p bp ((s.mem p).size) wf hsplit
      (add_at_brk s bp p) (add_at_lo s bp p) (by rw [add_at_freep]; simp)
      (by rw [ht_p]; simp)
      ht_A hpz hpb
      (by intro b hbm
          rcases List.mem_cons.mp hbm with rfl | hbm
          · exact le_refl _
          · exact Nat.le_of_lt (hBgt b hbm))
      (List.chain'_cons'.mpr
        ⟨fun y hy => hBgt y (List.mem_of_mem_head? hy), hsorted_B⟩)
      (by rw [List.cons_append, List.chain'_cons']
          refine ⟨?_, htrans_next (B ++ [base]) ?_ hlinks_B⟩
          · intro y hy
            rw [ht_bp]
            exact headD_of_head? hy
          · intro z hz
            rw [List.dropLast_concat] at hz
            exact ⟨hBne_bp z hz, hBnp z hz⟩)
      (List.chain'_cons'.mpr
        ⟨by intro y hy
            have hyB := List.mem_of_mem_head? hy
            rw [ht_bp]
            rcases hdisj y (hBfs y hyB) with h1 | h1
            · exact h1
            · exact absurd h1 (by have h2 := hBgt y hyB; omega),
         htrans_gaps B (fun z hz => ⟨hBne_bp z (List.dropLast_subset _ hz),
           hBnp z (List.dropLast_subset _ hz)⟩) hgaps_B⟩)
      (by intro b hbm
          rcases List.mem_cons.mp hbm with rfl | hbm
          · exact ⟨by rw [add_at_lo]; exact hlo, by rw [add_at_brk]; exact hbrkb,
              by rw [add_at_brk, ht_bp]; exact hext, by rw [ht_bp]; exact hszb,
              by rw [ht_bp]⟩
          · exact hgood_B b hbm)
      (by intro hd hhd
          simp only [List.head?_cons, Option.mem_def, Option.some.injEq] at hhd
          rw [← hhd]
          exact hgap_pbp)
      hpsz_ext hpsz_32
    refine ⟨fs', hwf', huntouched, ?_, Or.inl ⟨hf, hb, hfs'eq, ht_bp, ht_p⟩⟩
    rintro x ⟨a, ha, hax1, hax2⟩
    have hamem : a ∈ A ++ p :: (bp :: B) := by
      rw [← hfs'eq]
      exact List.mem_cons_of_mem _ ha
    rcases List.mem_append.mp hamem with haA | haPR
    · exact Or.inl (hcover_A a haA x hax1 hax2)
    · rcases List.mem_cons.mp haPR with rfl | haR
      · rw [ht_p] at hax2
        rcases List.mem_cons.mp hpmem with rfl | hpfs
        · rw [wf.base_size] at hax2
          omega
        · exact Or.inl ⟨a, hpfs, hax1, hax2⟩
      · rcases List.mem_cons.mp haR with rfl | haB
        · rw [ht_bp] at hax2
          exact Or.inr ⟨hax1, hax2⟩
        · rw [huntouched a (hBne_bp a haB) (hBnp a haB)] at hax2
          exact Or.inl ⟨a, hBfs a haB, hax1, hax2⟩

/-- Address-origin and length of a rebuilt spine: every node of the new
spine is an old node or the inserted `bp`, and it grows by at most one. -/
lemma spine_sub (t : GC) (fs fs' A B R : List Nat) (p bp : Nat)
    (hsplit : base :: fs = A ++ p :: B) (hwf' : FreeWF t fs')
    (hsp : base :: fs' = A ++ p :: R) (hR : ∀ r ∈ R, r = bp ∨ r ∈ B)
    (hRlen : R.length ≤ B.length + 1) :
    (∀ a ∈ fs', a = bp ∨ a ∈ fs) ∧ fs'.length ≤ fs.length + 1 := by
  have hpmem : p ∈ base :: fs := by rw [hsplit]; simp
  constructor
  · intro a ha
    have hane : base < a := lt_of_lt_of_le hwf'.base_lo (hwf'.good a ha).1
    have hmem' : a ∈ A ++ p :: R := by
      rw [← hsp]
      exact List.mem_cons_of_mem _ ha
    have hofcyc : a ∈ base :: fs → a ∈ fs := by
      intro hc
      rcases List.mem_cons.mp hc with rfl | h
      · exact absurd hane (lt_irrefl _)
      · exact h
    rcases List.mem_append.mp hmem' with haA | hpR
    · exact Or.inr (hofcyc (by rw [hsplit]; exact List.mem_append.mpr (Or.inl haA)))
    · rcases List.mem_cons.mp hpR with rfl | hr
      · exact Or.inr (hofcyc hpmem)
      · rcases hR a hr with rfl | hBm
        · exact Or.inl rfl
        · exact Or.inr (hofcyc (by rw [hsplit]; simp [hBm]))
  · have h1 := congrArg List.length hsp
    have h2 := congrArg List.length hsplit
    simp only [List.length_cons, List.length_append] at h1 h2
    omega

/-- The full effect of `add_to_free_list` on a well-formed free list: with
enough fuel the walk finds the straddling node `p` and succeeds, the result
is well-formed, only the headers at `p` and `bp` change, coverage grows by
at most the inserted range, every new spine address is an old one or `bp`,
and the spine grows by at most one node. -/
lemma add_to_free_list_spec (s : GC) (fs : List Nat) (wf : FreeWF s fs) (bp : Nat)
    (hlo : s.lo ≤ bp) (hbrkb : bp < s.brk)
    (hext : bp + (s.mem bp).size ≤ s.brk) (hszb : (s.mem bp).size < 2 ^ 32)
    (hdisj : ∀ z ∈ fs, Disj s bp z) (hnotin : bp ∉ base :: fs)
    (fuel : Nat) (hf : 2 * fs.length + 3 ≤ fuel) :
    ∃ p fs', add_to_free_list s bp fuel = some (add_at s bp p) ∧
      p ∈ base :: fs ∧
      FreeWF (add_at s bp p) fs' ∧
      (∀ a, a ≠ bp → a ≠ p → (add_at s bp p).mem a = s.mem a) ∧
      (∀ x, cover (add_at s bp p) fs' x →
        cover s fs x ∨ (bp ≤ x ∧ x < bp + (s.mem bp).size)) ∧
      (∀ a ∈ fs', a = bp ∨ a ∈ fs) ∧
      fs'.length ≤ fs.length + 1 := by
  have hbbp : base < bp := lt_of_lt_of_le wf.base_lo hlo
  obtain ⟨A, p, B, hsplit, hpb, hA, hB, hstop, huniq⟩ := spot_spec s fs wf bp hbbp hnotin
  have hpmem : p ∈ base :: fs := by rw [hsplit]; simp
  have hwalk : free_spot s bp s.freep fuel = some p :=
    free_spot_reaches s fs wf.links (freeWF_nodup s fs wf) bp p s.freep
      wf.cursor hpmem hstop huniq fuel hf
  have hcall : add_to_free_list s bp fuel = some (add_at s bp p) := by
    unfold add_to_free_list
    rw [hwalk]
  obtain ⟨fs', hwf', huntouched, hcover, hcases⟩ :=
    add_at_spec s fs A B p bp wf hsplit hpb hA hB hlo hbrkb hext hszb hdisj hnotin
  refine ⟨p, fs', hcall, hpmem, hwf', huntouched, hcover, ?_⟩
  rcases hcases with ⟨_, _, hsp, _, _⟩ | ⟨c, B2, hBc, _, _, hsp, _, _⟩ |
    ⟨_, _, hsp, _⟩ | ⟨c, B2, hBc, _, _, hsp, _⟩
  · exact spine_sub _ fs fs' A B (bp :: B) p bp hsplit hwf' hsp
      (fun r hr => List.mem_cons.mp hr) (by simp)
  · refine spine_sub _ fs fs' A B (bp :: B2) p bp hsplit hwf' hsp ?_ ?_
    · intro r hr
      rcases List.mem_cons.mp hr with rfl | h
      · exact Or.inl rfl
      · exact Or.inr (by rw [hBc]; simp [h])
    · rw [hBc]
      simp only [List.length_cons]
      omega
  · exact spine_sub _ fs fs' A B B p bp hsplit hwf' hsp
      (fun r hr => Or.inr hr) (by omega)
  · refine spine_sub _ fs fs' A B B2 p bp hsplit hwf' hsp
      (fun r hr => Or.inr (by rw [hBc]; simp [hr])) ?_
    rw [hBc]
    simp only [List.length_cons]
    omega

/-- Success-conditioned version of `add_to_free_list_spec`: whenever the
call returns at all, it returns `add_at` at the straddle node, and the
effect description of `add_to_free_list_spec` holds, with no fuel
arithmetic needed. -/
lemma add_to_free_list_wf (s : GC) (fs : List Nat) (wf : FreeWF s fs) (bp : Nat)
    (hlo : s.lo ≤ bp) (hbrkb : bp < s.brk)
    (hext : bp + (s.mem bp).size ≤ s.brk) (hszb : (s.mem bp).size < 2 ^ 32)
    (hdisj : ∀ z ∈ fs, Disj s bp z) (hnotin : bp ∉ base :: fs)
    (fuel : Nat) (t : GC) (h : add_to_free_list s bp fuel = some t) :
    ∃ p fs', t = add_at s bp p ∧ p ∈ base :: fs ∧
      FreeWF t fs' ∧
      (∀ a, a ≠ bp → a ≠ p → t.mem a = s.mem a) ∧
      (∀ x, cover t fs' x → cover s fs x ∨ (bp ≤ x ∧ x < bp + (s.mem bp).size)) ∧
      (∀ a ∈ fs', a = bp ∨ a ∈ fs) := by
  have hbbp : base < bp := lt_of_lt_of_le wf.base_lo hlo
  obtain ⟨A, p, B, hsplit, hpb, hA, hB, hstop, huniq⟩ := spot_spec s fs wf bp hbbp hnotin
  have hpmem : p ∈ base :: fs := by rw [hsplit]; simp
  unfold add_to_free_list at h
  cases hfs : free_spot s bp s.freep fuel with
  | none => rw [hfs] at h; cases h
  | some p0 =>
    rw [hfs] at h
    injection h with h
    obtain ⟨hp0mem, hp0stop⟩ := free_spot_closure s bp (base :: fs)
      (cycle_closed s fs wf.links) fuel s.freep p0 wf.cursor hfs
    have hp0 : p0 = p := by
      by_contra hc
      exact huniq p0 hp0mem hc hp0stop
    rw [hp0] at h
    obtain ⟨fs', hwf', huntouched, hcover, hcases⟩ :=
      add_at_spec s fs A B p bp wf hsplit hpb hA hB hlo hbrkb hext hszb hdisj hnotin
    rw [h] at hwf' huntouched hcover
    refine ⟨p, fs', h.symm, hpmem, hwf', huntouched, hcover, ?_⟩
    rcases hcases with ⟨_, _, hsp, _, _⟩ | ⟨c, B2, hBc, _, _, hsp, _, _⟩ |
      ⟨_, _, hsp, _⟩ | ⟨c, B2, hBc, _, _, hsp, _⟩
    · exact (spine_sub _ fs fs' A B (bp :: B) p bp hsplit hwf' hsp
        (fun r hr => List.mem_cons.mp hr) (by simp)).1
    · refine (spine_sub _ fs fs' A B (bp :: B2) p bp hsplit hwf' hsp ?_ ?_).1
      · intro r hr
        rcases List.mem_cons.mp hr with rfl | h2
        · exact Or.inl rfl
        · exact Or.inr (by rw [hBc]; simp [h2])
      · rw [hBc]
        simp only [List.length_cons]
        omega
    · exact (spine_sub _ fs fs' A B B p bp hsplit hwf' hsp
        (fun r hr => Or.inr hr) (by omega)).1
    · refine (spine_sub _ fs fs' A B B2 p bp hsplit hwf' hsp
        (fun r hr => Or.inr (by rw [hBc]; simp [hr])) ?_).1
      rw [hBc]
      simp only [List.length_cons]
      omega

lemma add_to_free_list_canGrow (s : GC) (bp fuel : Nat) (t : GC)
    (h : add_to_free_list s bp fuel = some t) : t.canGrow = s.canGrow := by
  unfold add_to_free_list at h
  cases hfs : free_spot s bp s.freep fuel with
  | none => rw [hfs] at h; cases h
  | some p =>
    rw [hfs] at h
    injection h with h
    rw [← h, add_at_canGrow]

/-! ### `more_core` failure analysis -/

@[simp] lemma grow_state_canGrow (s : GC) (nb : Nat) :
    (grow_state s nb).canGrow = s.canGrow := rfl

@[simp] lemma grow_state_brk (s : GC) (nb : Nat) :
    (grow_state s nb).brk = s.brk + nb / hdrSize := rfl

@[simp] lemma grow_state_lo (s : GC) (nb : Nat) : (grow_state s nb).lo = s.lo := rfl

@[simp] lemma grow_state_freep (s : GC) (nb : Nat) :
    (grow_state s nb).freep = s.freep := rfl

@[simp] lemma grow_state_usedp (s : GC) (nb : Nat) :
    (grow_state s nb).usedp = s.usedp := rfl

@[simp] lemma grow_state_words (s : GC) (nb : Nat) :
    (grow_state s nb).words = s.words := rfl

@[simp] lemma grow_state_roots (s : GC) (nb : Nat) :
    (grow_state s nb).roots = s.roots := rfl

lemma grow_state_mem_same (s : GC) (nb : Nat) :
    (grow_state s nb).mem s.brk = { s.mem s.brk with size := nb / hdrSize % 2 ^ 32 } := by
  unfold grow_state
  rw [setMem_mem_same]

lemma grow_state_mem_other (s : GC) (nb : Nat) (a : Nat) (ha : a ≠ s.brk) :
    (grow_state s nb).mem a = s.mem a := by
  unfold grow_state
  rw [setMem_mem_other _ _ _ _ ha]

/-- Effect of a successful `more_core` on a well-formed heap: the fresh
region at the old break joins the free list; the used list and its headers
are untouched and the heap grows. -/
lemma more_core_wf (s : GC) (fs us : List Nat) (wf : WF s fs us) (nb fuel : Nat)
    (hn32 : (if nb < MIN_ALLOC_SIZE then MIN_ALLOC_SIZE else nb) / hdrSize < 2 ^ 32)
    (t : GC) (h : more_core s nb fuel = some (some t)) :
    ∃ fs', WF t fs' us ∧ t.usedp = s.usedp ∧ t.lo = s.lo ∧ s.brk < t.brk ∧
      t.words = s.words ∧ t.roots = s.roots ∧
      (∀ w ∈ us, t.mem w = s.mem w) := by
  unfold more_core at h
  by_cases hg : s.canGrow = true
  · rw [if_pos hg] at h
    have hnbge : MIN_ALLOC_SIZE ≤ (if nb < MIN_ALLOC_SIZE then MIN_ALLOC_SIZE else nb) := by
      split <;> omega
    generalize hgen : (if nb < MIN_ALLOC_SIZE then MIN_ALLOC_SIZE else nb) = nb'
      at h hn32 hnbge
    cases hadd : add_to_free_list (grow_state s nb') s.brk fuel with
    | none => rw [hadd] at h; cases h
    | some s2 =>
      rw [hadd] at h
      injection h with h
      injection h with h
      rw [h] at hadd
      have h256 : MIN_ALLOC_SIZE / hdrSize = 256 := by norm_num [MIN_ALLOC_SIZE, hdrSize]
      have hn1 : 256 ≤ nb' / hdrSize := by
        have h2 : MIN_ALLOC_SIZE / hdrSize ≤ nb' / hdrSize := Nat.div_le_div_right hnbge
        omega
      have hbase_brk : base < s.brk := lt_of_lt_of_le wf.free.base_lo wf.lo_brk
      have hmem_ne : ∀ a ∈ base :: fs, a ≠ s.brk := by
        intro a ha
        rcases List.mem_cons.mp ha with rfl | hafs
        · omega
        · exact Nat.ne_of_lt (wf.free.good a hafs).2.1
      have hwfg : FreeWF (grow_state s nb') fs := by
        refine freeWF_congr s (grow_state s nb') fs ?_ ?_ rfl rfl wf.free
        · intro a ha
          exact grow_state_mem_other s nb' a (hmem_ne a ha)
        · simp only [grow_state_brk]
          omega
      have hszbrk : ((grow_state s nb').mem s.brk).size = nb' / hdrSize := by
        rw [grow_state_mem_same]
        exact Nat.mod_eq_of_lt hn32
      obtain ⟨p, fs', hteq, hpmem, hwf', huntouched, hcover, haddr⟩ :=
        add_to_free_list_wf (grow_state s nb') fs hwfg s.brk
          wf.lo_brk (by simp only [grow_state_brk]; omega)
          (by rw [hszbrk]; simp only [grow_state_brk]; omega)
          (by rw [hszbrk]; exact hn32)
          (by intro z hz
              refine Or.inr ?_
              rw [grow_state_mem_other s nb' z (hmem_ne z (by simp [hz]))]
              exact (wf.free.good z hz).2.2.1)
          (fun hc => (hmem_ne s.brk hc) rfl)
          fuel t hadd
      have hpneq : ∀ b ∈ us, p ≠ b := by
        intro b hb hc
        subst hc
        refine (wf.cross p hpmem p hb).2 ⟨le_refl _, ?_⟩
        have := (wf.used.good p hb).2.2.2.1
        omega
      have husmem : ∀ w ∈ us, t.mem w = s.mem w := by
        intro w hw
        have hwbrk : w ≠ s.brk := Nat.ne_of_lt (wf.used.good w hw).2.1
        rw [huntouched w hwbrk (fun hc => hpneq w hw hc.symm)]
        exact grow_state_mem_other s nb' w hwbrk
      have htbrk : t.brk = s.brk + nb' / hdrSize := by
        rw [hteq]
        simp only [add_at_brk, grow_state_brk]
      have htlo : t.lo = s.lo := by
        rw [hteq]
        simp only [add_at_lo, grow_state_lo]
      have htusedp : t.usedp = s.usedp := by
        rw [hteq]
        simp only [add_at_usedp, grow_state_usedp]
      have hused' : UsedWF t us :=
        usedWF_congr s t us husmem (by omega) htlo htusedp wf.used
      refine ⟨fs', ⟨hwf', hused', ?_, by have := wf.lo_brk; omega⟩, htusedp, htlo,
        by omega, by rw [hteq]; simp only [add_at_words, grow_state_words],
        by rw [hteq]; simp only [add_at_roots, grow_state_roots], husmem⟩
      intro a ha b hb
      have hsb : (t.mem b).size = (s.mem b).size := by rw [husmem b hb]
      have hgoodb := wf.used.good b hb
      have hp2 : ¬ (b ≤ a ∧ a < b + (s.mem b).size) := by
        rcases List.mem_cons.mp ha with rfl | hafs'
        · exact (wf.cross base (by simp) b hb).2
        · rcases haddr a hafs' with rfl | haold
          · intro hc
            have := hgoodb.2.2.1
            omega
          · exact (wf.cross a (by simp [haold]) b hb).2
      constructor
      · rcases List.mem_cons.mp ha with rfl | hafs'
        · refine Or.inl ?_
          rw [hwf'.base_size]
          have h1 := hgoodb.1
          have h2 := wf.free.base_lo
          omega
        · by_contra hnd
          unfold Disj at hnd
          push_neg at hnd
          obtain ⟨h1, h2⟩ := hnd
          rw [hsb] at h2
          have hab : a < b := by
            by_contra hge
            push_neg at hge
            exact hp2 ⟨hge, h2⟩
          have hcov : cover t fs' b := ⟨a, hafs', by omega, h1⟩
          rcases hcover b hcov with hcg | hbrkrange
          · obtain ⟨f, hf, hf1, hf2⟩ := hcg
            rw [grow_state_mem_other s nb' f (hmem_ne f (by simp [hf]))] at hf2
            have hcr := (wf.cross f (by simp [hf]) b hb).1
            unfold Disj at hcr
            have hsb1 := hgoodb.2.2.2.1
            rcases hcr with h | h <;> omega
          · rw [hszbrk] at hbrkrange
            have := hgoodb.2.1
            omega
      · rw [hsb]
        exact hp2
  · rw [if_neg hg] at h
    exact absurd h (by simp)

lemma malloc_push_none (s : GC) (q : Nat) (h : s.usedp = none) :
    malloc_push s q = { setMem s q { s.mem q with next := q, mark := false } with
      usedp := some q } := by
  unfold malloc_push
  rw [h]

lemma malloc_push_some (s : GC) (q u : Nat) (h : s.usedp = some u) :
    malloc_push s q =
      setMem (setMem s q { s.mem q with next := (s.mem u).next, mark := (s.mem u).mark })
        u { s.mem u with next := q, mark := false } := by
  unfold malloc_push
  rw [h]

@[simp] lemma malloc_push_freep (s : GC) (q : Nat) :
    (malloc_push s q).freep = s.freep := by
  unfold malloc_push
  cases s.usedp <;> rfl

@[simp] lemma malloc_push_brk (s : GC) (q : Nat) :
    (malloc_push s q).brk = s.brk := by
  unfold malloc_push
  cases s.usedp <;> rfl

@[simp] lemma malloc_push_lo (s : GC) (q : Nat) :
    (malloc_push s q).lo = s.lo := by
  unfold malloc_push
  cases s.usedp <;> rfl

@[simp] lemma malloc_push_words (s : GC) (q : Nat) :
    (malloc_push s q).words = s.words := by
  unfold malloc_push
  cases s.usedp <;> rfl

@[simp] lemma malloc_push_roots (s : GC) (q : Nat) :
    (malloc_push s q).roots = s.roots := by
  unfold malloc_push
  cases s.usedp <;> rfl

@[simp] lemma malloc_push_canGrow (s : GC) (q : Nat) :
    (malloc_push s q).canGrow = s.canGrow := by
  unfold malloc_push
  cases s.usedp <;> rfl

/-- Pushing a fresh, fully disjoint block onto the used list preserves the
full invariant; all block sizes are preserved and no free-cycle header is
written. -/
lemma malloc_push_wf (s : GC) (fs us : List Nat) (wf : WF s fs us) (q : Nat)
    (hqgood : goodUsed s q)
    (hqfree : ∀ a ∈ base :: fs, Disj s a q ∧ ¬ (q ≤ a ∧ a < q + (s.mem q).size))
    (hqus : ∀ b ∈ us, Disj s q b) :
    ∃ us', WF (malloc_push s q) fs us' ∧
      (malloc_push s q).freep = s.freep ∧ (malloc_push s q).brk = s.brk ∧
      (malloc_push s q).lo = s.lo ∧
      (∀ x, ((malloc_push s q).mem x).size = (s.mem x).size) ∧
      ((s.usedp = none ∧ us = [] ∧ us' = [q]) ∨
       (∃ u rest, s.usedp = some u ∧ us = u :: rest ∧ us' = u :: q :: rest)) := by
  have hq32 := hqgood.2.2.2.2
  have hq1 := hqgood.2.2.2.1
  have hqnotus : q ∉ us := by
    intro hc
    rcases hqus q hc with h | h <;> omega
  have hqnotfs : q ∉ base :: fs := by
    intro hc
    exact (hqfree q hc).2 ⟨le_refl _, by omega⟩
  cases hus : s.usedp with
  | none =>
    have husnil : us = [] := by
      cases us with
      | nil => rfl
      | cons u rest =>
        have h2 := wf.used.head
        rw [hus] at h2
        simp at h2
    subst husnil
    rw [malloc_push_none s q hus]
    have hTq : ({ setMem s q { s.mem q with next := q, mark := false } with
        usedp := some q } : GC).mem q = { s.mem q with next := q, mark := false } :=
      setMem_mem_same s q _
    have hTo : ∀ x, x ≠ q →
        ({ setMem s q { s.mem q with next := q, mark := false } with
          usedp := some q } : GC).mem x = s.mem x :=
      fun x hx => setMem_mem_other s q _ x hx
    have hsizes : ∀ x,
        (({ setMem s q { s.mem q with next := q, mark := false } with
          usedp := some q } : GC).mem x).size = (s.mem x).size := by
      intro x
      by_cases hx : x = q
      · subst hx
        rw [hTq]
      · rw [hTo x hx]
    refine ⟨[q], ⟨?_, ?_, ?_, wf.lo_brk⟩, rfl, rfl, rfl, hsizes,
      Or.inl ⟨rfl, rfl, rfl⟩⟩
    · refine freeWF_congr s _ fs ?_ (le_refl _) rfl rfl wf.free
      intro a ha
      exact hTo a (fun hc => hqnotfs (hc ▸ ha))
    · constructor
      · rfl
      · refine Or.inr ⟨?_, trivial⟩
        show (({ setMem s q { s.mem q with next := q, mark := false } with
          usedp := some q } : GC).mem q).next = q
        rw [hTq]
      · intro a ha
        rcases List.mem_singleton.mp ha with rfl
        exact ⟨hqgood.1, hqgood.2.1, by rw [hTq]; exact hqgood.2.2.1,
          by rw [hTq]; exact hq1, by rw [hTq]; exact hq32⟩
      · simp
    · intro a ha b hb
      rcases List.mem_singleton.mp hb with rfl
      have h1 := hqfree a ha
      constructor
      · unfold Disj at h1 ⊢
        rw [hsizes a, hsizes b]
        exact h1.1
      · rw [hsizes b]
        exact h1.2
  | some u =>
    have husq : us = u :: us.tail := by
      have h2 := wf.used.head
      rw [hus] at h2
      cases us with
      | nil => simp at h2
      | cons u0 rest =>
        simp only [List.head?_cons, Option.some.injEq] at h2
        rw [h2]
        rfl
    have humem : u ∈ us := by rw [husq]; simp
    have hqu : q ≠ u := fun hc => hqnotus (hc ▸ humem)
    have hugood := wf.used.good u humem
    have hu_notfs : u ∉ base :: fs := by
      intro hc
      refine (wf.cross u hc u humem).2 ⟨le_refl _, ?_⟩
      have := hugood.2.2.2.1
      omega
    have hTu : (malloc_push s q).mem u = { s.mem u with next := q, mark := false } := by
      rw [malloc_push_some s q u hus, setMem_mem_same]
    have hTq : (malloc_push s q).mem q =
        { s.mem q with next := (s.mem u).next, mark := (s.mem u).mark } := by
      rw [malloc_push_some s q u hus, setMem_mem_other _ _ _ _ hqu, setMem_mem_same]
    have hTo : ∀ x, x ≠ q → x ≠ u → (malloc_push s q).mem x = s.mem x := by
      intro x hxq hxu
      rw [malloc_push_some s q u hus, setMem_mem_other _ _ _ _ hxu,
        setMem_mem_other _ _ _ _ hxq]
    have hsizes : ∀ x, ((malloc_push s q).mem x).size = (s.mem x).size := by
      intro x
      by_cases hxq : x = q
      · subst hxq
        rw [hTq]
      · by_cases hxu : x = u
        · subst hxu
          rw [hTu]
        · rw [hTo x hxq hxu]
    have hdisjT : ∀ a b, Disj s a b → Disj (malloc_push s q) a b := by
      intro a b h
      unfold Disj at h ⊢
      rw [hsizes a, hsizes b]
      exact h
    have hndus := usedWF_nodup s us wf.used
    have hu_nr : u ∉ us.tail := by
      rw [husq] at hndus
      exact (List.nodup_cons.mp hndus).1
    have holddisj : us.Pairwise (Disj s) := wf.used.disj
    rw [husq] at holddisj
    obtain ⟨hur, hrr⟩ := List.pairwise_cons.mp holddisj
    have hgoodT : ∀ a, goodUsed s a → goodUsed (malloc_push s q) a := by
      intro a hg
      unfold goodUsed at hg ⊢
      rw [malloc_push_lo, malloc_push_brk, hsizes a]
      exact hg
    refine ⟨u :: q :: us.tail, ⟨?_, ?_, ?_, ?_⟩,
      malloc_push_freep s q, malloc_push_brk s q, malloc_push_lo s q, hsizes,
      Or.inr ⟨u, us.tail, rfl, husq, rfl⟩⟩
    · refine freeWF_congr s _ fs ?_ (le_of_eq (malloc_push_brk s q).symm)
        (malloc_push_lo s q) (malloc_push_freep s q) wf.free
      intro a ha
      exact hTo a (fun hc => hqnotfs (hc ▸ ha)) (fun hc => hu_notfs (hc ▸ ha))
    · have holdlinks : chain s u (us.tail ++ [u]) := by
        rcases wf.used.links with h | h
        · rw [h] at husq
          simp at husq
        · rw [husq] at h
          exact h
      constructor
      · rw [malloc_push_some s q u hus]
        simp only [setMem_usedp]
        exact hus
      · refine Or.inr ?_
        show chain _ u ((q :: us.tail) ++ [u])
        refine ⟨by rw [hTu], ?_⟩
        show chain _ q (us.tail ++ [u])
        cases htl : us.tail with
        | nil =>
          rw [htl] at holdlinks
          refine ⟨?_, trivial⟩
          rw [hTq]
          exact holdlinks.1
        | cons x rest' =>
          rw [htl] at holdlinks
          refine ⟨by rw [hTq]; exact holdlinks.1, ?_⟩
          refine chain_congr s _ (rest' ++ [u]) x ?_ holdlinks.2
          intro z hz
          rw [show x :: (rest' ++ [u]) = (x :: rest') ++ [u] by simp,
            List.dropLast_concat] at hz
          have hzus : z ∈ us := by
            rw [husq, htl]
            simp only [List.mem_cons]
            rcases List.mem_cons.mp hz with rfl | hz2
            · exact Or.inr (Or.inl rfl)
            · exact Or.inr (Or.inr hz2)
          exact hTo z (fun hc => hqnotus (hc ▸ hzus))
            (fun hc => hu_nr (hc ▸ (by rw [htl]; exact hz)))
      · intro a ha
        rcases List.mem_cons.mp ha with rfl | ha2
        · exact hgoodT a hugood
        · rcases List.mem_cons.mp ha2 with rfl | ha3
          · exact hgoodT a hqgood
          · have hazus : a ∈ us := by rw [husq]; simp [ha3]
            exact hgoodT a (wf.used.good a hazus)
      · refine List.pairwise_cons.mpr ⟨?_, List.pairwise_cons.mpr ⟨?_, ?_⟩⟩
        · intro b hb
          rcases List.mem_cons.mp hb with rfl | hb2
          · refine hdisjT u b ?_
            have h1 := hqus u humem
            unfold Disj at h1 ⊢
            exact Or.symm h1
          · exact hdisjT u b (hur b hb2)
        · intro b hb
          exact hdisjT q b (hqus b (by rw [husq]; simp [hb]))
        · exact List.Pairwise.imp (fun h => hdisjT _ _ h) hrr
    · intro a ha b hb
      rcases List.mem_cons.mp hb with rfl | hb2
      · constructor
        · exact hdisjT a b (wf.cross a ha b humem).1
        · rw [hsizes b]
          exact (wf.cross a ha b humem).2
      · rcases List.mem_cons.mp hb2 with rfl | hb3
        · constructor
          · exact hdisjT a b (hqfree a ha).1
          · rw [hsizes b]
            exact (hqfree a ha).2
        · have hbus : b ∈ us := by rw [husq]; simp [hb3]
          constructor
          · exact hdisjT a b (wf.cross a ha b hbus).1
          · rw [hsizes b]
            exact (wf.cross a ha b hbus).2
    · rw [malloc_push_lo, malloc_push_brk]
      exact wf.lo_brk

lemma pairwise_split_rel_left {R : Nat → Nat → Prop} {L X Y : List Nat} {z : Nat}
    (hpw : L.Pairwise R) (hL : L = X ++ z :: Y) : ∀ x ∈ X, R x z := by
  subst hL
  rw [List.pairwise_append] at hpw
  exact fun x hx => hpw.2.2 x hx z (by simp)

lemma malloc_push_mem_other (s : GC) (q x : Nat) (hxq : x ≠ q)
    (hxu : ∀ u, s.usedp = some u → x ≠ u) :
    (malloc_push s q).mem x = s.mem x := by
  cases hus : s.usedp with
  | none =>
    rw [malloc_push_none s q hus]
    exact setMem_mem_other _ _ _ _ hxq
  | some u =>
    rw [malloc_push_some s q u hus, setMem_mem_other _ _ _ _ (hxu u hus),
      setMem_mem_other _ _ _ _ hxq]

lemma malloc_cut_exact (nu : Nat) (s : GC) (prevp p : Nat) (h : (s.mem p).size = nu) :
    malloc_cut nu s prevp p =
      (setMem s prevp { s.mem prevp with next := (s.mem p).next, mark := (s.mem p).mark },
       p) := by
  unfold malloc_cut
  rw [if_pos h]

lemma malloc_cut_split (nu : Nat) (s : GC) (prevp p : Nat) (h : ¬ (s.mem p).size = nu) :
    malloc_cut nu s prevp p =
      (setMem (setMem s p { s.mem p with size := (s.mem p).size - nu })
        (p + ((s.mem p).size - nu))
        { (setMem s p { s.mem p with size := (s.mem p).size - nu }).mem
            (p + ((s.mem p).size - nu)) with size := nu % 2 ^ 32 },
       p + ((s.mem p).size - nu)) := by
  unfold malloc_cut
  rw [if_neg h]

/-- The effect of `gc_malloc`'s fit branch (`malloc_found`): the allocated
block `q` of size `nu` is carved from the upper end of free block `p`
(`p` leaving the spine entirely on an exact fit), pushed on the used list,
and the cursor moves to the predecessor `prevp`; the full invariant is
preserved and all used-block sizes are stable. -/
lemma malloc_found_wf (s : GC) (fs us : List Nat) (wf : WF s fs us)
    (nu prevp p : Nat) (hnu1 : 1 ≤ nu) (hnu32 : nu < 2 ^ 32)
    (hprev : prevp ∈ base :: fs) (hnext : (s.mem prevp).next = p) (hp : p ∈ fs)
    (hfit : nu ≤ (s.mem p).size) :
    ∃ q fs' us',
      (malloc_found nu s prevp p).1 = q + 1 ∧
      WF (malloc_found nu s prevp p).2 fs' us' ∧
      (malloc_found nu s prevp p).2.freep = prevp ∧
      (malloc_found nu s prevp p).2.brk = s.brk ∧
      (malloc_found nu s prevp p).2.lo = s.lo ∧
      ((malloc_found nu s prevp p).2.mem q).size = nu ∧
      p ≤ q ∧ q + nu = p + (s.mem p).size ∧
      ((s.usedp = none ∧ us = [] ∧ us' = [q]) ∨
       (∃ u rest, s.usedp = some u ∧ us = u :: rest ∧ us' = u :: q :: rest)) ∧
      (∀ w ∈ us, ((malloc_found nu s prevp p).2.mem w).size = (s.mem w).size) ∧
      (∀ a ∈ fs', a ∈ fs) ∧
      ((nu < (s.mem p).size ∧ fs' = fs ∧ q = p + ((s.mem p).size - nu) ∧
        ((malloc_found nu s prevp p).2.mem p).next = (s.mem p).next ∧
        ((malloc_found nu s prevp p).2.mem p).size = (s.mem p).size - nu) ∨
       (nu = (s.mem p).size ∧ q = p ∧
        ∃ C D, base :: fs = C ++ prevp :: p :: D ∧ base :: fs' = C ++ prevp :: D)) := by
  have hfree := wf.free
  have hpmem : p ∈ base :: fs := List.mem_cons_of_mem _ hp
  have hgoodp := hfree.good p hp
  have hndfs := freeWF_nodup s fs hfree
  have hmarks := freeWF_marks s fs hfree
  have hmarkp : (s.mem p).mark = false := hmarks p hpmem
  have hpbase : p ≠ base := by
    intro hc
    rw [List.nodup_cons] at hndfs
    exact hndfs.1 (hc ▸ hp)
  have hndfs2 : (base :: fs).Nodup := freeWF_nodup s fs hfree
  have hsorted_pw : (base :: fs).Pairwise (· < ·) :=
    List.chain'_iff_pairwise.mp hfree.sorted
  have hgaps_pw := freeWF_pairwise_gaps s fs hfree
  have hpnotus : ∀ b ∈ us, p ≠ b := by
    intro b hb hc
    subst hc
    refine (wf.cross p hpmem p hb).2 ⟨le_refl _, ?_⟩
    have := (wf.used.good p hb).2.2.2.1
    omega
  have hprevnotus : ∀ b ∈ us, prevp ≠ b := by
    intro b hb hc
    subst hc
    refine (wf.cross prevp hprev prevp hb).2 ⟨le_refl _, ?_⟩
    have := (wf.used.good prevp hb).2.2.2.1
    omega
  have husheads : ∀ u, s.usedp = some u → u ∈ us := by
    intro u hu
    have h := wf.used.head
    rw [hu] at h
    exact List.mem_of_mem_head? (Option.mem_def.mpr h.symm)
  by_cases hex : (s.mem p).size = nu
  · -- exact fit: p is unlinked from the free list and becomes the block
    obtain ⟨C, D, hCD⟩ := cycle_pred s fs hfree.links prevp p hprev hnext hpbase
    have hnd2 : (prevp :: p :: D).Nodup := by
      have h := hCD ▸ hndfs2
      exact (List.nodup_append.mp h).2.1
    have hCdisj : ∀ z ∈ C, z ∉ prevp :: p :: D := by
      have h := hCD ▸ hndfs2
      exact fun z hz => (List.nodup_append.mp h).2.2 hz
    have hprevp_ne : prevp ≠ p := by
      intro hc
      exact (List.nodup_cons.mp hnd2).1 (by rw [hc]; simp)
    have hcut := malloc_cut_exact nu s prevp p hex
    have hcut1 : (malloc_cut nu s prevp p).1 =
        setMem s prevp { s.mem prevp with next := (s.mem p).next, mark := (s.mem p).mark } := by
      rw [hcut]
    have hcut2 : (malloc_cut nu s prevp p).2 = p := by rw [hcut]
    generalize hS3 : ({ (malloc_cut nu s prevp p).1 with freep := prevp } : GC) = S3
    have hfound1 : (malloc_found nu s prevp p).1 = p + 1 := by
      show (malloc_cut nu s prevp p).2 + 1 = p + 1
      rw [hcut2]
    have hfound2 : (malloc_found nu s prevp p).2 = malloc_push S3 p := by
      show malloc_push { (malloc_cut nu s prevp p).1 with freep := prevp }
        ((malloc_cut nu s prevp p).2) = malloc_push S3 p
      rw [hcut2, hS3]
    have hS3mem_same : S3.mem prevp =
        { s.mem prevp with next := (s.mem p).next, mark := (s.mem p).mark } := by
      rw [← hS3, hcut1]
      exact setMem_mem_same _ _ _
    have hS3mem_other : ∀ x, x ≠ prevp → S3.mem x = s.mem x := by
      intro x hx
      rw [← hS3, hcut1]
      exact setMem_mem_other _ _ _ _ hx
    have hS3freep : S3.freep = prevp := by rw [← hS3]
    have hS3brk : S3.brk = s.brk := by rw [← hS3, hcut1]; rfl
    have hS3lo : S3.lo = s.lo := by rw [← hS3, hcut1]; rfl
    have hS3usedp : S3.usedp = s.usedp := by rw [← hS3, hcut1]; rfl
    have hszeq : ∀ x, (S3.mem x).size = (s.mem x).size := by
      intro x
      by_cases hx : x = prevp
      · subst hx
        rw [hS3mem_same]
      · rw [hS3mem_other x hx]
    have hprevp_lt : prevp < p := pairwise_split_rel hsorted_pw hCD p (by simp)
    have hsplit2 : base :: fs = (C ++ [prevp]) ++ p :: D := by rw [hCD]; simp
    have hD_gt_p : ∀ d ∈ D, p < d := pairwise_split_rel hsorted_pw hsplit2
    have hgap_prev_p : prevp + (s.mem prevp).size ≤ p :=
      @pairwise_split_rel (fun a b => a + (s.mem a).size ≤ b) (base :: fs) C
        (p :: D) prevp hgaps_pw hCD p (by simp)
    have hgap_p_D : ∀ d ∈ D, p + (s.mem p).size ≤ d :=
      @pairwise_split_rel (fun a b => a + (s.mem a).size ≤ b) (base :: fs)
        (C ++ [prevp]) D p hgaps_pw hsplit2
    have hnextp : (s.mem p).next = (D ++ [base]).headD 0 :=
      cycle_next s fs hfree.links (C ++ [prevp]) D p hsplit2
    have hbase_lt_brk : base < s.brk := lt_of_lt_of_le hfree.base_lo wf.lo_brk
    have hprev_sz_ext : prevp + (s.mem prevp).size ≤ s.brk := by
      rcases List.mem_cons.mp hprev with hb | hfsm
      · rw [hb, hfree.base_size]
        omega
      · exact (hfree.good prevp hfsm).2.2.1
    have hprevsz32 : (s.mem prevp).size < 2 ^ 32 := by
      rcases List.mem_cons.mp hprev with hb | hfsm
      · rw [hb, hfree.base_size]
        norm_num
      · exact (hfree.good prevp hfsm).2.2.2.1
    have hsortD : (p :: D).Chain' (· < ·) := by
      have h0 := hfree.sorted
      rw [hsplit2] at h0
      exact (List.chain'_append.mp h0).2.1
    have hD_sorted : D.Chain' (· < ·) := (List.chain'_cons'.mp hsortD).2
    have hprev_notD : prevp ∉ D := by
      intro hc
      exact (List.nodup_cons.mp hnd2).1 (List.mem_cons_of_mem _ hc)
    have hlinks0 : (D ++ [base]).Chain' (fun u v => (s.mem u).next = v) := by
      have h0 := hfree.links
      rw [chain_iff_chain'] at h0
      rw [show (base :: (fs ++ [base])) = ((C ++ [prevp]) ++ [p]) ++ (D ++ [base]) by
        rw [show base :: (fs ++ [base]) = (base :: fs) ++ [base] by simp, hsplit2]
        simp] at h0
      exact (List.chain'_append.mp h0).2.1
    have hD_chain : (D ++ [base]).Chain' (fun u v => (S3.mem u).next = v) := by
      refine chain'_mem_congr s S3 (fun h u v => h.next = v) _ ?_ hlinks0
      intro z hz
      rw [List.dropLast_concat] at hz
      exact hS3mem_other z (fun hc => hprev_notD (hc ▸ hz))
    have hgaps0 : (p :: D).Chain' (fun u v => u + (s.mem u).size ≤ v) := by
      have h0 := hfree.gaps
      rw [hsplit2] at h0
      exact (List.chain'_append.mp h0).2.1
    have hD_gaps_s : D.Chain' (fun u v => u + (s.mem u).size ≤ v) :=
      (List.chain'_cons'.mp hgaps0).2
    have hD_gaps : D.Chain' (fun u v => u + (S3.mem u).size ≤ v) := by
      refine chain'_mem_congr s S3 (fun h u v => u + h.size ≤ v) _ ?_ hD_gaps_s
      intro z hz
      have hz2 := List.dropLast_subset _ hz
      exact hS3mem_other z (fun hc => hprev_notD (hc ▸ hz2))
    have hD_fs : ∀ b ∈ D, b ∈ fs := by
      intro b hb
      have h1 : b ∈ base :: fs := by rw [hCD]; simp [hb]
      rcases List.mem_cons.mp h1 with hb2 | hb2
      · exfalso
        have h2 := hD_gt_p b hb
        have h3 := hfree.base_lo
        have h4 := hgoodp.1
        omega
      · exact hb2
    have hD_good : ∀ b ∈ D, goodFree S3 b := by
      intro b hb
      have hg := hfree.good b (hD_fs b hb)
      have hm := hS3mem_other b (fun hc => hprev_notD (hc ▸ hb))
      exact ⟨by rw [hS3lo]; exact hg.1, by rw [hS3brk]; exact hg.2.1,
        by rw [hm, hS3brk]; exact hg.2.2.1, by rw [hm]; exact hg.2.2.2.1,
        by rw [hm]; exact hg.2.2.2.2⟩
    obtain ⟨fs', hspine', hwfS3⟩ := freeWF_rebuild s S3 fs C (p :: D) D prevp p
      ((s.mem prevp).size) hfree hCD hS3brk hS3lo
      (by rw [hS3freep]; simp)
      (by rw [hS3mem_same, hnextp, hmarkp])
      (fun z hz => hS3mem_other z (fun hc => (hCdisj z hz) (by rw [hc]; simp)))
      (fun hc => by rw [hc]; exact hfree.base_size)
      hprevp_lt
      (fun b hb => Nat.le_of_lt (hD_gt_p b hb))
      hD_sorted hD_chain hD_gaps hD_good
      (by intro hd hhd
          have hhd2 : hd ∈ D := List.mem_of_mem_head? hhd
          have h1 := hgap_p_D hd hhd2
          omega)
      hprev_sz_ext hprevsz32
    have hfs'sub : ∀ a ∈ fs', a ∈ fs := by
      intro a ha
      have h1 : a ∈ base :: fs' := List.mem_cons_of_mem _ ha
      rw [hspine'] at h1
      have h2 : a ∈ base :: fs := by
        rw [hCD]
        rcases List.mem_append.mp h1 with h | h
        · simp [h]
        · rcases List.mem_cons.mp h with rfl | h
          · simp
          · simp [h]
      rcases List.mem_cons.mp h2 with rfl | h3
      · exact absurd (lt_of_lt_of_le hwfS3.base_lo (hwfS3.good base ha).1) (lt_irrefl _)
      · exact h3
    have hfs'mem : ∀ a ∈ base :: fs', a ∈ base :: fs := by
      intro a ha
      rcases List.mem_cons.mp ha with rfl | h
      · simp
      · exact List.mem_cons_of_mem _ (hfs'sub a h)
    have husedS3 : UsedWF S3 us :=
      usedWF_congr s S3 us
        (fun w hw => hS3mem_other w (fun hc => hprevnotus w hw hc.symm))
        (le_of_eq hS3brk.symm) hS3lo hS3usedp wf.used
    have hcrossS3 : ∀ a ∈ base :: fs', ∀ b ∈ us,
        Disj S3 a b ∧ ¬ (b ≤ a ∧ a < b + (S3.mem b).size) := by
      intro a ha b hb
      have hold := wf.cross a (hfs'mem a ha) b hb
      constructor
      · unfold Disj at hold ⊢
        rw [hszeq a, hszeq b]
        exact hold.1
      · rw [hszeq b]
        exact hold.2
    have hwfS3full : WF S3 fs' us :=
      ⟨hwfS3, husedS3, hcrossS3, by rw [hS3lo, hS3brk]; exact wf.lo_brk⟩
    have hpnotfs' : p ∉ base :: fs' := by
      intro hc
      rw [hspine'] at hc
      rcases List.mem_append.mp hc with h | h
      · exact hCdisj p h (by simp)
      · rcases List.mem_cons.mp h with h2 | h2
        · exact hprevp_ne h2.symm
        · exact (List.nodup_cons.mp (List.nodup_cons.mp hnd2).2).1 h2
    have hqgood : goodUsed S3 p := by
      refine ⟨by rw [hS3lo]; exact hgoodp.1, by rw [hS3brk]; exact hgoodp.2.1,
        by rw [hszeq p, hS3brk]; exact hgoodp.2.2.1, ?_, ?_⟩
      · rw [hszeq p]
        omega
      · rw [hszeq p]
        exact hgoodp.2.2.2.1
    have hqfree : ∀ a ∈ base :: fs', Disj S3 a p ∧
        ¬ (p ≤ a ∧ a < p + (S3.mem p).size) := by
      intro a ha
      have hamem := hfs'mem a ha
      have hanep : a ≠ p := fun hc => hpnotfs' (hc ▸ ha)
      have hdisj_ap : Disj s a p := freeWF_mem_disj s fs hfree a hamem p hpmem hanep
      unfold Disj at hdisj_ap
      constructor
      · unfold Disj
        rw [hszeq a, hszeq p]
        exact hdisj_ap
      · rw [hszeq p]
        rintro ⟨hc1, hc2⟩
        rcases hdisj_ap with h | h <;> omega
    have hqus : ∀ b ∈ us, Disj S3 p b := by
      intro b hb
      have h := (wf.cross p hpmem b hb).1
      unfold Disj at h ⊢
      rw [hszeq p, hszeq b]
      exact h
    obtain ⟨us', hwfP, hPfreep, hPbrk, hPlo, hPsizes, hPshape⟩ :=
      malloc_push_wf S3 fs' us hwfS3full p hqgood hqfree hqus
    refine ⟨p, fs', us', hfound1, by rw [hfound2]; exact hwfP, ?_, ?_, ?_, ?_,
      le_refl _, by rw [hex], ?_, ?_, hfs'sub, ?_⟩
    · rw [hfound2, hPfreep, hS3freep]
    · rw [hfound2, hPbrk, hS3brk]
    · rw [hfound2, hPlo, hS3lo]
    · rw [hfound2, hPsizes p, hszeq p]
      exact hex
    · rcases hPshape with ⟨h1, h2, h3⟩ | ⟨u, rest, h1, h2, h3⟩
      · rw [hS3usedp] at h1
        exact Or.inl ⟨h1, h2, h3⟩
      · rw [hS3usedp] at h1
        exact Or.inr ⟨u, rest, h1, h2, h3⟩
    · intro w hw
      rw [hfound2, hPsizes w, hszeq w]
    · exact Or.inr ⟨hex.symm, rfl, C, D, hCD, hspine'⟩
  · -- split: p keeps the difference, the tail becomes the block
    have hslt : nu < (s.mem p).size := Nat.lt_of_le_of_ne hfit (fun hc => hex hc.symm)
    obtain ⟨A0, B0, hsplit0⟩ := List.append_of_mem hpmem
    obtain ⟨q, hq⟩ : ∃ q, q = p + ((s.mem p).size - nu) := ⟨_, rfl⟩
    have hqgt : p < q := by rw [hq]; omega
    have hqlt : q < p + (s.mem p).size := by rw [hq]; omega
    have hqext : q + nu = p + (s.mem p).size := by rw [hq]; omega
    have hqnep : q ≠ p := Nat.ne_of_gt hqgt
    have hA0_lt : ∀ a ∈ A0, a < p := pairwise_split_rel_left hsorted_pw hsplit0
    have hB0_gt : ∀ b ∈ B0, p < b := pairwise_split_rel hsorted_pw hsplit0
    have hB0_gap : ∀ b ∈ B0, p + (s.mem p).size ≤ b :=
      @pairwise_split_rel (fun a b => a + (s.mem a).size ≤ b) (base :: fs)
        A0 B0 p hgaps_pw hsplit0
    have hA0_gap : ∀ a ∈ A0, a + (s.mem a).size ≤ p :=
      @pairwise_split_rel_left (fun a b => a + (s.mem a).size ≤ b) (base :: fs)
        A0 B0 p hgaps_pw hsplit0
    have hnd0 : (A0 ++ p :: B0).Nodup := hsplit0 ▸ hndfs2
    have hp_notB0 : p ∉ B0 := by
      intro hc
      have := hB0_gt p hc
      omega
    have hqnotfs : ∀ a ∈ base :: fs, a ≠ q := by
      intro a ha hc
      subst hc
      rw [hsplit0] at ha
      rcases List.mem_append.mp ha with h | h
      · have := hA0_lt a h
        omega
      · rcases List.mem_cons.mp h with h2 | h2
        · omega
        · have := hB0_gap a h2
          omega
    have hqnotus : ∀ b ∈ us, q ≠ b := by
      intro b hb hc
      subst hc
      have hcr := (wf.cross p hpmem q hb).1
      have hg := (wf.used.good q hb).2.2.2.1
      unfold Disj at hcr
      rcases hcr with h | h <;> omega
    have hnextp0 : (s.mem p).next = (B0 ++ [base]).headD 0 :=
      cycle_next s fs hfree.links A0 B0 p hsplit0
    have hcut := malloc_cut_split nu s prevp p hex
    have hcut1 : (malloc_cut nu s prevp p).1 =
        setMem (setMem s p { s.mem p with size := (s.mem p).size - nu })
          (p + ((s.mem p).size - nu))
          { (setMem s p { s.mem p with size := (s.mem p).size - nu }).mem
              (p + ((s.mem p).size - nu)) with size := nu % 2 ^ 32 } := by
      rw [hcut]
    have hcut2 : (malloc_cut nu s prevp p).2 = p + ((s.mem p).size - nu) := by
      rw [hcut]
    generalize hS3 : ({ (malloc_cut nu s prevp p).1 with freep := prevp } : GC) = S3
    have hfound1 : (malloc_found nu s prevp p).1 = q + 1 := by
      show (malloc_cut nu s prevp p).2 + 1 = q + 1
      rw [hcut2, ← hq]
    have hfound2 : (malloc_found nu s prevp p).2 = malloc_push S3 q := by
      show malloc_push { (malloc_cut nu s prevp p).1 with freep := prevp }
        ((malloc_cut nu s prevp p).2) = malloc_push S3 q
      rw [hcut2, ← hq, hS3]
    have hS3mem_p : S3.mem p = { s.mem p with size := (s.mem p).size - nu } := by
      rw [← hS3, hcut1, ← hq]
      rw [setMem_mem_other _ _ _ _ hqnep.symm, setMem_mem_same]
    have hS3mem_q : S3.mem q = { s.mem q with size := nu } := by
      rw [← hS3, hcut1, ← hq, setMem_mem_same,
        setMem_mem_other _ _ _ _ hqnep, Nat.mod_eq_of_lt hnu32]
    have hS3mem_other : ∀ x, x ≠ p → x ≠ q → S3.mem x = s.mem x := by
      intro x hxp hxq
      rw [← hS3, hcut1, ← hq, setMem_mem_other _ _ _ _ hxq,
        setMem_mem_other _ _ _ _ hxp]
    have hS3freep : S3.freep = prevp := by rw [← hS3]
    have hS3brk : S3.brk = s.brk := by rw [← hS3, hcut1]; rfl
    have hS3lo : S3.lo = s.lo := by rw [← hS3, hcut1]; rfl
    have hS3usedp : S3.usedp = s.usedp := by rw [← hS3, hcut1]; rfl
    have hS3szp : (S3.mem p).size = (s.mem p).size - nu := by rw [hS3mem_p]
    have hS3szq : (S3.mem q).size = nu := by rw [hS3mem_q]
    have hS3szo : ∀ x, x ≠ p → x ≠ q → (S3.mem x).size = (s.mem x).size :=
      fun x hxp hxq => by rw [hS3mem_other x hxp hxq]
    have hB0_ne : ∀ b ∈ B0, b ≠ p ∧ b ≠ q := by
      intro b hb
      have h1 := hB0_gap b hb
      constructor
      · intro hc
        subst hc
        omega
      · intro hc
        subst hc
        omega
    have hA0_ne : ∀ a ∈ A0, a ≠ p ∧ a ≠ q := by
      intro a ha
      have h1 := hA0_lt a ha
      exact ⟨by omega, by omega⟩
    have hsortB0 : (p :: B0).Chain' (· < ·) := by
      have h0 := hfree.sorted
      rw [hsplit0] at h0
      exact (List.chain'_append.mp h0).2.1
    have hB0_sorted : B0.Chain' (· < ·) := (List.chain'_cons'.mp hsortB0).2
    have hlinks0 : (B0 ++ [base]).Chain' (fun u v => (s.mem u).next = v) := by
      have h0 := hfree.links
      rw [chain_iff_chain'] at h0
      rw [show (base :: (fs ++ [base])) = (A0 ++ [p]) ++ (B0 ++ [base]) by
        rw [show base :: (fs ++ [base]) = (base :: fs) ++ [base] by simp, hsplit0]
        simp] at h0
      exact (List.chain'_append.mp h0).2.1
    have hB0_chain : (B0 ++ [base]).Chain' (fun u v => (S3.mem u).next = v) := by
      refine chain'_mem_congr s S3 (fun h u v => h.next = v) _ ?_ hlinks0
      intro z hz
      rw [List.dropLast_concat] at hz
      exact hS3mem_other z (hB0_ne z hz).1 (hB0_ne z hz).2
    have hgaps0 : (p :: B0).Chain' (fun u v => u + (s.mem u).size ≤ v) := by
      have h0 := hfree.gaps
      rw [hsplit0] at h0
      exact (List.chain'_append.mp h0).2.1
    have hB0_gaps_s : B0.Chain' (fun u v => u + (s.mem u).size ≤ v) :=
      (List.chain'_cons'.mp hgaps0).2
    have hB0_gaps : B0.Chain' (fun u v => u + (S3.mem u).size ≤ v) := by
      refine chain'_mem_congr s S3 (fun h u v => u + h.size ≤ v) _ ?_ hB0_gaps_s
      intro z hz
      have hz2 := List.dropLast_subset _ hz
      exact hS3mem_other z (hB0_ne z hz2).1 (hB0_ne z hz2).2
    have hB0_fs : ∀ b ∈ B0, b ∈ fs := by
      intro b hb
      have h1 : b ∈ base :: fs := by rw [hsplit0]; simp [hb]
      rcases List.mem_cons.mp h1 with hb2 | hb2
      · exfalso
        have h2 := hB0_gt b hb
        have h3 := hfree.base_lo
        have h4 := hgoodp.1
        omega
      · exact hb2
    have hB0_good : ∀ b ∈ B0, goodFree S3 b := by
      intro b hb
      have hg := hfree.good b (hB0_fs b hb)
      have hm := hS3mem_other b (hB0_ne b hb).1 (hB0_ne b hb).2
      exact ⟨by rw [hS3lo]; exact hg.1, by rw [hS3brk]; exact hg.2.1,
        by rw [hm, hS3brk]; exact hg.2.2.1, by rw [hm]; exact hg.2.2.2.1,
        by rw [hm]; exact hg.2.2.2.2⟩
    obtain ⟨fs'', hspine'', hwfS3⟩ := freeWF_rebuild s S3 fs A0 B0 B0 p (p + 1)
      ((s.mem p).size - nu) hfree hsplit0 hS3brk hS3lo
      (by rw [hS3freep, ← hsplit0]; exact hprev)
      (by rw [hS3mem_p]; dsimp only; rw [hnextp0, hmarkp])
      (fun z hz => hS3mem_other z (hA0_ne z hz).1 (hA0_ne z hz).2)
      (fun hc => absurd hc hpbase)
      (Nat.lt_succ_self p)
      (fun b hb => Nat.succ_le_of_lt (hB0_gt b hb))
      hB0_sorted hB0_chain hB0_gaps hB0_good
      (by intro hd hhd
          have hhd2 : hd ∈ B0 := List.mem_of_mem_head? hhd
          have h1 := hB0_gap hd hhd2
          omega)
      (by have := hgoodp.2.2.1; omega)
      (by have := hgoodp.2.2.2.1; omega)
    have hfs''eq : fs'' = fs := by
      have h1 : base :: fs'' = base :: fs := hspine''.trans hsplit0.symm
      injection h1
    rw [hfs''eq] at hwfS3
    have husedS3 : UsedWF S3 us :=
      usedWF_congr s S3 us
        (fun w hw => hS3mem_other w (fun hc => hpnotus w hw hc.symm)
          (fun hc => hqnotus w hw hc.symm))
        (le_of_eq hS3brk.symm) hS3lo hS3usedp wf.used
    have hbsz : ∀ b ∈ us, (S3.mem b).size = (s.mem b).size :=
      fun b hb => hS3szo b (fun hc => hpnotus b hb hc.symm)
        (fun hc => hqnotus b hb hc.symm)
    have hcrossS3 : ∀ a ∈ base :: fs, ∀ b ∈ us,
        Disj S3 a b ∧ ¬ (b ≤ a ∧ a < b + (S3.mem b).size) := by
      intro a ha b hb
      have hold := wf.cross a ha b hb
      constructor
      · unfold Disj at hold ⊢
        rw [hbsz b hb]
        by_cases hap : a = p
        · subst hap
          rw [hS3szp]
          rcases hold.1 with h | h
          · exact Or.inl (by omega)
          · exact Or.inr h
        · rw [hS3szo a hap (fun hc => hqnotfs a ha hc)]
          exact hold.1
      · rw [hbsz b hb]
        exact hold.2
    have hwfS3full : WF S3 fs us :=
      ⟨hwfS3, husedS3, hcrossS3, by rw [hS3lo, hS3brk]; exact wf.lo_brk⟩
    have hqgood : goodUsed S3 q := by
      refine ⟨?_, ?_, ?_, ?_, ?_⟩
      · rw [hS3lo]
        have := hgoodp.1
        omega
      · rw [hS3brk]
        have := hgoodp.2.2.1
        omega
      · rw [hS3szq, hS3brk]
        have := hgoodp.2.2.1
        omega
      · rw [hS3szq]
        exact hnu1
      · rw [hS3szq]
        exact hnu32
    have hqfree : ∀ a ∈ base :: fs, Disj S3 a q ∧
        ¬ (q ≤ a ∧ a < q + (S3.mem q).size) := by
      intro a ha
      rw [hS3szq]
      have ha2 : a ∈ A0 ∨ a = p ∨ a ∈ B0 := by
        rw [hsplit0] at ha
        rcases List.mem_append.mp ha with h | h
        · exact Or.inl h
        · rcases List.mem_cons.mp h with h | h
          · exact Or.inr (Or.inl h)
          · exact Or.inr (Or.inr h)
      rcases ha2 with h | h | h
      · have h1 := hA0_gap a h
        have h2 := hA0_lt a h
        constructor
        · refine Or.inl ?_
          rw [hS3szo a (hA0_ne a h).1 (hA0_ne a h).2]
          omega
        · rintro ⟨hc1, hc2⟩
          omega
      · subst h
        constructor
        · refine Or.inl ?_
          rw [hS3szp]
          omega
        · rintro ⟨hc1, hc2⟩
          omega
      · have h1 := hB0_gap a h
        constructor
        · refine Or.inr ?_
          rw [hS3szq]
          omega
        · rintro ⟨hc1, hc2⟩
          omega
    have hqus : ∀ b ∈ us, Disj S3 q b := by
      intro b hb
      have h := (wf.cross p hpmem b hb).1
      unfold Disj at h ⊢
      rw [hS3szq, hbsz b hb]
      rcases h with h | h
      · exact Or.inl (by omega)
      · exact Or.inr (by omega)
    obtain ⟨us', hwfP, hPfreep, hPbrk, hPlo, hPsizes, hPshape⟩ :=
      malloc_push_wf S3 fs us hwfS3full q hqgood hqfree hqus
    have hufun : ∀ u, S3.usedp = some u → p ≠ u := by
      intro u hu
      rw [hS3usedp] at hu
      exact hpnotus u (husheads u hu)
    refine ⟨q, fs, us', hfound1, by rw [hfound2]; exact hwfP, ?_, ?_, ?_, ?_,
      le_of_lt hqgt, hqext, ?_, ?_, fun a ha => ha, ?_⟩
    · rw [hfound2, hPfreep, hS3freep]
    · rw [hfound2, hPbrk, hS3brk]
    · rw [hfound2, hPlo, hS3lo]
    · rw [hfound2, hPsizes q, hS3szq]
    · rcases hPshape with ⟨h1, h2, h3⟩ | ⟨u, rest, h1, h2, h3⟩
      · rw [hS3usedp] at h1
        exact Or.inl ⟨h1, h2, h3⟩
      · rw [hS3usedp] at h1
        exact Or.inr ⟨u, rest, h1, h2, h3⟩
    · intro w hw
      rw [hfound2, hPsizes w]
      exact hbsz w hw
    · refine Or.inl ⟨hslt, rfl, hq, ?_, ?_⟩
      · rw [hfound2, malloc_push_mem_other S3 q p hqnep.symm hufun, hS3mem_p]
      · rw [hfound2, malloc_push_mem_other S3 q p hqnep.symm hufun, hS3mem_p]

lemma more_core_null (s : GC) (nb fuel : Nat)
    (h : more_core s nb fuel = some none) : s.canGrow = false := by
  unfold more_core at h
  split at h
  · split at h
    · cases h
    · simp at h
  · rename_i hg
    simpa using hg

lemma more_core_grow (s : GC) (nb fuel : Nat) (t : GC)
    (h : more_core s nb fuel = some (some t)) :
    s.canGrow = true ∧ t.canGrow = true := by
  unfold more_core at h
  split at h
  · rename_i hg
    split at h
    · cases h
    · rename_i s2 hfl
      refine ⟨hg, ?_⟩
      injection h with h
      injection h with h
      rw [← h, add_to_free_list_canGrow _ _ _ _ hfl, grow_state_canGrow]
      exact hg
  · cases h

/-! ### `gc_malloc` failure analysis (claim C6) -/

lemma gc_malloc_loop_oom (nu : Nat) :
    ∀ (fuel : Nat) (s : GC) (prevp p grows : Nat) (s' : GC) (g' : Nat),
      gc_malloc_loop nu s prevp p grows fuel = some (none, s', g') →
      s' = s ∧ s.canGrow = false ∧ g' = grows + 1 := by
  intro fuel
  induction fuel with
  | zero =>
    intro s prevp p grows s' g' h
    cases h
  | succ fuel ih =>
    intro s prevp p grows s' g' h
    rw [gc_malloc_loop] at h
    by_cases h1 : nu ≤ (s.mem p).size
    · rw [if_pos h1] at h
      simp at h
    · rw [if_neg h1] at h
      by_cases h2 : p = s.freep
      · rw [if_pos h2] at h
        rcases hmc : more_core s (nu * hdrSize % 2 ^ 64) fuel with _ | o
        · rw [hmc] at h; cases h
        · rcases o with _ | s''
          · rw [hmc] at h
            simp only [Option.some.injEq, Prod.mk.injEq] at h
            exact ⟨h.2.1.symm, more_core_null _ _ _ hmc, h.2.2.symm⟩
          · rw [hmc] at h
            obtain ⟨_, hcg, _⟩ := ih _ _ _ _ _ _ h
            have := (more_core_grow _ _ _ _ hmc).2
            rw [this] at hcg
            cases hcg
      · rw [if_neg h2] at h
        exact ih _ _ _ _ _ _ h

lemma gc_malloc_loop_nogrow (nu : Nat) :
    ∀ (fuel : Nat) (s : GC) (prevp p grows : Nat) (res : Option Nat) (s' : GC) (g' : Nat),
      s.canGrow = false →
      gc_malloc_loop nu s prevp p grows fuel = some (res, s', g') →
      (res = none ∧ g' = grows + 1 ∧ s' = s) ∨ (∃ a, res = some a ∧ g' = grows) := by
  intro fuel
  induction fuel with
  | zero =>
    intro s prevp p grows res s' g' _ h
    cases h
  | succ fuel ih =>
    intro s prevp p grows res s' g' hcg h
    rw [gc_malloc_loop] at h
    by_cases h1 : nu ≤ (s.mem p).size
    · rw [if_pos h1] at h
      simp only [Option.some.injEq, Prod.mk.injEq] at h
      exact Or.inr ⟨(malloc_found nu s prevp p).1, h.1.symm, h.2.2.symm⟩
    · rw [if_neg h1] at h
      by_cases h2 : p = s.freep
      · rw [if_pos h2] at h
        rcases hmc : more_core s (nu * hdrSize % 2 ^ 64) fuel with _ | o
        · rw [hmc] at h; cases h
        · rcases o with _ | s''
          · rw [hmc] at h
            simp only [Option.some.injEq, Prod.mk.injEq] at h
            exact Or.inl ⟨h.1.symm, h.2.2.symm, h.2.1.symm⟩
          · rw [hmc] at h
            have := (more_core_grow _ _ _ _ hmc).1
            rw [hcg] at this
            cases this
      · rw [if_neg h2] at h
        exact ih _ _ _ _ _ _ _ hcg h

/-- The search loop of `gc_malloc` preserves the full invariant whenever it
returns an address: the address is `q + 1` for a fresh used block `q` of
exactly `nu` units, the heap may only have grown, and the sizes of the
previously allocated blocks are untouched. -/
lemma gc_malloc_loop_wf (nu : Nat) (hnu1 : 1 ≤ nu) (hnu32 : nu < 2 ^ 32) :
    ∀ (fuel : Nat) (s : GC) (fs us : List Nat) (prevp grows : Nat),
      WF s fs us → prevp ∈ base :: fs →
      ∀ (r : Nat) (t : GC) (g : Nat),
      gc_malloc_loop nu s prevp ((s.mem prevp).next) grows fuel =
        some (some r, t, g) →
      ∃ q fs' us', r = q + 1 ∧ WF t fs' us' ∧
        t.lo = s.lo ∧ s.brk ≤ t.brk ∧
        goodUsed t q ∧ (t.mem q).size = nu ∧
        ((us = [] ∧ us' = [q]) ∨
         (∃ u rest, us = u :: rest ∧ us' = u :: q :: rest)) ∧
        (∀ w ∈ us, (t.mem w).size = (s.mem w).size) := by
  intro fuel
  induction fuel with
  | zero =>
    intro s fs us prevp grows _ _ r t g h
    cases h
  | succ f ih =>
    intro s fs us prevp grows wf hprev r t g h
    have hpcyc : (s.mem prevp).next ∈ base :: fs :=
      cycle_closed s fs wf.free.links prevp hprev
    rw [gc_malloc_loop] at h
    by_cases h1 : nu ≤ (s.mem ((s.mem prevp).next)).size
    · -- a fitting block: malloc_found
      rw [if_pos h1] at h
      simp only [Option.some.injEq, Prod.mk.injEq] at h
      have hpfs : (s.mem prevp).next ∈ fs := by
        rcases List.mem_cons.mp hpcyc with hb | hb
        · exfalso
          rw [hb, wf.free.base_size] at h1
          omega
        · exact hb
      obtain ⟨q, fs', us', hr, hwf, hfreep, hbrk, hlo, hszq, hpq, hqext, hshape,
        hussz, hfssub, hcases⟩ :=
        malloc_found_wf s fs us wf nu prevp ((s.mem prevp).next) hnu1 hnu32
          hprev rfl hpfs h1
      refine ⟨q, fs', us', ?_, ?_, ?_, ?_, ?_, ?_, ?_, ?_⟩
      · rw [← h.1, hr]
      · rw [← h.2.1]
        exact hwf
      · rw [← h.2.1]
        exact hlo
      · rw [← h.2.1, hbrk]
      · rw [← h.2.1]
        have hqus' : q ∈ us' := by
          rcases hshape with ⟨_, _, h3⟩ | ⟨u, rest, _, _, h3⟩ <;> rw [h3] <;> simp
        exact hwf.used.good q hqus'
      · rw [← h.2.1]
        exact hszq
      · rcases hshape with ⟨_, h2, h3⟩ | ⟨u, rest, _, h2, h3⟩
        · exact Or.inl ⟨h2, h3⟩
        · exact Or.inr ⟨u, rest, h2, h3⟩
      · intro w hw
        rw [← h.2.1]
        exact hussz w hw
    · rw [if_neg h1] at h
      by_cases h2 : (s.mem prevp).next = s.freep
      · rw [if_pos h2] at h
        rcases hmc : more_core s (nu * hdrSize % 2 ^ 64) f with _ | o
        · rw [hmc] at h
          cases h
        · rcases o with _ | s2
          · rw [hmc] at h
            simp at h
          · rw [hmc] at h
            have hnb : nu * hdrSize % 2 ^ 64 = nu * hdrSize := by
              refine Nat.mod_eq_of_lt ?_
              simp only [hdrSize]
              omega
            have hn32' : (if nu * hdrSize % 2 ^ 64 < MIN_ALLOC_SIZE then MIN_ALLOC_SIZE
                else nu * hdrSize % 2 ^ 64) / hdrSize < 2 ^ 32 := by
              rw [hnb]
              split
              · norm_num [MIN_ALLOC_SIZE, hdrSize]
              · simp only [hdrSize]
                rw [Nat.mul_div_cancel _ (by norm_num : (0 : Nat) < 16)]
                exact hnu32
            obtain ⟨fs1, wf1, husedp1, hlo1, hbrk1, _, _, husmem1⟩ :=
              more_core_wf s fs us wf (nu * hdrSize % 2 ^ 64) f hn32' s2 hmc
            obtain ⟨q, fs', us', hr, hwf, hlo2, hbrk2, hgq, hszq, hshape, hussz⟩ :=
              ih s2 fs1 us s2.freep (grows + 1) wf1 wf1.free.cursor r t g h
            refine ⟨q, fs', us', hr, hwf, by rw [hlo2, hlo1], by omega, hgq, hszq,
              hshape, ?_⟩
            intro w hw
            rw [hussz w hw, husmem1 w hw]
      · rw [if_neg h2] at h
        obtain ⟨q, fs', us', hr, hwf, hlo2, hbrk2, hgq, hszq, hshape, hussz⟩ :=
          ih s fs us ((s.mem prevp).next) grows wf hpcyc r t g h
        exact ⟨q, fs', us', hr, hwf, hlo2, hbrk2, hgq, hszq, hshape, hussz⟩

/-- `gc_malloc` itself preserves the invariant on success, for any request
small enough that the unit count fits the 32-bit size field. -/
lemma gc_malloc_wf (s : GC) (fs us : List Nat) (wf : WF s fs us) (b fuel : Nat)
    (hb : b ≤ 2 ^ 36 - 32) (r : Nat) (t : GC) (g : Nat)
    (h : gc_malloc s b fuel = some (some r, t, g)) :
    ∃ q fs' us', r = q + 1 ∧ WF t fs' us' ∧ t.lo = s.lo ∧ s.brk ≤ t.brk ∧
      goodUsed t q ∧ (t.mem q).size = num_units b ∧
      ((us = [] ∧ us' = [q]) ∨
       (∃ u rest, us = u :: rest ∧ us' = u :: q :: rest)) ∧
      (∀ w ∈ us, (t.mem w).size = (s.mem w).size) := by
  have hnu1 : 1 ≤ num_units b := by
    unfold num_units
    simp only [hdrSize]
    omega
  have hnu32 : num_units b < 2 ^ 32 := by
    unfold num_units
    have h1 : (b + hdrSize - 1) % 2 ^ 64 = b + hdrSize - 1 := by
      refine Nat.mod_eq_of_lt ?_
      simp only [hdrSize]
      omega
    rw [h1]
    simp only [hdrSize]
    omega
  unfold gc_malloc at h
  exact gc_malloc_loop_wf (num_units b) hnu1 hnu32 fuel s fs us s.freep 0 wf
    wf.free.cursor r t g h

/-- Claim C6: `gc_malloc` fails (returns the `NULL` out-of-memory value) if
and only if the OS growth primitive denies a request during that call
(`canGrow` is false and at least one `more_core` call was made), and on
such a failure the entire collector state — free list, used list, cursor,
and all existing allocations — is exactly as before the call.  There is no
other error condition. -/
theorem c6_oom_iff (s : GC) (b fuel : Nat) (res : Option Nat) (s' : GC) (g : Nat)
    (h : gc_malloc s b fuel = some (res, s', g)) :
    (res = none ↔ s.canGrow = false ∧ 1 ≤ g) ∧
    (res = none → s' = s ∧ g = 1) := by
  unfold gc_malloc at h
  constructor
  · constructor
    · intro hres
      rw [hres] at h
      obtain ⟨_, hcg, hg⟩ := gc_malloc_loop_oom _ _ _ _ _ _ _ _ h
      exact ⟨hcg, by omega⟩
    · rintro ⟨hcg, hg⟩
      rcases gc_malloc_loop_nogrow _ _ _ _ _ _ _ _ _ hcg h with ⟨hres, _, _⟩ | ⟨a, hres, hg0⟩
      · exact hres
      · omega
  · intro hres
    rw [hres] at h
    obtain ⟨he, _, hg⟩ := gc_malloc_loop_oom _ _ _ _ _ _ _ _ h
    exact ⟨he, by omega⟩

/-- Witness for C6 at a concrete input: a state whose free list is only the
sentinel and whose OS refuses growth; `gc_malloc` fails, makes exactly one
(denied) growth request, and returns the state unchanged. -/
theorem c6_oom_iff_witness :
    ((none : Option Nat) = none ↔
      (start_state 256 [] (fun _ => 0) false).canGrow = false ∧ 1 ≤ 1) ∧
    ((none : Option Nat) = none →
      start_state 256 [] (fun _ => 0) false = start_state 256 [] (fun _ => 0) false ∧
      1 = 1) :=
  c6_oom_iff (start_state 256 [] (fun _ => 0) false) 16 10 none
    (start_state 256 [] (fun _ => 0) false) 1 rfl

/-! ### Claim C8: the unit-count formula -/

/-- Claim C8 fails as stated: at the request `b = 2 ^ 64 - 1` (a valid
`size_t` byte count), the `size_t` addition `alloc_size + sizeof(header_t) - 1`
wraps, so `gc_malloc` computes `num_units = 1` — one header unit and zero
payload — rather than the exact `ceil(b / 16) + 1 = 2 ^ 60 + 1`. -/
theorem c8_counterexample :
    0 < 2 ^ 64 - 1 ∧
    num_units (2 ^ 64 - 1) = 1 ∧
    ¬ num_units (2 ^ 64 - 1) = (2 ^ 64 - 1 + hdrSize - 1) / hdrSize + 1 ∧
    ¬ num_units (2 ^ 64 - 1) = (2 ^ 64 - 1) ⌈/⌉ hdrSize + 1 := by
  refine ⟨by norm_num, by decide, by decide, by decide⟩

/-- Claim C8 (amended): for every requested byte count `0 < b ≤ 2 ^ 36 - 32`
(so that neither the 64-bit sum nor the 32-bit `size` store can wrap),
`gc_malloc` computes the unit count as exactly
`(b + sizeof(header_t) - 1) / sizeof(header_t) + 1 = ceil(b / 16) + 1`,
and that count is stored exactly in the block's 32-bit `size` field. -/
theorem c8_amended (b : Nat) (h0 : 0 < b) (h1 : b ≤ 2 ^ 36 - 32) :
    num_units b = (b + hdrSize - 1) / hdrSize + 1 ∧
    num_units b = b ⌈/⌉ hdrSize + 1 ∧
    num_units b % 2 ^ 32 = num_units b := by
  rw [Nat.ceilDiv_eq_add_pred_div]
  unfold num_units hdrSize
  omega

/-- Witness for the amended C8 at `b = 4080`. -/
theorem c8_amended_witness :
    num_units 4080 = (4080 + hdrSize - 1) / hdrSize + 1 ∧
    num_units 4080 = 4080 ⌈/⌉ hdrSize + 1 ∧
    num_units 4080 % 2 ^ 32 = num_units 4080 :=
  c8_amended 4080 (by decide) (by decide)

/-! ### Claim C4: the three-allocation scenario -/

/-- Claim C4 fails as stated: in the scenario, the second request,
`allocate(4080)`, already performs an OS request (its `more_core` count is
1, not 0), because it needs 256 units while only 254 remain free in the
initial region after `allocate(16)` took 2. -/
theorem c4_counterexample :
    (gc_malloc c4_s2 4080 100).map (fun r => r.2.2) = some 1 ∧
    ¬ (gc_malloc c4_s2 4080 100).map (fun r => r.2.2) = some 0 := by
  exact ⟨by decide, by decide⟩

/-- Claim C4 (amended): starting from a single fresh 4096-byte arena, the
first request `allocate(16)` is satisfied from the initial region (the
block `[510, 512)` with payload at 511) with no OS request; the second
request `allocate(4080)` triggers Arena Growth (exactly one `more_core`
call), because after the first allocation only 254 units remain while it
needs 256; the third request `allocate(32)` is then again satisfied from
the remainder of the initial region (block `[507, 510)`) with no further
OS request. -/
theorem c4_amended :
    c4_s1.lo = 256 ∧ c4_s1.brk = 512 ∧
    (gc_malloc c4_s1 16 100).map (fun r => (r.1, r.2.2)) = some (some 511, 0) ∧
    (gc_malloc c4_s1 16 100).map (fun r => ((r.2.1).mem 510).size) = some 2 ∧
    256 ≤ 510 ∧ 510 + 2 ≤ 512 ∧
    (gc_malloc c4_s2 4080 100).map (fun r => (r.1, r.2.2)) = some (some 513, 1) ∧
    (gc_malloc c4_s3 32 100).map (fun r => (r.1, r.2.2)) = some (some 508, 0) ∧
    (gc_malloc c4_s3 32 100).map (fun r => ((r.2.1).mem 507).size) = some 3 ∧
    256 ≤ 507 ∧ 507 + 3 ≤ 512 ∧
    (gc_malloc c4_s2 4080 100).map (fun r => ((r.2.1).mem 512).size) = some 256 ∧
    c4_s3.brk = 768 ∧ 512 + 256 ≤ 768 := by
  decide

/-! ### Claim C1: single-pass heap scanning under-marks -/

/-- Claim C1 fails on the code (and the code fails the spec's stated
correctness requirement): at `c1_state` the used list is the cycle
310 → 300 → 320, block 300 is marked by the root scan, 300's payload
points into 310's payload and 310's payload points into 320's payload, so
320 is reachable from a root-marked block through a two-link chain; yet
after `scan_heap` completes, 310 is marked but 320 is not — the single
linear pass visits 310 before 300 marks it, so 310's payload is never
scanned and the marking is not a fixpoint of transitive reachability. -/
theorem c1_single_pass_undermarks :
    (c1_state.usedp = some 310 ∧
     (c1_state.mem 310).next = 300 ∧ (c1_state.mem 300).next = 320 ∧
     (c1_state.mem 320).next = 310 ∧
     (c1_state.mem 300).size = 2 ∧ (c1_state.mem 310).size = 2 ∧
     (c1_state.mem 320).size = 2) ∧
    ((c1_state.mem 300).mark = true ∧ (c1_state.mem 310).mark = false ∧
     (c1_state.mem 320).mark = false) ∧
    (payload_words 300 2 = [602, 603] ∧ c1_state.words 602 = 4976 ∧
     (hdrSize * (310 + 1) : Int) ≤ 4976 ∧ (4976 : Int) < hdrSize * (310 + 2) ∧
     payload_words 310 2 = [622, 623] ∧ c1_state.words 622 = 5136 ∧
     (hdrSize * (320 + 1) : Int) ≤ 5136 ∧ (5136 : Int) < hdrSize * (320 + 2)) ∧
    (scan_heap c1_state 310 100).map
      (fun s => ((s.mem 300).mark, (s.mem 310).mark, (s.mem 320).mark))
      = some (true, true, false) := by
  decide

/-! ### Claim C2: the sweep drops marked blocks when the head is swept -/

/-- Claim C2 fails on the code (and the code fails the spec's stated
postcondition): at `c2_state` the used list holds blocks 300 (the head)
and 310; the root segment points into 310's payload and into nothing else,
so after marking, 310 is marked and 300 is not.  The sweep frees 300 and,
because 300 is `usedp`, sets `usedp = NULL` and stops: the reachable,
marked block 310 is dropped from the used list without being inserted
into the free list (the final free list is just `base → 300 → base`). -/
theorem c2_sweep_drops_marked :
    (c2_state.usedp = some 300 ∧ (c2_state.mem 300).next = 310 ∧
     (c2_state.mem 310).next = 300 ∧
     (c2_state.mem 300).size = 2 ∧ (c2_state.mem 310).size = 2 ∧
     (c2_state.mem 300).mark = false ∧ (c2_state.mem 310).mark = false) ∧
    (c2_state.roots = [4976] ∧
     (hdrSize * (310 + 1) : Int) ≤ 4976 ∧ (4976 : Int) < hdrSize * (310 + 2) ∧
     ¬ ((hdrSize * (300 + 1) : Int) ≤ 4976 ∧ (4976 : Int) < hdrSize * (300 + 2))) ∧
    (gc_collect c2_state 100).map
      (fun s => (s.usedp, s.freep, (s.mem base).next, (s.mem 300).next))
      = some (none, base, 300, base) := by
  decide

/-! ### Claim C5: free-list insertion, order, coalescing -/

/-- Claim C5's "size is the exact sum" fails: at `c5_state` the inserted
block at `256 + 2^31` (`2^31` units) is backward-adjacent to the free block
at 256 (`2^31` units); `add_to_free_list` succeeds and merges them, but the
32-bit size store wraps, leaving merged size 0 while the exact sum of the
merged blocks' sizes is `2^32`. -/
theorem c5_counterexample :
    ((add_to_free_list c5_state (256 + 2 ^ 31) 5).map
        (fun t => ((t.mem 256).size, (t.mem 256).next, t.freep)))
      = some (0, base, 256) ∧
    (c5_state.mem 256).size + (c5_state.mem (256 + 2 ^ 31)).size = 2 ^ 32 ∧
    (0 : Nat) ≠ 2 ^ 32 := by
  refine ⟨?_, by decide, by decide⟩
  decide

/-- Claim C5 (amended): on a well-formed free list, inserting a heap block
disjoint from all free blocks succeeds given fuel at least `2|fs|+3`,
mutates only the free list headers at the insertion point `p` and at `bp`
plus the cursor, preserves well-formedness (hence ascending order, no gap,
no overlap), and coalesces with the adjacent successor and/or predecessor;
the merged size is the sum modulo `2^32`, hence the exact sum whenever that
sum fits in 32 bits. -/
theorem c5_amended (s : GC) (fs : List Nat) (wf : FreeWF s fs) (bp : Nat)
    (hlo : s.lo ≤ bp) (hbrkb : bp < s.brk)
    (hext : bp + (s.mem bp).size ≤ s.brk) (hszb : (s.mem bp).size < 2 ^ 32)
    (hdisj : ∀ z ∈ fs, Disj s bp z) (hnotin : bp ∉ base :: fs)
    (fuel : Nat) (hf : 2 * fs.length + 3 ≤ fuel) :
    ∃ p fs' A B, add_to_free_list s bp fuel = some (add_at s bp p) ∧
      (add_at s bp p).usedp = s.usedp ∧ (add_at s bp p).brk = s.brk ∧
      (add_at s bp p).lo = s.lo ∧ (add_at s bp p).words = s.words ∧
      (add_at s bp p).roots = s.roots ∧ (add_at s bp p).canGrow = s.canGrow ∧
      (add_at s bp p).freep = p ∧
      (∀ a, a ≠ bp → a ≠ p → (add_at s bp p).mem a = s.mem a) ∧
      FreeWF (add_at s bp p) fs' ∧
      base :: fs = A ++ p :: B ∧ p < bp ∧
      (∀ a ∈ A, a < bp) ∧ (∀ b ∈ B, bp < b) ∧
      ((bp + (s.mem bp).size ≠ (B ++ [base]).headD 0 ∧ p + (s.mem p).size ≠ bp ∧
        base :: fs' = A ++ p :: bp :: B ∧
        (add_at s bp p).mem bp =
          { size := (s.mem bp).size, next := (B ++ [base]).headD 0, mark := false } ∧
        (add_at s bp p).mem p =
          { size := (s.mem p).size, next := bp, mark := false }) ∨
       (∃ c B2, B = c :: B2 ∧ bp + (s.mem bp).size = c ∧ p + (s.mem p).size ≠ bp ∧
        base :: fs' = A ++ p :: bp :: B2 ∧
        (add_at s bp p).mem bp =
          { size := ((s.mem bp).size + (s.mem c).size) % 2 ^ 32,
            next := (B2 ++ [base]).headD 0, mark := false } ∧
        ((s.mem bp).size + (s.mem c).size < 2 ^ 32 →
          ((add_at s bp p).mem bp).size = (s.mem bp).size + (s.mem c).size) ∧
        (add_at s bp p).mem p =
          { size := (s.mem p).size, next := bp, mark := false }) ∨
       (bp + (s.mem bp).size ≠ (B ++ [base]).headD 0 ∧ p + (s.mem p).size = bp ∧
        base :: fs' = A ++ p :: B ∧
        (add_at s bp p).mem p =
          { size := ((s.mem p).size + (s.mem bp).size) % 2 ^ 32,
            next := (B ++ [base]).headD 0, mark := false } ∧
        ((s.mem p).size + (s.mem bp).size < 2 ^ 32 →
          ((add_at s bp p).mem p).size = (s.mem p).size + (s.mem bp).size)) ∨
       (∃ c B2, B = c :: B2 ∧ bp + (s.mem bp).size = c ∧ p + (s.mem p).size = bp ∧
        base :: fs' = A ++ p :: B2 ∧
        (add_at s bp p).mem p =
          { size := ((s.mem p).size + ((s.mem bp).size + (s.mem c).size) % 2 ^ 32) % 2 ^ 32,
            next := (B2 ++ [base]).headD 0, mark := false } ∧
        ((s.mem p).size + (s.mem bp).size + (s.mem c).size < 2 ^ 32 →
          ((add_at s bp p).mem p).size =
            (s.mem p).size + (s.mem bp).size + (s.mem c).size))) := by
  have hbbp : base < bp := lt_of_lt_of_le wf.base_lo hlo
  obtain ⟨A, p, B, hsplit, hpb, hA, hB, hstop, huniq⟩ := spot_spec s fs wf bp hbbp hnotin
  have hpmem : p ∈ base :: fs := by rw [hsplit]; simp
  have hwalk : free_spot s bp s.freep fuel = some p :=
    free_spot_reaches s fs wf.links (freeWF_nodup s fs wf) bp p s.freep
      wf.cursor hpmem hstop huniq fuel hf
  have hcall : add_to_free_list s bp fuel = some (add_at s bp p) := by
    unfold add_to_free_list
    rw [hwalk]
  obtain ⟨fs', hwf', huntouched, _, hcases⟩ :=
    add_at_spec s fs A B p bp wf hsplit hpb hA hB hlo hbrkb hext hszb hdisj hnotin
  refine ⟨p, fs', A, B, hcall, add_at_usedp s bp p, add_at_brk s bp p,
    add_at_lo s bp p, add_at_words s bp p, add_at_roots s bp p,
    add_at_canGrow s bp p, add_at_freep s bp p, huntouched, hwf',
    hsplit, hpb, hA, hB, ?_⟩
  rcases hcases with ⟨h1, h2, h3, h4, h5⟩ | ⟨c, B2, h1, h2, h3, h4, h5, h6⟩ |
    ⟨h1, h2, h3, h4⟩ | ⟨c, B2, h1, h2, h3, h4, h5⟩
  · exact Or.inl ⟨h1, h2, h3, h4, h5⟩
  · refine Or.inr (Or.inl ⟨c, B2, h1, h2, h3, h4, h5, ?_, h6⟩)
    intro hlt
    rw [h5]
    exact Nat.mod_eq_of_lt hlt
  · refine Or.inr (Or.inr (Or.inl ⟨h1, h2, h3, h4, ?_⟩))
    intro hlt
    rw [h4]
    exact Nat.mod_eq_of_lt hlt
  · refine Or.inr (Or.inr (Or.inr ⟨c, B2, h1, h2, h3, h4, h5, ?_⟩))
    intro hlt
    rw [h5]
    dsimp only
    rw [Nat.mod_eq_of_lt (by omega)]
    rw [Nat.mod_eq_of_lt (by omega)]
    omega

/-! ### Claims C3, C7, C10: the allocation path -/

/-- The invariant carried along a whole sequence of successful `gc_malloc`
calls: all returned addresses are fresh pairwise-distinct used blocks that
stay on the used list with their sizes untouched. -/
lemma malloc_seq_wf :
    ∀ (bs : List Nat) (s : GC) (fs us : List Nat), WF s fs us →
      (∀ b ∈ bs, b ≤ 2 ^ 36 - 32) →
      ∀ (fuel : Nat) (rs : List Nat) (t : GC),
      malloc_seq fuel s bs = some (rs, t) →
      ∃ (qs fs' us' : List Nat), WF t fs' us' ∧ rs = qs.map (fun q => q + 1) ∧
        (∀ q ∈ qs, q ∈ us') ∧ (∀ w ∈ us, w ∈ us') ∧
        (∀ w ∈ us, (t.mem w).size = (s.mem w).size) ∧
        t.lo = s.lo ∧ s.brk ≤ t.brk ∧
        qs.Nodup ∧ (∀ x ∈ qs, x ∉ us) := by
  intro bs
  induction bs with
  | nil =>
    intro s fs us wf _ fuel rs t h
    unfold malloc_seq at h
    simp only [Option.some.injEq, Prod.mk.injEq] at h
    refine ⟨[], fs, us, by rw [← h.2]; exact wf, by rw [← h.1]; rfl, by simp,
      fun w hw => hw, fun w hw => by rw [← h.2], by rw [← h.2], by rw [← h.2],
      by simp, by simp⟩
  | cons b bs ih =>
    intro s fs us wf hbs fuel rs t h
    rw [malloc_seq] at h
    split at h
    case h_2 => cases h
    case h_1 r s1 g hm =>
      split at h
      case h_2 => cases h
      case h_1 rs1 t1 hms =>
          simp only [Option.some.injEq, Prod.mk.injEq] at h
          obtain ⟨q, fs1, us1, hr, hwf1, hlo1, hbrk1, hgq, hszq, hshape, hussz⟩ :=
            gc_malloc_wf s fs us wf b fuel (hbs b (by simp)) r s1 g hm
          obtain ⟨qs, fs', us', hwf', hrs, hqs, husub, hussz2, hlo2, hbrk2,
            hnd, hnotus⟩ :=
            ih s1 fs1 us1 hwf1 (fun b2 hb2 => hbs b2 (by simp [hb2])) fuel rs1 t1 hms
          have hw01 : ∀ w ∈ us, w ∈ us1 := by
            intro w hw
            rcases hshape with ⟨hnil, _⟩ | ⟨u, rest, h2, h3⟩
            · rw [hnil] at hw
              cases hw
            · rw [h3]
              rw [h2] at hw
              rcases List.mem_cons.mp hw with rfl | hw2
              · simp
              · simp [hw2]
          have hq_in_us1 : q ∈ us1 := by
            rcases hshape with ⟨_, h3⟩ | ⟨u, rest, _, h3⟩ <;> rw [h3] <;> simp
          have hqnotus : q ∉ us := by
            intro hc
            rcases hshape with ⟨hnil, _⟩ | ⟨u, rest, h2, h3⟩
            · rw [hnil] at hc
              cases hc
            · have hnd1 := usedWF_nodup s1 us1 hwf1.used
              rw [h3] at hnd1
              rw [h2] at hc
              rcases List.mem_cons.mp hc with hqu | hc2
              · refine (List.nodup_cons.mp hnd1).1 ?_
                rw [← hqu]
                exact List.mem_cons_self _ _
              · exact (List.nodup_cons.mp (List.nodup_cons.mp hnd1).2).1 hc2
          refine ⟨q :: qs, fs', us', by rw [← h.2]; exact hwf', ?_, ?_, ?_, ?_,
            ?_, ?_, ?_, ?_⟩
          · rw [← h.1, hrs, hr]
            rfl
          · intro x hx
            rcases List.mem_cons.mp hx with rfl | hx2
            · exact husub x hq_in_us1
            · exact hqs x hx2
          · intro w hw
            exact husub w (hw01 w hw)
          · intro w hw
            rw [← h.2, hussz2 w (hw01 w hw), hussz w hw]
          · rw [← h.2, hlo2, hlo1]
          · rw [← h.2]
            omega
          · refine List.nodup_cons.mpr ⟨?_, hnd⟩
            intro hc
            exact hnotus q hc hq_in_us1
          · intro x hx
            rcases List.mem_cons.mp hx with rfl | hx2
            · exact hqnotus
            · intro hc
              exact hnotus x hx2 (hw01 x hc)

/-- Claim C3: for every sequence of successful `gc_malloc` calls from a
well-formed state, the returned payload ranges — each starting at the
returned address and extending for `size - 1` header units — are pairwise
disjoint, and each lies inside the memory obtained from the OS
(`[lo, brk)`). -/
theorem c3_no_overlap (s : GC) (fs us : List Nat) (wf : WF s fs us)
    (bs : List Nat) (hbs : ∀ b ∈ bs, b ≤ 2 ^ 36 - 32) (fuel : Nat)
    (rt : List Nat × GC) (h : malloc_seq fuel s bs = some rt) :
    ∃ qs : List Nat, rt.1 = qs.map (fun q => q + 1) ∧
      (∀ q ∈ qs, 1 ≤ ((rt.2).mem q).size ∧
        (rt.2).lo ≤ q + 1 ∧ q + 1 + (((rt.2).mem q).size - 1) ≤ (rt.2).brk) ∧
      qs.Pairwise (fun q1 q2 =>
        q1 + 1 + (((rt.2).mem q1).size - 1) ≤ q2 + 1 ∨
        q2 + 1 + (((rt.2).mem q2).size - 1) ≤ q1 + 1) := by
  obtain ⟨qs, fs', us', hwf', hrs, hqs, _, _, _, _, hnodup, _⟩ :=
    malloc_seq_wf bs s fs us wf hbs fuel rt.1 rt.2 (by rw [h])
  refine ⟨qs, hrs, ?_, ?_⟩
  · intro q hq
    have hg := hwf'.used.good q (hqs q hq)
    refine ⟨hg.2.2.2.1, ?_, ?_⟩
    · have := hg.1
      omega
    · have h1 := hg.2.2.1
      have h2 := hg.2.2.2.1
      omega
  · have hsym : Symmetric (fun a b => Disj rt.2 a b ∨ Disj rt.2 b a) :=
      fun a b h2 => Or.symm h2
    have hpw : us'.Pairwise (fun a b => Disj rt.2 a b ∨ Disj rt.2 b a) :=
      hwf'.used.disj.imp (fun h2 => Or.inl h2)
    have hall := hpw.forall hsym
    refine List.Pairwise.imp_of_mem ?_ hnodup
    intro q1 q2 hq1 hq2 hne
    have hd := hall (hqs q1 hq1) (hqs q2 hq2) hne
    have hs1 := (hwf'.used.good q1 (hqs q1 hq1)).2.2.2.1
    have hs2 := (hwf'.used.good q2 (hqs q2 hq2)).2.2.2.1
    rcases hd with hd | hd
    · unfold Disj at hd
      rcases hd with h1 | h1
      · exact Or.inl (by omega)
      · exact Or.inr (by omega)
    · unfold Disj at hd
      rcases hd with h1 | h1
      · exact Or.inr (by omega)
      · exact Or.inl (by omega)

/-- Well-formedness of the post-`initialize` state of the C4 scenario: one
free block of 256 units at unit address 256, an empty used list. -/
lemma wfc4s1 : WF c4_s1 [256] [] := by
  refine ⟨⟨by decide, by decide, List.Chain.cons (by decide) List.Chain.nil,
    List.Chain.cons (by decide) List.Chain.nil, by decide, by decide, by decide,
    by decide⟩, ⟨by decide, Or.inl rfl, by simp, by simp⟩, by simp, by decide⟩

/-- Witness for claim C3 at the concrete run `c3w`. -/
theorem c3_no_overlap_witness :
    ∃ qs : List Nat, c3w.1 = qs.map (fun q => q + 1) ∧
      (∀ q ∈ qs, 1 ≤ ((c3w.2).mem q).size ∧
        (c3w.2).lo ≤ q + 1 ∧ q + 1 + (((c3w.2).mem q).size - 1) ≤ (c3w.2).brk) ∧
      qs.Pairwise (fun q1 q2 =>
        q1 + 1 + (((c3w.2).mem q1).size - 1) ≤ q2 + 1 ∨
        q2 + 1 + (((c3w.2).mem q2).size - 1) ≤ q1 + 1) :=
  c3_no_overlap c4_s1 [256] [] wfc4s1 [16] (by decide) 100 c3w (by rfl)

/-- Claim C7: at a fitting free block `p` with cycle predecessor `prevp`,
a strictly larger block is split — it stays on the free list at its
original address with its link untouched and keeps the size difference,
while the allocated block is the tail portion at `p + (size - nu)` of size
`nu`; an exact-size block is unlinked from the free list whole.  In both
cases the cursor ends at `prevp`. -/
theorem c7_split_exact (s : GC) (fs us : List Nat) (wf : WF s fs us)
    (nu prevp p : Nat) (hnu1 : 1 ≤ nu) (hnu32 : nu < 2 ^ 32)
    (hprev : prevp ∈ base :: fs) (hnext : (s.mem prevp).next = p) (hp : p ∈ fs)
    (hfit : nu ≤ (s.mem p).size) :
    (malloc_found nu s prevp p).2.freep = prevp ∧
    ∃ fs', FreeWF (malloc_found nu s prevp p).2 fs' ∧
      ((nu < (s.mem p).size ∧ fs' = fs ∧
        (malloc_found nu s prevp p).1 = p + ((s.mem p).size - nu) + 1 ∧
        ((malloc_found nu s prevp p).2.mem p).next = (s.mem p).next ∧
        ((malloc_found nu s prevp p).2.mem p).size = (s.mem p).size - nu ∧
        ((malloc_found nu s prevp p).2.mem (p + ((s.mem p).size - nu))).size = nu) ∨
       (nu = (s.mem p).size ∧ (malloc_found nu s prevp p).1 = p + 1 ∧
        ∃ C D, base :: fs = C ++ prevp :: p :: D ∧ base :: fs' = C ++ prevp :: D)) := by
  obtain ⟨q, fs', us', hr, hwf, hfreep, _, _, hszq, _, _, _, _, _, hcases⟩ :=
    malloc_found_wf s fs us wf nu prevp p hnu1 hnu32 hprev hnext hp hfit
  refine ⟨hfreep, fs', hwf.free, ?_⟩
  rcases hcases with ⟨h1, h2, h3, h4, h5⟩ | ⟨h1, h2, C, D, h3, h4⟩
  · refine Or.inl ⟨h1, h2, ?_, h4, h5, ?_⟩
    · rw [hr, h3]
    · rw [← h3]
      exact hszq
  · refine Or.inr ⟨h1, ?_, C, D, h3, h4⟩
    rw [hr, h2]

/-- Witness for claim C7: the 2-unit split of the initial 256-unit block. -/
theorem c7_split_exact_witness :
    (malloc_found 2 c4_s1 base 256).2.freep = base ∧
    ∃ fs', FreeWF (malloc_found 2 c4_s1 base 256).2 fs' ∧
      ((2 < (c4_s1.mem 256).size ∧ fs' = [256] ∧
        (malloc_found 2 c4_s1 base 256).1 = 256 + ((c4_s1.mem 256).size - 2) + 1 ∧
        ((malloc_found 2 c4_s1 base 256).2.mem 256).next = (c4_s1.mem 256).next ∧
        ((malloc_found 2 c4_s1 base 256).2.mem 256).size = (c4_s1.mem 256).size - 2 ∧
        ((malloc_found 2 c4_s1 base 256).2.mem
          (256 + ((c4_s1.mem 256).size - 2))).size = 2) ∨
       (2 = (c4_s1.mem 256).size ∧ (malloc_found 2 c4_s1 base 256).1 = 256 + 1 ∧
        ∃ C D, base :: [256] = C ++ base :: 256 :: D ∧
          base :: fs' = C ++ base :: D)) :=
  c7_split_exact c4_s1 [256] [] wfc4s1 2 base 256 (by decide) (by decide)
    (by decide) (by decide) (by decide) (by decide)

/-- Claim C10: the zero-sized sentinel is never selected by the allocator:
the unit count of any request is at least 1 while the sentinel's stored
size is 0, so the fit test is false at `base`; after every successful
`gc_malloc` the free list is still the cycle through `base`, the returned
payload is never the sentinel's, and `base` is not on the used list. -/
theorem c10_sentinel (s : GC) (fs us : List Nat) (wf : WF s fs us)
    (b fuel : Nat) (hb : b ≤ 2 ^ 36 - 32) (r : Nat) (t : GC) (g : Nat)
    (h : gc_malloc s b fuel = some (some r, t, g)) :
    1 ≤ num_units b ∧
    ¬ num_units b ≤ (s.mem base).size ∧
    ∃ fs' us', WF t fs' us' ∧ chain t base (fs' ++ [base]) ∧
      r ≠ base + 1 ∧ base ∉ us' := by
  obtain ⟨q, fs', us', hr, hwf, hlo, hbrk, hgq, hszq, hshape, _⟩ :=
    gc_malloc_wf s fs us wf b fuel hb r t g h
  have hnu1 : 1 ≤ num_units b := by
    unfold num_units
    simp only [hdrSize]
    omega
  refine ⟨hnu1, ?_, fs', us', hwf, hwf.free.links, ?_, ?_⟩
  · rw [wf.free.base_size]
    omega
  · rw [hr]
    have h1 := hwf.free.base_lo
    have h2 := hgq.1
    omega
  · intro hc
    have hg := hwf.used.good base hc
    have := hwf.free.base_lo
    have := hg.1
    omega

/-- Witness for claim C10: `gc_malloc(16)` from the post-`initialize`
state returns payload 511, not the sentinel's. -/
theorem c10_sentinel_witness :
    1 ≤ num_units 16 ∧
    ¬ num_units 16 ≤ (c4_s1.mem base).size ∧
    ∃ fs' us', WF c10w.2.1 fs' us' ∧ chain c10w.2.1 base (fs' ++ [base]) ∧
      511 ≠ base + 1 ∧ base ∉ us' :=
  c10_sentinel c4_s1 [256] [] wfc4s1 16 100 (by decide) 511 c10w.2.1 c10w.2.2
    (by rfl)

/-- Witness for the amended claim C5 at the concrete state `c5w_state`. -/
theorem c5_amended_witness :
    ∃ p fs' A B, add_to_free_list c5w_state 270 10 = some (add_at c5w_state 270 p) ∧
      (add_at c5w_state 270 p).usedp = c5w_state.usedp ∧
      (add_at c5w_state 270 p).brk = c5w_state.brk ∧
      (add_at c5w_state 270 p).lo = c5w_state.lo ∧
      (add_at c5w_state 270 p).words = c5w_state.words ∧
      (add_at c5w_state 270 p).roots = c5w_state.roots ∧
      (add_at c5w_state 270 p).canGrow = c5w_state.canGrow ∧
      (add_at c5w_state 270 p).freep = p ∧
      (∀ a, a ≠ 270 → a ≠ p → (add_at c5w_state 270 p).mem a = c5w_state.mem a) ∧
      FreeWF (add_at c5w_state 270 p) fs' ∧
      base :: [260] = A ++ p :: B ∧ p < 270 ∧
      (∀ a ∈ A, a < 270) ∧ (∀ b ∈ B, 270 < b) ∧
      ((270 + (c5w_state.mem 270).size ≠ (B ++ [base]).headD 0 ∧
        p + (c5w_state.mem p).size ≠ 270 ∧
        base :: fs' = A ++ p :: 270 :: B ∧
        (add_at c5w_state 270 p).mem 270 =
          { size := (c5w_state.mem 270).size, next := (B ++ [base]).headD 0,
            mark := false } ∧
        (add_at c5w_state 270 p).mem p =
          { size := (c5w_state.mem p).size, next := 270, mark := false }) ∨
       (∃ c B2, B = c :: B2 ∧ 270 + (c5w_state.mem 270).size = c ∧
        p + (c5w_state.mem p).size ≠ 270 ∧
        base :: fs' = A ++ p :: 270 :: B2 ∧
        (add_at c5w_state 270 p).mem 270 =
          { size := ((c5w_state.mem 270).size + (c5w_state.mem c).size) % 2 ^ 32,
            next := (B2 ++ [base]).headD 0, mark := false } ∧
        ((c5w_state.mem 270).size + (c5w_state.mem c).size < 2 ^ 32 →
          ((add_at c5w_state 270 p).mem 270).size =
            (c5w_state.mem 270).size + (c5w_state.mem c).size) ∧
        (add_at c5w_state 270 p).mem p =
          { size := (c5w_state.mem p).size, next := 270, mark := false }) ∨
       (270 + (c5w_state.mem 270).size ≠ (B ++ [base]).headD 0 ∧
        p + (c5w_state.mem p).size = 270 ∧
        base :: fs' = A ++ p :: B ∧
        (add_at c5w_state 270 p).mem p =
          { size := ((c5w_state.mem p).size + (c5w_state.mem 270).size) % 2 ^ 32,
            next := (B ++ [base]).headD 0, mark := false } ∧
        ((c5w_state.mem p).size + (c5w_state.mem 270).size < 2 ^ 32 →
          ((add_at c5w_state 270 p).mem p).size =
            (c5w_state.mem p).size + (c5w_state.mem 270).size)) ∨
       (∃ c B2, B = c :: B2 ∧ 270 + (c5w_state.mem 270).size = c ∧
        p + (c5w_state.mem p).size = 270 ∧
        base :: fs' = A ++ p :: B2 ∧
        (add_at c5w_state 270 p).mem p =
          { size := ((c5w_state.mem p).size +
              ((c5w_state.mem 270).size + (c5w_state.mem c).size) % 2 ^ 32) % 2 ^ 32,
            next := (B2 ++ [base]).headD 0, mark := false } ∧
        ((c5w_state.mem p).size + (c5w_state.mem 270).size +
            (c5w_state.mem c).size < 2 ^ 32 →
          ((add_at c5w_state 270 p).mem p).size =
            (c5w_state.mem p).size + (c5w_state.mem 270).size +
              (c5w_state.mem c).size))) :=
  c5_amended c5w_state [260]
    ⟨by decide, by decide, List.Chain.cons (by decide) List.Chain.nil,
     List.Chain.cons (by decide) List.Chain.nil, by decide, by decide,
     by decide, by decide⟩
    270 (by decide) (by decide) (by decide) (by decide) (by decide) (by decide)
    10 (by decide)

/-! ### Claim C9: idempotence of collection — mark-phase machinery -/

lemma inBlock_szOf (s : GC) (x : Nat) (ptr : Int) :
    inBlock (szOf s) x ptr = true ↔
      ((hdrSize * (x + 1) : Int) ≤ ptr ∧
        ptr < (hdrSize * (x + (s.mem x).size) : Int)) := by
  simp [inBlock, szOf]

lemma inBlock_szOf_false (s : GC) (x : Nat) (ptr : Int)
    (h : ¬ ((hdrSize * (x + 1) : Int) ≤ ptr ∧
      ptr < (hdrSize * (x + (s.mem x).size) : Int))) :
    inBlock (szOf s) x ptr = false := by
  cases hib : inBlock (szOf s) x ptr
  · rfl
  · exact absurd ((inBlock_szOf s x ptr).mp hib) h

lemma szOf_eq_of_sizes (s t : GC) (h : ∀ x, (t.mem x).size = (s.mem x).size) :
    szOf t = szOf s :=
  funext fun z => h z

lemma marksOnly_refl (s : GC) (L : List Nat) : MarksOnly s s L :=
  ⟨fun _ => rfl, fun _ => rfl, fun _ _ => rfl, rfl, rfl, rfl, rfl, rfl, rfl,
   rfl⟩

lemma marksOnly_trans {s t u : GC} {L : List Nat}
    (h1 : MarksOnly s t L) (h2 : MarksOnly t u L) : MarksOnly s u L :=
  ⟨fun x => (h2.size x).trans (h1.size x),
   fun x => (h2.next x).trans (h1.next x),
   fun x hx => (h2.off x hx).trans (h1.off x hx),
   h2.words.trans h1.words, h2.freep.trans h1.freep, h2.usedp.trans h1.usedp,
   h2.brk.trans h1.brk, h2.lo.trans h1.lo, h2.roots.trans h1.roots,
   h2.canGrow.trans h1.canGrow⟩

lemma marksOnly_setMark (s : GC) (L : List Nat) (x : Nat) (hx : x ∈ L) :
    MarksOnly s (setMem s x { s.mem x with mark := true }) L := by
  refine ⟨?_, ?_, ?_, by simp, by simp, by simp, by simp, by simp, by simp,
    by simp⟩
  · intro z
    by_cases hz : z = x
    · subst hz; rw [setMem_mem_same]
    · rw [setMem_mem_other _ _ _ _ hz]
  · intro z
    by_cases hz : z = x
    · subst hz; rw [setMem_mem_same]
    · rw [setMem_mem_other _ _ _ _ hz]
  · intro z hz
    rw [setMem_mem_other _ _ _ _ (fun hc => hz (by rw [hc]; exact hx))]

lemma chain_congr_next (s t : GC)
    (hnext : ∀ z, (t.mem z).next = (s.mem z).next) :
    ∀ (l : List Nat) (a : Nat), chain s a l → chain t a l := by
  intro l
  induction l with
  | nil => intro a _; trivial
  | cons x l ih =>
    intro a h
    exact ⟨(hnext a).trans h.1, ih x h.2⟩

lemma getLastD_concat2 (l : List Nat) (b d : Nat) : (l ++ [b]).getLastD d = b := by
  induction l generalizing d with
  | nil => rfl
  | cons x l ih => rw [List.cons_append, List.getLastD_cons, ih]

/-- `cycle_next` for a cycle anchored anywhere, not just at `base`. -/
lemma cycle_next_at (s : GC) (a : Nat) (l : List Nat)
    (hlinks : chain s a (l ++ [a])) (P Q : List Nat) (z : Nat)
    (hsplit : a :: l = P ++ z :: Q) :
    (s.mem z).next = (Q ++ [a]).headD 0 := by
  rcases hq : Q ++ [a] with _ | ⟨w, R⟩
  · exact absurd hq (by simp)
  rcases P with _ | ⟨b, P'⟩
  · simp only [List.nil_append] at hsplit
    injection hsplit with h1 h2
    subst h1
    rw [h2, hq] at hlinks
    simp only [List.headD_cons]
    exact hlinks.1
  · injection hsplit with h1 h2
    have hrw : l ++ [a] = P' ++ z :: w :: R := by
      rw [h2]; simp [hq]
    rw [hrw] at hlinks
    simp only [List.headD_cons]
    exact chain_next_mid s P' a z w R hlinks

/-- A circular chain can be re-anchored at any of its nodes. -/
lemma chain_rotate (s : GC) (a : Nat) (l : List Nat)
    (hlinks : chain s a (l ++ [a])) (A B : List Nat) (cu : Nat)
    (hsplit : a :: l = A ++ cu :: B) :
    chain s cu ((B ++ A) ++ [cu]) := by
  rcases A with _ | ⟨b, A'⟩
  · simp only [List.nil_append] at hsplit
    injection hsplit with h1 h2
    subst h1
    rw [h2] at hlinks
    simpa using hlinks
  · injection hsplit with h1 h2
    subst h1
    have hl : l ++ [a] = (A' ++ [cu]) ++ (B ++ [a]) := by
      rw [h2]; simp
    rw [hl, chain_append] at hlinks
    rw [getLastD_concat2] at hlinks
    have hgoal : (B ++ a :: A') ++ [cu] = (B ++ [a]) ++ (A' ++ [cu]) := by simp
    rw [hgoal, chain_append, getLastD_concat2]
    exact ⟨hlinks.2, hlinks.1⟩

/-- Two distinct used blocks cannot both contain a word value: the unique
container of the scans. -/
lemma container_unique (s : GC) (us : List Nat) (wf : UsedWF s us)
    (ptr : Int) (x : Nat) (hx : x ∈ us) : ∀ y ∈ us,
    inBlock (szOf s) x ptr = true → inBlock (szOf s) y ptr = true → x = y := by
  intro y hy hxB hyB
  by_contra hne
  have hd : Disj s x y :=
    List.Pairwise.forall (fun _ _ hab => Or.symm hab) wf.disj hx hy hne
  rw [inBlock_szOf] at hxB hyB
  obtain ⟨hx1, hx2⟩ := hxB
  obtain ⟨hy1, hy2⟩ := hyB
  simp only [hdrSize] at hx1 hx2 hy1 hy2
  rcases hd with h | h
  · have : (x : Int) + (s.mem x).size ≤ (y : Int) := by exact_mod_cast h
    push_cast at hx1 hx2 hy1 hy2
    omega
  · have : (y : Int) + (s.mem y).size ≤ (x : Int) := by exact_mod_cast h
    push_cast at hx1 hx2 hy1 hy2
    omega

lemma mem_rotation {us P Q : List Nat} {cu : Nat}
    (hus : us = P ++ cu :: Q) (hnd : us.Nodup) :
    (∀ y, y ∈ Q ++ P ↔ (y ∈ us ∧ y ≠ cu)) ∧ cu ∉ Q ++ P := by
  subst hus
  rw [List.nodup_append] at hnd
  obtain ⟨hP, hcQ, hdisj⟩ := hnd
  rw [List.nodup_cons] at hcQ
  have hcP : cu ∉ P := fun hc => hdisj hc (by simp)
  refine ⟨?_, ?_⟩
  · intro y
    constructor
    · intro hy
      rcases List.mem_append.mp hy with h | h
      · exact ⟨by simp [h], fun hc => hcQ.1 (hc ▸ h)⟩
      · exact ⟨by simp [h], fun hc => hcP (hc ▸ h)⟩
    · rintro ⟨hy, hne⟩
      rcases List.mem_append.mp hy with h | h
      · exact List.mem_append.mpr (Or.inr h)
      · rcases List.mem_cons.mp h with h | h
        · exact absurd h hne
        · exact List.mem_append.mpr (Or.inl h)
  · intro hc
    rcases List.mem_append.mp hc with h | h
    · exact hcQ.1 h
    · exact hcP h

lemma mpass_nil (sz : Nat → Nat) (wordf : Nat → Int) (L : List Nat)
    (m : Nat → Bool) : mpass sz wordf L [] m = m := rfl

lemma mpass_cons (sz : Nat → Nat) (wordf : Nat → Int) (L : List Nat)
    (cu : Nat) (rest : List Nat) (m : Nat → Bool) :
    mpass sz wordf L (cu :: rest) m =
      mpass sz wordf L rest
        (if m cu = true then
          (fun y => (m y ||
            (decide (y ∈ L) && !decide (y = cu) &&
              (payload_words cu (sz cu)).any (fun w => inBlock sz y (wordf w)))))
        else m) := rfl

lemma mpass_mono (sz : Nat → Nat) (wordf : Nat → Int) (L : List Nat) :
    ∀ (P : List Nat) (m : Nat → Bool) (y : Nat), m y = true →
      mpass sz wordf L P m y = true := by
  intro P
  induction P with
  | nil => intro m y h; exact h
  | cons cu rest ih =>
    intro m y h
    rw [mpass_cons]
    split
    · exact ih _ y (by simp [h])
    · exact ih m y h

lemma scan_ptr_succ (s : GC) (u : Nat) (ptr : Int) (cu fuel : Nat) :
    scan_ptr s u ptr cu (fuel + 1) =
      if (hdrSize * (cu + 1) : Int) ≤ ptr ∧
          ptr < (hdrSize * (cu + (s.mem cu).size) : Int) then
        some (setMem s cu { s.mem cu with mark := true })
      else if (s.mem cu).next = u then some s
      else scan_ptr s u ptr ((s.mem cu).next) fuel := rfl

/-- A successful inner walk of `scan_region` either marks a containing
block of the walked path and stops, or finds none and leaves the state
unchanged. -/
lemma scan_ptr_run (s : GC) (u : Nat) (ptr : Int) :
    ∀ (V : List Nat) (cu : Nat), u ∉ V → chain s cu (V ++ [u]) →
    ∀ (fuel : Nat) (t : GC), scan_ptr s u ptr cu fuel = some t →
      (∃ x ∈ cu :: V, inBlock (szOf s) x ptr = true ∧
        t = setMem s x { s.mem x with mark := true }) ∨
      ((∀ x ∈ cu :: V, inBlock (szOf s) x ptr = false) ∧ t = s) := by
  intro V
  induction V with
  | nil =>
    intro cu hu hc fuel t h
    cases fuel with
    | zero => cases h
    | succ f =>
      rw [scan_ptr_succ] at h
      by_cases hC : (hdrSize * (cu + 1) : Int) ≤ ptr ∧
          ptr < (hdrSize * (cu + (s.mem cu).size) : Int)
      · rw [if_pos hC] at h
        injection h with h
        exact Or.inl ⟨cu, by simp, (inBlock_szOf s cu ptr).mpr hC, h.symm⟩
      · rw [if_neg hC, if_pos hc.1] at h
        injection h with h
        refine Or.inr ⟨?_, h.symm⟩
        intro x hx
        rcases List.mem_cons.mp hx with rfl | hx
        · exact inBlock_szOf_false s x ptr hC
        · cases hx
  | cons v V' ih =>
    intro cu hu hc fuel t h
    cases fuel with
    | zero => cases h
    | succ f =>
      rw [scan_ptr_succ] at h
      by_cases hC : (hdrSize * (cu + 1) : Int) ≤ ptr ∧
          ptr < (hdrSize * (cu + (s.mem cu).size) : Int)
      · rw [if_pos hC] at h
        injection h with h
        exact Or.inl ⟨cu, by simp, (inBlock_szOf s cu ptr).mpr hC, h.symm⟩
      · have hnext : (s.mem cu).next = v := hc.1
        have hvu : v ≠ u := fun hvu => hu (by simp [hvu])
        rw [if_neg hC, if_neg (by rw [hnext]; exact hvu)] at h
        rw [hnext] at h
        rcases ih v (fun hm => hu (List.mem_cons_of_mem _ hm)) hc.2 f t h with
          ⟨x, hx, hxB, ht⟩ | ⟨hall, ht⟩
        · exact Or.inl ⟨x, List.mem_cons_of_mem _ hx, hxB, ht⟩
        · refine Or.inr ⟨?_, ht⟩
          intro x hx
          rcases List.mem_cons.mp hx with rfl | hx
          · exact inBlock_szOf_false s x ptr hC
          · exact hall x hx

lemma scan_heap_ptr_succ (s : GC) (cu : Nat) (ptr : Int) (up fuel : Nat) :
    scan_heap_ptr s cu ptr up (fuel + 1) =
      if up ≠ cu ∧ (hdrSize * (up + 1) : Int) ≤ ptr ∧
          ptr < (hdrSize * (up + (s.mem up).size) : Int) then
        some (setMem s up { s.mem up with mark := true })
      else if (s.mem up).next = cu then some s
      else scan_heap_ptr s cu ptr ((s.mem up).next) fuel := rfl

/-- A successful inner walk of `scan_heap` either marks a containing block
other than the scanned one and stops, or finds none and leaves the state
unchanged. -/
lemma scan_heap_ptr_run (s : GC) (cu : Nat) (ptr : Int) :
    ∀ (V : List Nat) (up : Nat), cu ∉ V → chain s up (V ++ [cu]) →
    ∀ (fuel : Nat) (t : GC), scan_heap_ptr s cu ptr up fuel = some t →
      (∃ x ∈ up :: V, x ≠ cu ∧ inBlock (szOf s) x ptr = true ∧
        t = setMem s x { s.mem x with mark := true }) ∨
      ((∀ x ∈ up :: V, x ≠ cu → inBlock (szOf s) x ptr = false) ∧ t = s) := by
  intro V
  induction V with
  | nil =>
    intro up hcu hc fuel t h
    cases fuel with
    | zero => cases h
    | succ f =>
      rw [scan_heap_ptr_succ] at h
      by_cases hC : up ≠ cu ∧ (hdrSize * (up + 1) : Int) ≤ ptr ∧
          ptr < (hdrSize * (up + (s.mem up).size) : Int)
      · rw [if_pos hC] at h
        injection h with h
        exact Or.inl ⟨up, by simp, hC.1, (inBlock_szOf s up ptr).mpr hC.2, h.symm⟩
      · rw [if_neg hC, if_pos hc.1] at h
        injection h with h
        refine Or.inr ⟨?_, h.symm⟩
        intro x hx hxcu
        rcases List.mem_cons.mp hx with rfl | hx
        · exact inBlock_szOf_false s x ptr (fun hcc => hC ⟨hxcu, hcc⟩)
        · cases hx
  | cons v V' ih =>
    intro up hcu hc fuel t h
    cases fuel with
    | zero => cases h
    | succ f =>
      rw [scan_heap_ptr_succ] at h
      by_cases hC : up ≠ cu ∧ (hdrSize * (up + 1) : Int) ≤ ptr ∧
          ptr < (hdrSize * (up + (s.mem up).size) : Int)
      · rw [if_pos hC] at h
        injection h with h
        exact Or.inl ⟨up, by simp, hC.1, (inBlock_szOf s up ptr).mpr hC.2, h.symm⟩
      · have hnext : (s.mem up).next = v := hc.1
        have hvc : v ≠ cu := fun hvc => hcu (by simp [hvc])
        rw [if_neg hC, if_neg (by rw [hnext]; exact hvc)] at h
        rw [hnext] at h
        rcases ih v (fun hm => hcu (List.mem_cons_of_mem _ hm)) hc.2 f t h with
          ⟨x, hx, hxc, hxB, ht⟩ | ⟨hall, ht⟩
        · exact Or.inl ⟨x, List.mem_cons_of_mem _ hx, hxc, hxB, ht⟩
        · refine Or.inr ⟨?_, ht⟩
          intro x hx hxcu
          rcases List.mem_cons.mp hx with rfl | hx
          · exact inBlock_szOf_false s x ptr (fun hcc => hC ⟨hxcu, hcc⟩)
          · exact hall x hx hxcu

lemma scan_region_nil (s : GC) (u : Nat) (fuel : Nat) :
    scan_region s u [] fuel = some s := rfl

lemma scan_region_cons (s : GC) (u : Nat) (ptr : Int) (rest : List Int)
    (fuel : Nat) :
    scan_region s u (ptr :: rest) fuel =
      match scan_ptr s u ptr u fuel with
      | none => none
      | some s' => scan_region s' u rest fuel := rfl

/-- The effect of the root scan `scan_region`: each scanned word marks its
unique containing used block, if any; nothing else changes. -/
lemma scan_region_run (s0 : GC) (u : Nat) (rest : List Nat)
    (hnd : (u :: rest).Nodup)
    (hlinks : chain s0 u (rest ++ [u]))
    (huq : ∀ (ptr : Int) (x : Nat), x ∈ u :: rest → ∀ y ∈ u :: rest,
      inBlock (szOf s0) x ptr = true → inBlock (szOf s0) y ptr = true →
      x = y) :
    ∀ (ws : List Int) (s : GC), MarksOnly s0 s (u :: rest) →
    ∀ (fuel : Nat) (t : GC), scan_region s u ws fuel = some t →
      MarksOnly s0 t (u :: rest) ∧
      ∀ y, (t.mem y).mark =
        ((s.mem y).mark ||
          (decide (y ∈ u :: rest) &&
            ws.any (fun w => inBlock (szOf s0) y w))) := by
  intro ws
  induction ws with
  | nil =>
    intro s hmo fuel t h
    rw [scan_region_nil] at h
    injection h with h
    subst h
    exact ⟨hmo, fun y => by simp⟩
  | cons ptr rest2 ih =>
    intro s hmo fuel t h
    cases hsp : scan_ptr s u ptr u fuel with
    | none =>
      have hstep : scan_region s u (ptr :: rest2) fuel = none := by
        rw [scan_region_cons, hsp]
      rw [hstep] at h
      cases h
    | some s1 =>
      have hstep : scan_region s u (ptr :: rest2) fuel =
          scan_region s1 u rest2 fuel := by
        rw [scan_region_cons, hsp]
      rw [hstep] at h
      have hchain_s : chain s u (rest ++ [u]) :=
        chain_congr_next s0 s (fun z => hmo.next z) (rest ++ [u]) u hlinks
      have hu_notin : u ∉ rest := (List.nodup_cons.mp hnd).1
      have hrun := scan_ptr_run s u ptr rest u hu_notin hchain_s fuel s1 hsp
      have hsz : szOf s = szOf s0 := szOf_eq_of_sizes s0 s hmo.size
      rw [hsz] at hrun
      rcases hrun with ⟨x, hx, hxB, hs1⟩ | ⟨hall, hs1⟩
      · subst hs1
        have hmo1 : MarksOnly s0 (setMem s x { s.mem x with mark := true })
            (u :: rest) :=
          marksOnly_trans hmo (marksOnly_setMark s (u :: rest) x hx)
        obtain ⟨hmoT, hmark⟩ := ih _ hmo1 fuel t h
        refine ⟨hmoT, ?_⟩
        intro y
        rw [hmark y]
        by_cases hyx : y = x
        · subst hyx
          rw [setMem_mem_same]
          simp [hx, hxB, List.any_cons]
        · rw [setMem_mem_other _ _ _ _ hyx]
          by_cases hyus : y ∈ u :: rest
          · have hyB : inBlock (szOf s0) y ptr = false := by
              cases hib : inBlock (szOf s0) y ptr
              · rfl
              · exact absurd (huq ptr y hyus x hx hib hxB) hyx
            simp [hyus, hyB, List.any_cons]
          · simp [hyus]
      · rw [hs1] at h
        obtain ⟨hmoT, hmark⟩ := ih s hmo fuel t h
        refine ⟨hmoT, ?_⟩
        intro y
        rw [hmark y]
        by_cases hyus : y ∈ u :: rest
        · have hyB : inBlock (szOf s0) y ptr = false := hall y hyus
          simp [hyus, hyB, List.any_cons]
        · simp [hyus]

lemma scan_block_nil (s : GC) (cu : Nat) (fuel : Nat) :
    scan_block s cu [] fuel = some s := rfl

lemma scan_block_cons (s : GC) (cu : Nat) (w : Nat) (rest : List Nat)
    (fuel : Nat) :
    scan_block s cu (w :: rest) fuel =
      match scan_heap_ptr s cu (s.words w) ((s.mem cu).next) fuel with
      | none => none
      | some s' => scan_block s' cu rest fuel := rfl

/-- The payload scan of one marked block: each payload word marks its
unique containing used block other than the scanned one. -/
lemma scan_block_run (s0 : GC) (us : List Nat) (cu : Nat) (W : List Nat)
    (hmemW : ∀ y, y ∈ W ↔ (y ∈ us ∧ y ≠ cu)) (hcu : cu ∉ W)
    (hrot : chain s0 cu (W ++ [cu]))
    (huq : ∀ (ptr : Int) (x : Nat), x ∈ us → ∀ y ∈ us,
      inBlock (szOf s0) x ptr = true → inBlock (szOf s0) y ptr = true →
      x = y) :
    ∀ (ws : List Nat) (s : GC), MarksOnly s0 s us →
    ∀ (fuel : Nat) (t : GC), scan_block s cu ws fuel = some t →
      MarksOnly s0 t us ∧
      ∀ y, (t.mem y).mark =
        ((s.mem y).mark ||
          (decide (y ∈ us) && !decide (y = cu) &&
            ws.any (fun w => inBlock (szOf s0) y (s0.words w)))) := by
  intro ws
  induction ws with
  | nil =>
    intro s hmo fuel t h
    rw [scan_block_nil] at h
    injection h with h
    subst h
    exact ⟨hmo, fun y => by simp⟩
  | cons w rest2 ih =>
    intro s hmo fuel t h
    cases hsp : scan_heap_ptr s cu (s.words w) ((s.mem cu).next) fuel with
    | none =>
      have hstep : scan_block s cu (w :: rest2) fuel = none := by
        rw [scan_block_cons, hsp]
      rw [hstep] at h
      cases h
    | some s1 =>
      have hstep : scan_block s cu (w :: rest2) fuel =
          scan_block s1 cu rest2 fuel := by
        rw [scan_block_cons, hsp]
      rw [hstep] at h
      have hchain_s : chain s cu (W ++ [cu]) :=
        chain_congr_next s0 s (fun z => hmo.next z) (W ++ [cu]) cu hrot
      have hsz : szOf s = szOf s0 := szOf_eq_of_sizes s0 s hmo.size
      rw [hmo.words] at hsp
      have hrun :
          (∃ x ∈ us, x ≠ cu ∧ inBlock (szOf s0) x (s0.words w) = true ∧
            s1 = setMem s x { s.mem x with mark := true }) ∨
          ((∀ x ∈ us, x ≠ cu → inBlock (szOf s0) x (s0.words w) = false) ∧
            s1 = s) := by
        cases hW : W with
        | nil =>
          rw [hW] at hchain_s
          have hnext : (s.mem cu).next = cu := hchain_s.1
          rw [hnext] at hsp
          have hr := scan_heap_ptr_run s cu (s0.words w) [] cu (by simp)
            ⟨hnext, trivial⟩ fuel s1 hsp
          rw [hsz] at hr
          rcases hr with ⟨x, hx, hxc, _, _⟩ | ⟨_, hs1⟩
          · rcases List.mem_cons.mp hx with rfl | hx
            · exact absurd rfl hxc
            · cases hx
          · refine Or.inr ⟨?_, hs1⟩
            intro x hx hxc
            exact absurd ((hmemW x).mpr ⟨hx, hxc⟩) (by rw [hW]; simp)
        | cons w0 W' =>
          rw [hW] at hchain_s hcu hmemW
          have hnext : (s.mem cu).next = w0 := hchain_s.1
          rw [hnext] at hsp
          have hr := scan_heap_ptr_run s cu (s0.words w) W' w0
            (fun hc => hcu (List.mem_cons_of_mem _ hc)) hchain_s.2 fuel s1 hsp
          rw [hsz] at hr
          rcases hr with ⟨x, hx, hxc, hxB, hs1⟩ | ⟨hall, hs1⟩
          · exact Or.inl ⟨x, ((hmemW x).mp hx).1, hxc, hxB, hs1⟩
          · refine Or.inr ⟨?_, hs1⟩
            intro x hx hxc
            exact hall x ((hmemW x).mpr ⟨hx, hxc⟩) hxc
      rcases hrun with ⟨x, hx, hxc, hxB, hs1⟩ | ⟨hall, hs1⟩
      · subst hs1
        have hmo1 : MarksOnly s0 (setMem s x { s.mem x with mark := true })
            us := marksOnly_trans hmo (marksOnly_setMark s us x hx)
        obtain ⟨hmoT, hmark⟩ := ih _ hmo1 fuel t h
        refine ⟨hmoT, ?_⟩
        intro y
        rw [hmark y]
        by_cases hyx : y = x
        · subst hyx
          rw [setMem_mem_same]
          simp [hx, hxc, hxB, List.any_cons]
        · rw [setMem_mem_other _ _ _ _ hyx]
          by_cases hyus : y ∈ us
          · by_cases hyc : y = cu
            · simp [hyc]
            · have hyB : inBlock (szOf s0) y (s0.words w) = false := by
                cases hib : inBlock (szOf s0) y (s0.words w)
                · rfl
                · exact absurd (huq (s0.words w) y hyus x hx hib hxB) hyx
              simp [hyus, hyc, hyB, List.any_cons]
          · simp [hyus]
      · rw [hs1] at h
        obtain ⟨hmoT, hmark⟩ := ih s hmo fuel t h
        refine ⟨hmoT, ?_⟩
        intro y
        rw [hmark y]
        by_cases hyus : y ∈ us
        · by_cases hyc : y = cu
          · simp [hyc]
          · have hyB : inBlock (szOf s0) y (s0.words w) = false :=
              hall y hyus hyc
            simp [hyus, hyc, hyB, List.any_cons]
        · simp [hyus]

lemma scan_heap_loop_succ (u : Nat) (s : GC) (cu fuel : Nat) :
    scan_heap_loop u s cu (fuel + 1) =
      match (if (s.mem cu).mark then
          scan_block s cu (payload_words cu ((s.mem cu).size)) fuel
        else some s) with
      | none => none
      | some s1 =>
        if (s1.mem cu).next = u then some s1
        else scan_heap_loop u s1 ((s1.mem cu).next) fuel := rfl

lemma scan_heap_loop_marked (u : Nat) (s : GC) (cu fuel : Nat)
    (hm : (s.mem cu).mark = true) :
    scan_heap_loop u s cu (fuel + 1) =
      match scan_block s cu (payload_words cu ((s.mem cu).size)) fuel with
      | none => none
      | some s1 =>
        if (s1.mem cu).next = u then some s1
        else scan_heap_loop u s1 ((s1.mem cu).next) fuel := by
  rw [scan_heap_loop_succ, if_pos hm]

lemma scan_heap_loop_unmarked (u : Nat) (s : GC) (cu fuel : Nat)
    (hm : ¬ (s.mem cu).mark = true) :
    scan_heap_loop u s cu (fuel + 1) =
      (if (s.mem cu).next = u then some s
       else scan_heap_loop u s ((s.mem cu).next) fuel) := by
  rw [scan_heap_loop_succ, if_neg hm]

/-- The outer loop of `scan_heap` computes the pure single pass `mpass`
over the used cycle, and touches only the marks of used blocks. -/
lemma scan_heap_loop_run (s0 : GC) (u : Nat) (rest : List Nat)
    (hnd : (u :: rest).Nodup)
    (hlinks : chain s0 u (rest ++ [u]))
    (huq : ∀ (ptr : Int) (x : Nat), x ∈ u :: rest → ∀ y ∈ u :: rest,
      inBlock (szOf s0) x ptr = true → inBlock (szOf s0) y ptr = true →
      x = y) :
    ∀ (Q P : List Nat) (cu : Nat), u :: rest = P ++ cu :: Q →
    ∀ (s : GC), MarksOnly s0 s (u :: rest) →
    ∀ (fuel : Nat) (t : GC), scan_heap_loop u s cu fuel = some t →
      MarksOnly s0 t (u :: rest) ∧
      markOf t = mpass (szOf s0) s0.words (u :: rest) (cu :: Q) (markOf s) := by
  intro Q
  induction Q with
  | nil =>
    intro P cu hus s hmo fuel t h
    cases fuel with
    | zero => cases h
    | succ f =>
      obtain ⟨hmemW, hcuW⟩ := mem_rotation hus hnd
      have hrot : chain s0 cu ((([] : List Nat) ++ P) ++ [cu]) :=
        chain_rotate s0 u rest hlinks P [] cu hus
      have hnext0 : (s0.mem cu).next = u :=
        cycle_next_at s0 u rest hlinks P [] cu hus
      by_cases hm : (s.mem cu).mark = true
      · rw [scan_heap_loop_marked u s cu f hm, hmo.size cu] at h
        cases hsb : scan_block s cu (payload_words cu ((s0.mem cu).size)) f with
        | none => rw [hsb] at h; cases h
        | some s1 =>
          rw [hsb] at h
          obtain ⟨hmo1, hmark⟩ := scan_block_run s0 (u :: rest) cu
            (([] : List Nat) ++ P) hmemW hcuW hrot huq
            (payload_words cu ((s0.mem cu).size)) s hmo f s1 hsb
          have h2 : (if (s1.mem cu).next = u then some s1
              else scan_heap_loop u s1 ((s1.mem cu).next) f) = some t := h
          rw [if_pos ((hmo1.next cu).trans hnext0)] at h2
          injection h2 with h2
          subst h2
          refine ⟨hmo1, ?_⟩
          rw [mpass_cons, if_pos (show markOf s cu = true from hm), mpass_nil]
          funext y
          exact hmark y
      · rw [scan_heap_loop_unmarked u s cu f hm] at h
        rw [if_pos ((hmo.next cu).trans hnext0)] at h
        injection h with h
        subst h
        refine ⟨hmo, ?_⟩
        rw [mpass_cons, if_neg (show ¬ markOf s cu = true from hm), mpass_nil]
  | cons q Q' ih =>
    intro P cu hus s hmo fuel t h
    cases fuel with
    | zero => cases h
    | succ f =>
      obtain ⟨hmemW, hcuW⟩ := mem_rotation hus hnd
      have hrot : chain s0 cu (((q :: Q') ++ P) ++ [cu]) :=
        chain_rotate s0 u rest hlinks P (q :: Q') cu hus
      have hnext0 : (s0.mem cu).next = q :=
        cycle_next_at s0 u rest hlinks P (q :: Q') cu hus
      have hqin : q ∈ rest := by
        cases P with
        | nil =>
          injection hus with h1 h2
          rw [h2]; simp
        | cons p0 P' =>
          injection hus with h1 h2
          rw [h2]; simp
      have hqu : q ≠ u :=
        fun hc => (List.nodup_cons.mp hnd).1 (hc ▸ hqin)
      have hus' : u :: rest = (P ++ [cu]) ++ q :: Q' := by
        rw [hus]; simp
      by_cases hm : (s.mem cu).mark = true
      · rw [scan_heap_loop_marked u s cu f hm, hmo.size cu] at h
        cases hsb : scan_block s cu (payload_words cu ((s0.mem cu).size)) f with
        | none => rw [hsb] at h; cases h
        | some s1 =>
          rw [hsb] at h
          obtain ⟨hmo1, hmark⟩ := scan_block_run s0 (u :: rest) cu
            ((q :: Q') ++ P) hmemW hcuW hrot huq
            (payload_words cu ((s0.mem cu).size)) s hmo f s1 hsb
          have h2 : (if (s1.mem cu).next = u then some s1
              else scan_heap_loop u s1 ((s1.mem cu).next) f) = some t := h
          rw [if_neg (by rw [(hmo1.next cu).trans hnext0]; exact hqu),
            (hmo1.next cu).trans hnext0] at h2
          obtain ⟨hmoT, hmT⟩ := ih (P ++ [cu]) q hus' s1 hmo1 f t h2
          refine ⟨hmoT, ?_⟩
          rw [hmT]
          conv_rhs => rw [mpass_cons]
          rw [if_pos (show markOf s cu = true from hm)]
          refine congrArg (mpass (szOf s0) s0.words (u :: rest) (q :: Q')) ?_
          funext y
          exact hmark y
      · rw [scan_heap_loop_unmarked u s cu f hm] at h
        rw [if_neg (by rw [(hmo.next cu).trans hnext0]; exact hqu),
          (hmo.next cu).trans hnext0] at h
        obtain ⟨hmoT, hmT⟩ := ih (P ++ [cu]) q hus' s hmo f t h
        refine ⟨hmoT, ?_⟩
        rw [hmT]
        conv_rhs => rw [mpass_cons]
        rw [if_neg (show ¬ markOf s cu = true from hm)]

lemma usedWF_skel_congr (s t : GC) (us : List Nat)
    (hsize : ∀ a, (t.mem a).size = (s.mem a).size)
    (hnext : ∀ a, (t.mem a).next = (s.mem a).next)
    (hbrk : t.brk = s.brk) (hlo : t.lo = s.lo) (husedp : t.usedp = s.usedp)
    (wf : UsedWF s us) : UsedWF t us := by
  constructor
  · rw [husedp]; exact wf.head
  · rcases wf.links with h | h
    · exact Or.inl h
    · exact Or.inr (chain_congr_next s t hnext _ _ h)
  · intro a ha
    have hg := wf.good a ha
    exact ⟨by rw [hlo]; exact hg.1, by rw [hbrk]; exact hg.2.1,
      by rw [hsize a, hbrk]; exact hg.2.2.1,
      by rw [hsize a]; exact hg.2.2.2.1, by rw [hsize a]; exact hg.2.2.2.2⟩
  · refine wf.disj.imp ?_
    intro a b hd
    rcases hd with hd | hd
    · exact Or.inl (by rw [hsize a]; exact hd)
    · exact Or.inr (by rw [hsize b]; exact hd)

lemma cross_congr (s t : GC) (fs us : List Nat)
    (hsize : ∀ a, (t.mem a).size = (s.mem a).size)
    (hcross : ∀ a ∈ base :: fs, ∀ b ∈ us,
      Disj s a b ∧ ¬ (b ≤ a ∧ a < b + (s.mem b).size)) :
    ∀ a ∈ base :: fs, ∀ b ∈ us,
      Disj t a b ∧ ¬ (b ≤ a ∧ a < b + (t.mem b).size) := by
  intro a ha b hb
  obtain ⟨hd, hn⟩ := hcross a ha b hb
  refine ⟨?_, ?_⟩
  · rcases hd with hd | hd
    · exact Or.inl (by rw [hsize a]; exact hd)
    · exact Or.inr (by rw [hsize b]; exact hd)
  · rw [hsize b]; exact hn

/-- On a well-formed heap, no free-cycle node is a used block. -/
lemma wf_free_used_disjoint (s : GC) (fs us : List Nat) (wf : WF s fs us) :
    ∀ a ∈ base :: fs, a ∉ us := by
  intro a ha hc
  obtain ⟨_, hn⟩ := wf.cross a ha a hc
  have hsz := (wf.used.good a hc).2.2.2.1
  exact hn ⟨le_refl a, by omega⟩

/-- Full well-formedness transports along `MarksOnly`: the mark phases
keep both lists intact. -/
lemma wf_marksOnly (s t : GC) (fs us : List Nat) (wf : WF s fs us)
    (hmo : MarksOnly s t us) : WF t fs us := by
  constructor
  · refine freeWF_congr s t fs ?_ (le_of_eq hmo.brk.symm) hmo.lo hmo.freep
      wf.free
    intro a ha
    exact hmo.off a (wf_free_used_disjoint s fs us wf a ha)
  · exact usedWF_skel_congr s t us hmo.size hmo.next hmo.brk hmo.lo hmo.usedp
      wf.used
  · exact cross_congr s t fs us hmo.size wf.cross
  · rw [hmo.lo, hmo.brk]; exact wf.lo_brk

lemma getLastD_mem (K : List Nat) : ∀ (u : Nat), K.getLastD u ∈ u :: K := by
  induction K with
  | nil => intro u; simp [List.getLastD]
  | cons k K' ih =>
    intro u
    rw [List.getLastD_cons]
    rcases List.mem_cons.mp (ih k) with h | h
    · rw [h]; simp
    · exact List.mem_cons_of_mem _ (List.mem_cons_of_mem _ h)

lemma ne_getLastD_of_mem_dropLast :
    ∀ (K : List Nat) (u : Nat), (u :: K).Nodup →
    ∀ z ∈ (u :: K).dropLast, z ≠ K.getLastD u := by
  intro K
  induction K with
  | nil =>
    intro u _ z hz
    simp at hz
  | cons k K' ih =>
    intro u hnd z hz
    have hdl : (u :: k :: K').dropLast = u :: (k :: K').dropLast := rfl
    rw [hdl] at hz
    rcases List.mem_cons.mp hz with rfl | hz
    · intro hc
      have hmem := getLastD_mem K' k
      rw [List.getLastD_cons] at hc
      rw [← hc] at hmem
      exact (List.nodup_cons.mp hnd).1 hmem
    · rw [List.getLastD_cons]
      exact ih k (List.nodup_cons.mp hnd).2 z hz

lemma sweep_loop_succ (u : Nat) (s : GC) (prevp p fuel : Nat) :
    sweep_loop u s prevp p (fuel + 1) =
      if (s.mem p).mark = false then
        match add_to_free_list s p fuel with
        | none => none
        | some s1 =>
          if u = p then some { s1 with usedp := none }
          else
            sweep_loop u
              (setMem s1 prevp { s1.mem prevp with next := (s.mem p).next })
              prevp ((s.mem p).next) fuel
      else
        (if p = u then some (setMem s p { s.mem p with mark := false })
         else sweep_loop u (setMem s p { s.mem p with mark := false }) p
           (((setMem s p { s.mem p with mark := false }).mem p).next)
           fuel) := rfl

/-- One freeing step of the sweep: the unmarked block `p` of the used cycle
`u :: (K ++ p :: R)` goes back to the free list and the predecessor
`prevp` (the last kept node) is relinked past it.  Well-formedness is
preserved with `p` removed, and the remaining used headers keep their
sizes and marks. -/
lemma sweep_free_step (s : GC) (fs K R : List Nat) (u p : Nat)
    (wf : WF s fs (u :: (K ++ p :: R)))
    (fuel : Nat) (s1 : GC) (h : add_to_free_list s p fuel = some s1)
    (prevp : Nat) (hprevp : prevp = K.getLastD u) (s2 : GC)
    (hs2 : s2 = setMem s1 prevp { s1.mem prevp with next := (s.mem p).next }) :
    ∃ fs1, WF s2 fs1 (u :: (K ++ R)) ∧
      (∀ x ∈ u :: (K ++ R), (s2.mem x).size = (s.mem x).size ∧
        (s2.mem x).mark = (s.mem x).mark) ∧
      s2.words = s.words ∧ s2.usedp = s.usedp ∧ s2.brk = s.brk ∧
      s2.lo = s.lo ∧ s2.roots = s.roots ∧ s2.canGrow = s.canGrow := by
  have hpus : p ∈ u :: (K ++ p :: R) := by simp
  have hnd : (u :: (K ++ p :: R)).Nodup := usedWF_nodup s _ wf.used
  obtain ⟨huK, hnd2⟩ := List.nodup_cons.mp hnd
  rw [List.nodup_append] at hnd2
  obtain ⟨hKnd, hpRnd, hKdis⟩ := hnd2
  obtain ⟨hpR, hRnd⟩ := List.nodup_cons.mp hpRnd
  have hpu : p ≠ u := fun hc => huK (by rw [← hc]; simp)
  have hpK : p ∉ K := fun hc => hKdis hc (by simp)
  have hprev_mem : prevp ∈ u :: K := by rw [hprevp]; exact getLastD_mem K u
  have hprev_us : prevp ∈ u :: (K ++ p :: R) := by
    rcases List.mem_cons.mp hprev_mem with hc | hc
    · rw [hc]; simp
    · simp [hc]
  have hprev_ne_p : prevp ≠ p := by
    rcases List.mem_cons.mp hprev_mem with hc | hc
    · rw [hc]; exact fun hcc => hpu hcc.symm
    · exact fun hcc => hpK (hcc ▸ hc)
  have hlinks : chain s u ((K ++ p :: R) ++ [u]) := by
    rcases wf.used.links with hbad | hl
    · cases hbad
    · exact hl
  have hchin : chain s u (K ++ (p :: (R ++ [u]))) := by
    have hre : K ++ (p :: (R ++ [u])) = (K ++ p :: R) ++ [u] := by simp
    rw [hre]; exact hlinks
  have hsplitK := (chain_append s K (p :: (R ++ [u])) u).mp hchin
  rw [← hprevp] at hsplitK
  have hnextprev : (s.mem prevp).next = p := hsplitK.2.1
  have hchainpR : chain s p (R ++ [u]) := hsplitK.2.2
  have hgoodp := wf.used.good p hpus
  have hnotin : p ∉ base :: fs :=
    fun hc => wf_free_used_disjoint s fs _ wf p hc hpus
  obtain ⟨pins, fs1, hs1eq, hpins, hwf1, huntouched, hcover, hsub⟩ :=
    add_to_free_list_wf s fs wf.free p hgoodp.1 hgoodp.2.1 hgoodp.2.2.1
      hgoodp.2.2.2.2
      (fun z hz => Or.symm (wf.cross z (by simp [hz]) p hpus).1)
      hnotin fuel s1 h
  have hpins_notus : pins ∉ u :: (K ++ p :: R) :=
    wf_free_used_disjoint s fs _ wf pins hpins
  have hprev_ne_pins : prevp ≠ pins := fun hc => hpins_notus (hc ▸ hprev_us)
  have hs2mem : ∀ a, a ≠ prevp → a ≠ p → a ≠ pins → s2.mem a = s.mem a := by
    intro a h1 h2 h3
    rw [hs2, setMem_mem_other _ _ _ _ h1]
    exact huntouched a h2 h3
  have hs2prev : s2.mem prevp = { s.mem prevp with next := (s.mem p).next } := by
    rw [hs2, setMem_mem_same, huntouched prevp hprev_ne_p hprev_ne_pins]
  have hf_words : s2.words = s.words := by rw [hs2, hs1eq]; simp
  have hf_usedp : s2.usedp = s.usedp := by rw [hs2, hs1eq]; simp
  have hf_brk : s2.brk = s.brk := by rw [hs2, hs1eq]; simp
  have hf_lo : s2.lo = s.lo := by rw [hs2, hs1eq]; simp
  have hf_roots : s2.roots = s.roots := by rw [hs2, hs1eq]; simp
  have hf_canGrow : s2.canGrow = s.canGrow := by rw [hs2, hs1eq]; simp
  have hmemlift : ∀ x ∈ u :: (K ++ R), x ∈ u :: (K ++ p :: R) := by
    intro x hx
    rcases List.mem_cons.mp hx with rfl | hx
    · simp
    · rcases List.mem_append.mp hx with hx | hx
      · simp [hx]
      · simp [hx]
  have hne_p : ∀ x ∈ u :: (K ++ R), x ≠ p := by
    intro x hx
    rcases List.mem_cons.mp hx with rfl | hx
    · exact fun hc => hpu hc.symm
    · rcases List.mem_append.mp hx with hx | hx
      · exact fun hc => hpK (hc ▸ hx)
      · exact fun hc => hpR (hc ▸ hx)
  have hne_pins : ∀ x ∈ u :: (K ++ R), x ≠ pins :=
    fun x hx hc => hpins_notus (hc ▸ hmemlift x hx)
  have hpres : ∀ x ∈ u :: (K ++ R), (s2.mem x).size = (s.mem x).size ∧
      (s2.mem x).mark = (s.mem x).mark := by
    intro x hx
    by_cases hxprev : x = prevp
    · rw [hxprev, hs2prev]
      exact ⟨rfl, rfl⟩
    · rw [hs2mem x hxprev (hne_p x hx) (hne_pins x hx)]
      exact ⟨rfl, rfl⟩
  have hne_pK : ∀ z ∈ u :: K, z ≠ p := by
    intro z hz
    rcases List.mem_cons.mp hz with rfl | hz
    · exact fun hc => hpu hc.symm
    · exact fun hc => hpK (hc ▸ hz)
  have hne_pinsK : ∀ z ∈ u :: K, z ≠ pins := by
    intro z hz hc
    apply hpins_notus
    rw [← hc]
    rcases List.mem_cons.mp hz with rfl | hz
    · simp
    · simp [hz]
  have hndK : (u :: K).Nodup := by
    rw [List.nodup_cons]
    exact ⟨fun hc => huK (by simp [hc]), hKnd⟩
  have hchain2 : chain s2 u ((K ++ R) ++ [u]) := by
    have hre2 : (K ++ R) ++ [u] = K ++ (R ++ [u]) := by simp
    rw [hre2, chain_append, ← hprevp]
    constructor
    · refine chain_congr s s2 K u ?_ hsplitK.1
      intro z hz
      have hzK : z ∈ u :: K := List.dropLast_subset _ hz
      have hzne : z ≠ prevp := by
        rw [hprevp]
        exact ne_getLastD_of_mem_dropLast K u hndK z hz
      exact hs2mem z hzne (hne_pK z hzK) (hne_pinsK z hzK)
    · cases R with
      | nil =>
        have hnu : (s.mem p).next = u := hchainpR.1
        refine ⟨?_, trivial⟩
        rw [hs2prev]
        exact hnu
      | cons r R' =>
        have hnextp : (s.mem p).next = r := hchainpR.1
        refine ⟨?_, ?_⟩
        · rw [hs2prev]; exact hnextp
        · refine chain_congr s s2 (R' ++ [u]) r ?_ hchainpR.2
          intro z hz
          rw [show (r :: (R' ++ [u])).dropLast = r :: R' by
            rw [show r :: (R' ++ [u]) = (r :: R') ++ [u] by simp,
              List.dropLast_concat]] at hz
          have hzR : z ∈ r :: R' := hz
          have hzus : z ∈ u :: (K ++ p :: (r :: R')) := by simp [hzR]
          have hzprev : z ≠ prevp := by
            intro hc
            rcases List.mem_cons.mp hprev_mem with hcu | hcK
            · apply huK
              rw [← hcu, ← hc]
              simp [hzR]
            · exact hKdis hcK (by rw [← hc]; simp [hzR])
          exact hs2mem z hzprev (fun hc => hpR (hc ▸ hzR))
            (fun hc => hpins_notus (hc ▸ hzus))
  have hused2 : UsedWF s2 (u :: (K ++ R)) := by
    constructor
    · rw [hf_usedp, wf.used.head]
      rfl
    · exact Or.inr hchain2
    · intro a ha
      have hg := wf.used.good a (hmemlift a ha)
      obtain ⟨hsz, _⟩ := hpres a ha
      exact ⟨by rw [hf_lo]; exact hg.1, by rw [hf_brk]; exact hg.2.1,
        by rw [hsz, hf_brk]; exact hg.2.2.1, by rw [hsz]; exact hg.2.2.2.1,
        by rw [hsz]; exact hg.2.2.2.2⟩
    · have hsubl : List.Sublist (u :: (K ++ R)) (u :: (K ++ p :: R)) :=
        List.Sublist.cons₂ u
          (List.Sublist.append_left (List.Sublist.cons p (List.Sublist.refl R)) K)
      refine List.Pairwise.imp_of_mem ?_
        (List.Pairwise.sublist hsubl wf.used.disj)
      intro a b ha hb hd
      obtain ⟨hsa, _⟩ := hpres a ha
      obtain ⟨hsb, _⟩ := hpres b hb
      rcases hd with hd | hd
      · exact Or.inl (by rw [hsa]; exact hd)
      · exact Or.inr (by rw [hsb]; exact hd)
  have hfs1_ne_prev : ∀ a ∈ base :: fs1, a ≠ prevp := by
    intro a ha
    rcases List.mem_cons.mp ha with rfl | hafs1
    · have h1 : base < s.lo := wf.free.base_lo
      have h2 : s.lo ≤ prevp := (wf.used.good prevp hprev_us).1
      omega
    · rcases hsub a hafs1 with rfl | hafs
      · exact fun hc => hprev_ne_p hc.symm
      · exact fun hc =>
          wf_free_used_disjoint s fs _ wf a (by simp [hafs]) (hc ▸ hprev_us)
  have hfree2 : FreeWF s2 fs1 := by
    refine freeWF_congr s1 s2 fs1 ?_
      (le_of_eq (show s1.brk = s2.brk by rw [hs2]; rfl))
      (show s2.lo = s1.lo by rw [hs2]; rfl)
      (show s2.freep = s1.freep by rw [hs2]; rfl)
      hwf1
    intro a ha
    rw [hs2, setMem_mem_other _ _ _ _ (hfs1_ne_prev a ha)]
  have hcross2 : ∀ a ∈ base :: fs1, ∀ b ∈ u :: (K ++ R),
      Disj s2 a b ∧ ¬ (b ≤ a ∧ a < b + (s2.mem b).size) := by
    intro a ha b hb
    have hbus := hmemlift b hb
    have hgb := wf.used.good b hbus
    obtain ⟨hsb, _⟩ := hpres b hb
    have hbp : b ≠ p := hne_p b hb
    have hdisjpb : Disj s p b :=
      List.Pairwise.forall (fun _ _ hab => Or.symm hab) wf.used.disj hpus hbus
        (fun hc => hbp hc.symm)
    have hszb1 : 1 ≤ (s.mem b).size := hgb.2.2.2.1
    have hconj2 : ¬ (b ≤ a ∧ a < b + (s2.mem b).size) := by
      rw [hsb]
      rcases List.mem_cons.mp ha with rfl | hafs1
      · have hblo : s.lo ≤ b := hgb.1
        have hbase : base < s.lo := wf.free.base_lo
        intro hc
        omega
      · rcases hsub a hafs1 with hap | hafs
        · intro hc
          rw [hap] at hc
          have hszp1 : 1 ≤ (s.mem p).size := hgoodp.2.2.2.1
          rcases hdisjpb with hd | hd
          · omega
          · omega
        · exact (wf.cross a (by simp [hafs]) b hbus).2
    refine ⟨?_, hconj2⟩
    rcases List.mem_cons.mp ha with rfl | hafs1
    · have hbasesz : (s2.mem base).size = 0 := by
        rw [hs2, setMem_mem_other _ _ _ _ (hfs1_ne_prev base (by simp))]
        exact hwf1.base_size
      left
      rw [hbasesz]
      have h1 : base < s.lo := wf.free.base_lo
      have h2 : s.lo ≤ b := hgb.1
      omega
    · by_contra hnd3
      unfold Disj at hnd3
      push_neg at hnd3
      obtain ⟨hx1, hx2⟩ := hnd3
      have hab : a < b := by
        by_cases hba : b ≤ a
        · exact absurd ⟨hba, hx2⟩ hconj2
        · omega
      have hs2a : s2.mem a = s1.mem a := by
        rw [hs2, setMem_mem_other _ _ _ _
          (hfs1_ne_prev a (List.mem_cons_of_mem _ hafs1))]
      have hcovb : cover s1 fs1 b :=
        ⟨a, hafs1, le_of_lt hab, by rw [← hs2a]; exact hx1⟩
      rcases hcover b hcovb with hcov | hcovp
      · obtain ⟨z, hz, hz1, hz2⟩ := hcov
        have hdzb := (wf.cross z (by simp [hz]) b hbus).1
        rcases hdzb with hd | hd
        · omega
        · omega
      · rcases hdisjpb with hd | hd
        · omega
        · omega
  refine ⟨fs1, ⟨hfree2, hused2, hcross2, ?_⟩, hpres, hf_words, hf_usedp,
    hf_brk, hf_lo, hf_roots, hf_canGrow⟩
  rw [hf_lo, hf_brk]
  exact wf.lo_brk

lemma marksOnly_setMarkVal (s : GC) (L : List Nat) (x : Nat) (hx : x ∈ L)
    (b : Bool) :
    MarksOnly s (setMem s x { s.mem x with mark := b }) L := by
  refine ⟨?_, ?_, ?_, by simp, by simp, by simp, by simp, by simp, by simp,
    by simp⟩
  · intro z
    by_cases hz : z = x
    · subst hz; rw [setMem_mem_same]
    · rw [setMem_mem_other _ _ _ _ hz]
  · intro z
    by_cases hz : z = x
    · subst hz; rw [setMem_mem_same]
    · rw [setMem_mem_other _ _ _ _ hz]
  · intro z hz
    rw [setMem_mem_other _ _ _ _ (fun hc => hz (by rw [hc]; exact hx))]

/-- The final sweep iteration at the head `u`: a marked head has its mark
cleared and the sweep stops with the list intact; an unmarked head is freed
and the used list is emptied. -/
lemma sweep_wrap (s : GC) (fs K : List Nat) (u : Nat)
    (wf : WF s fs (u :: K)) (hK : ∀ x ∈ K, (s.mem x).mark = false)
    (prevp : Nat)
    (fuel : Nat) (t : GC) (h : sweep_loop u s prevp u fuel = some t) :
    ((s.mem u).mark = false ∧ t.usedp = none) ∨
    ((s.mem u).mark = true ∧
      ∃ fs', WF t fs' (u :: K) ∧
        (∀ x ∈ u :: K, (t.mem x).mark = false ∧
          (t.mem x).size = (s.mem x).size) ∧
        t.words = s.words ∧ t.roots = s.roots) := by
  cases fuel with
  | zero => cases h
  | succ f =>
    rw [sweep_loop_succ] at h
    by_cases hm : (s.mem u).mark = false
    · rw [if_pos hm] at h
      cases hadd : add_to_free_list s u f with
      | none => rw [hadd] at h; cases h
      | some s1 =>
        rw [hadd] at h
        have h2 : (if u = u then some { s1 with usedp := none }
            else sweep_loop u
              (setMem s1 prevp { s1.mem prevp with next := (s.mem u).next })
              prevp ((s.mem u).next) f) = some t := h
        rw [if_pos rfl] at h2
        injection h2 with h2
        subst h2
        exact Or.inl ⟨hm, rfl⟩
    · rw [if_neg hm, if_pos rfl] at h
      injection h with h
      subst h
      right
      have hmt : (s.mem u).mark = true := by
        cases hmm : (s.mem u).mark
        · exact absurd hmm hm
        · rfl
      have hu_us : u ∈ u :: K := by simp
      have hmo : MarksOnly s (setMem s u { s.mem u with mark := false })
          (u :: K) := marksOnly_setMarkVal s (u :: K) u hu_us false
      have hndK : (u :: K).Nodup := usedWF_nodup s _ wf.used
      refine ⟨hmt, fs, wf_marksOnly s _ fs (u :: K) wf hmo, ?_, by simp,
        by simp⟩
      intro x hx
      rcases List.mem_cons.mp hx with rfl | hxK
      · rw [setMem_mem_same]
        exact ⟨rfl, rfl⟩
      · have hxu : x ≠ u :=
          fun hc => (List.nodup_cons.mp hndK).1 (hc ▸ hxK)
        rw [setMem_mem_other _ _ _ _ hxu]
        exact ⟨hK x hxK, rfl⟩

/-- A successful sweep of the used cycle `u :: (K ++ p :: R)` (current
block `p`, kept prefix `K` whose marks are already clear): either the head
ends up swept and the used list emptied, or the head was marked and the
result keeps, after `u :: K`, exactly the remaining blocks that were
marked at entry — all with clear marks, unchanged sizes, words and roots. -/
lemma sweep_loop_run :
    ∀ (R : List Nat) (s : GC) (fs K : List Nat) (u p : Nat),
      WF s fs (u :: (K ++ p :: R)) →
      (∀ x ∈ K, (s.mem x).mark = false) →
      ∀ (fuel : Nat) (t : GC),
        sweep_loop u s (K.getLastD u) p fuel = some t →
        ((s.mem u).mark = false ∧ t.usedp = none) ∨
        ((s.mem u).mark = true ∧
          ∃ fs', WF t fs'
              (u :: (K ++ (p :: R).filter (fun x => (s.mem x).mark))) ∧
            (∀ x ∈ u :: (K ++ (p :: R).filter (fun x => (s.mem x).mark)),
              (t.mem x).mark = false ∧ (t.mem x).size = (s.mem x).size) ∧
            t.words = s.words ∧ t.roots = s.roots) := by
  intro R
  induction R with
  | nil =>
    intro s fs K u p wf hK fuel t h
    cases fuel with
    | zero => cases h
    | succ f =>
      have hnd : (u :: (K ++ p :: [])).Nodup := usedWF_nodup s _ wf.used
      have hpu : p ≠ u := by
        intro hc
        exact (List.nodup_cons.mp hnd).1 (by rw [← hc]; simp)
      have hpK : p ∉ K := by
        have h3 := (List.nodup_cons.mp hnd).2
        rw [List.nodup_append] at h3
        exact fun hc => h3.2.2 hc (by simp)
      have hlinks : chain s u ((K ++ p :: []) ++ [u]) := by
        rcases wf.used.links with hbad | hl
        · cases hbad
        · exact hl
      have hnextp : (s.mem p).next = u :=
        cycle_next_at s u (K ++ p :: []) hlinks (u :: K) [] p (by simp)
      rw [sweep_loop_succ] at h
      by_cases hm : (s.mem p).mark = false
      · rw [if_pos hm] at h
        cases hadd : add_to_free_list s p f with
        | none => rw [hadd] at h; cases h
        | some s1 =>
          rw [hadd] at h
          have h2 : (if u = p then some { s1 with usedp := none }
              else sweep_loop u
                (setMem s1 (K.getLastD u)
                  { s1.mem (K.getLastD u) with next := (s.mem p).next })
                (K.getLastD u) ((s.mem p).next) f) = some t := h
          rw [if_neg (fun hc => hpu hc.symm)] at h2
          set s2 := setMem s1 (K.getLastD u)
            { s1.mem (K.getLastD u) with next := (s.mem p).next } with hs2def
          rw [hnextp] at h2
          obtain ⟨fs1, hwf2, hpres2, hw2, hup2, hbrk2, hlo2, hroots2, hcg2⟩ :=
            sweep_free_step s fs K [] u p wf f s1 hadd (K.getLastD u) rfl
              s2 hs2def
          rw [List.append_nil] at hwf2
          have hK2 : ∀ x ∈ K, (s2.mem x).mark = false := by
            intro x hx
            rw [(hpres2 x (by simp [hx])).2]
            exact hK x hx
          rcases sweep_wrap s2 fs1 K u hwf2 hK2 (K.getLastD u) f t h2 with
            hA | hB
          · exact Or.inl ⟨(hpres2 u (by simp)).2.symm.trans hA.1, hA.2⟩
          · obtain ⟨hmu2, fs', hwf', hprops', hw', hr'⟩ := hB
            right
            have hmu : (s.mem u).mark = true := by
              rw [← (hpres2 u (by simp)).2]
              exact hmu2
            have hfilt : (p :: []).filter (fun x => (s.mem x).mark) = [] := by
              simp [hm]
            rw [hfilt, List.append_nil]
            refine ⟨hmu, fs', hwf', ?_, hw'.trans hw2, hr'.trans hroots2⟩
            intro x hx
            obtain ⟨hm', hs'⟩ := hprops' x hx
            refine ⟨hm', hs'.trans ?_⟩
            refine (hpres2 x ?_).1
            simpa using hx
      · rw [if_neg hm] at h
        set s1 := setMem s p { s.mem p with mark := false } with hs1def
        rw [if_neg hpu] at h
        have hnext1 : (s1.mem p).next = u := by
          rw [hs1def, setMem_mem_same]
          exact hnextp
        rw [hnext1] at h
        have hmo1 : MarksOnly s s1 (u :: (K ++ p :: [])) := by
          rw [hs1def]
          exact marksOnly_setMarkVal s _ p (by simp) false
        have hwf1 : WF s1 fs (u :: (K ++ [p])) :=
          wf_marksOnly s s1 fs _ wf hmo1
        have hK1 : ∀ x ∈ K ++ [p], (s1.mem x).mark = false := by
          intro x hx
          rw [hs1def]
          rcases List.mem_append.mp hx with hx | hx
          · rw [setMem_mem_other _ _ _ _ (fun hc => hpK (by rw [← hc]; exact hx))]
            exact hK x hx
          · rcases List.mem_cons.mp hx with rfl | hx
            · rw [setMem_mem_same]
            · cases hx
        rcases sweep_wrap s1 fs (K ++ [p]) u hwf1 hK1 p f t h with hA | hB
        · refine Or.inl ⟨?_, hA.2⟩
          rw [hs1def, setMem_mem_other _ _ _ _ (fun hc => hpu hc.symm)] at hA
          exact hA.1
        · obtain ⟨hmu2, fs', hwf', hprops', hw', hr'⟩ := hB
          right
          have hmu : (s.mem u).mark = true := by
            rw [hs1def, setMem_mem_other _ _ _ _ (fun hc => hpu hc.symm)]
              at hmu2
            exact hmu2
          have hmT : (s.mem p).mark = true := by
            cases hmm : (s.mem p).mark
            · exact absurd hmm hm
            · rfl
          have hfilt : (p :: []).filter (fun x => (s.mem x).mark) = [p] := by
            simp [hmT]
          rw [hfilt]
          refine ⟨hmu, fs', hwf', ?_, hw'.trans (by rw [hs1def]; simp),
            hr'.trans (by rw [hs1def]; simp)⟩
          intro x hx
          obtain ⟨hm', hs'⟩ := hprops' x hx
          refine ⟨hm', hs'.trans ?_⟩
          rw [hs1def]
          by_cases hxp : x = p
          · rw [hxp, setMem_mem_same]
          · rw [setMem_mem_other _ _ _ _ hxp]
  | cons r R' ih =>
    intro s fs K u p wf hK fuel t h
    cases fuel with
    | zero => cases h
    | succ f =>
      have hnd : (u :: (K ++ p :: r :: R')).Nodup := usedWF_nodup s _ wf.used
      have hpu : p ≠ u := by
        intro hc
        exact (List.nodup_cons.mp hnd).1 (by rw [← hc]; simp)
      have hpK : p ∉ K := by
        have h3 := (List.nodup_cons.mp hnd).2
        rw [List.nodup_append] at h3
        exact fun hc => h3.2.2 hc (by simp)
      have hpR : p ∉ r :: R' := by
        have h3 := (List.nodup_cons.mp hnd).2
        rw [List.nodup_append] at h3
        exact (List.nodup_cons.mp h3.2.1).1
      have hlinks : chain s u ((K ++ p :: r :: R') ++ [u]) := by
        rcases wf.used.links with hbad | hl
        · cases hbad
        · exact hl
      have hnextp : (s.mem p).next = r :=
        cycle_next_at s u (K ++ p :: r :: R') hlinks (u :: K) (r :: R') p
          (by simp)
      rw [sweep_loop_succ] at h
      by_cases hm : (s.mem p).mark = false
      · rw [if_pos hm] at h
        cases hadd : add_to_free_list s p f with
        | none => rw [hadd] at h; cases h
        | some s1 =>
          rw [hadd] at h
          have h2 : (if u = p then some { s1 with usedp := none }
              else sweep_loop u
                (setMem s1 (K.getLastD u)
                  { s1.mem (K.getLastD u) with next := (s.mem p).next })
                (K.getLastD u) ((s.mem p).next) f) = some t := h
          rw [if_neg (fun hc => hpu hc.symm)] at h2
          set s2 := setMem s1 (K.getLastD u)
            { s1.mem (K.getLastD u) with next := (s.mem p).next } with hs2def
          rw [hnextp] at h2
          obtain ⟨fs1, hwf2, hpres2, hw2, hup2, hbrk2, hlo2, hroots2, hcg2⟩ :=
            sweep_free_step s fs K (r :: R') u p wf f s1 hadd (K.getLastD u)
              rfl s2 hs2def
          have hK2 : ∀ x ∈ K, (s2.mem x).mark = false := by
            intro x hx
            rw [(hpres2 x (by simp [hx])).2]
            exact hK x hx
          rcases ih s2 fs1 K u r hwf2 hK2 f t h2 with hA | hB
          · exact Or.inl ⟨(hpres2 u (by simp)).2.symm.trans hA.1, hA.2⟩
          · obtain ⟨hmu2, fs', hwf', hprops', hw', hr'⟩ := hB
            right
            have hmu : (s.mem u).mark = true := by
              rw [← (hpres2 u (by simp)).2]
              exact hmu2
            have hmfilt : (r :: R').filter (fun x => (s2.mem x).mark) =
                (r :: R').filter (fun x => (s.mem x).mark) := by
              refine List.filter_congr ?_
              intro x hx
              show (s2.mem x).mark = (s.mem x).mark
              exact (hpres2 x (by simp [hx])).2
            have hgoalfilt : (p :: r :: R').filter (fun x => (s.mem x).mark)
                = (r :: R').filter (fun x => (s.mem x).mark) := by
              simp [hm]
            rw [hgoalfilt, ← hmfilt]
            refine ⟨hmu, fs', hwf', ?_, hw'.trans hw2, hr'.trans hroots2⟩
            intro x hx
            obtain ⟨hm', hs'⟩ := hprops' x hx
            refine ⟨hm', hs'.trans ?_⟩
            refine (hpres2 x ?_).1
            rcases List.mem_cons.mp hx with rfl | hx2
            · simp
            · rcases List.mem_append.mp hx2 with hx2 | hx2
              · simp [hx2]
              · have hx3 := List.mem_filter.mp hx2
                simp [hx3.1]
      · rw [if_neg hm] at h
        set s1 := setMem s p { s.mem p with mark := false } with hs1def
        rw [if_neg hpu] at h
        have hnext1 : (s1.mem p).next = r := by
          rw [hs1def, setMem_mem_same]
          exact hnextp
        rw [hnext1] at h
        have hmo1 : MarksOnly s s1 (u :: (K ++ p :: r :: R')) := by
          rw [hs1def]
          exact marksOnly_setMarkVal s _ p (by simp) false
        have hwf1 : WF s1 fs (u :: ((K ++ [p]) ++ r :: R')) := by
          have hres := wf_marksOnly s s1 fs _ wf hmo1
          rw [show u :: (K ++ p :: r :: R') = u :: ((K ++ [p]) ++ r :: R')
            from by simp] at hres
          exact hres
        have hK1 : ∀ x ∈ K ++ [p], (s1.mem x).mark = false := by
          intro x hx
          rw [hs1def]
          rcases List.mem_append.mp hx with hx | hx
          · rw [setMem_mem_other _ _ _ _ (fun hc => hpK (by rw [← hc]; exact hx))]
            exact hK x hx
          · rcases List.mem_cons.mp hx with rfl | hx
            · rw [setMem_mem_same]
            · cases hx
        rcases ih s1 fs (K ++ [p]) u r hwf1 hK1 f t
          (by rw [getLastD_concat2]; exact h) with hA | hB
        · refine Or.inl ⟨?_, hA.2⟩
          rw [hs1def, setMem_mem_other _ _ _ _ (fun hc => hpu hc.symm)] at hA
          exact hA.1
        · obtain ⟨hmu2, fs', hwf', hprops', hw', hr'⟩ := hB
          right
          have hmu : (s.mem u).mark = true := by
            rw [hs1def, setMem_mem_other _ _ _ _ (fun hc => hpu hc.symm)]
              at hmu2
            exact hmu2
          have hmT : (s.mem p).mark = true := by
            cases hmm : (s.mem p).mark
            · exact absurd hmm hm
            · rfl
          have hfilt1 : (r :: R').filter (fun x => (s1.mem x).mark) =
              (r :: R').filter (fun x => (s.mem x).mark) := by
            refine List.filter_congr ?_
            intro x hx
            show (s1.mem x).mark = (s.mem x).mark
            rw [hs1def, setMem_mem_other _ _ _ _ (fun hc => hpR (by rw [← hc]; exact hx))]
          have hgoalfilt : (p :: r :: R').filter (fun x => (s.mem x).mark)
              = p :: (r :: R').filter (fun x => (s.mem x).mark) := by
            simp [hmT]
          have hlisteq :
              u :: (K ++ (p :: r :: R').filter (fun x => (s.mem x).mark))
              = u :: ((K ++ [p]) ++
                  (r :: R').filter (fun x => (s1.mem x).mark)) := by
            rw [hgoalfilt, hfilt1]
            simp
          rw [hlisteq]
          refine ⟨hmu, fs', hwf', ?_, hw'.trans (by rw [hs1def]; simp),
            hr'.trans (by rw [hs1def]; simp)⟩
          intro x hx
          obtain ⟨hm', hs'⟩ := hprops' x hx
          refine ⟨hm', hs'.trans ?_⟩
          rw [hs1def]
          by_cases hxp : x = p
          · rw [hxp, setMem_mem_same]
          · rw [setMem_mem_other _ _ _ _ hxp]

lemma inBlock_congr (sz1 sz2 : Nat → Nat) (z : Nat) (hz : sz2 z = sz1 z)
    (ptr : Int) : inBlock sz2 z ptr = inBlock sz1 z ptr := by
  unfold inBlock
  rw [hz]

/-- The coupling between the heap pass of one collection and the heap pass
of the next: the second pass runs over the survivors (the blocks the first
pass left marked), starts with marks dominating the first pass's on
survivors, and sees the same sizes and words there — so it re-marks every
survivor. -/
lemma mpass_coupling (sz1 sz2 : Nat → Nat) (wordf : Nat → Int)
    (L S : List Nat) (Mfin : Nat → Bool)
    (hmemS : ∀ y, y ∈ S ↔ (y ∈ L ∧ Mfin y = true))
    (hsz : ∀ y ∈ S, sz2 y = sz1 y) :
    ∀ (P : List Nat) (m mc : Nat → Bool),
      (∀ x ∈ P, x ∈ L) →
      (∀ z, mpass sz1 wordf L P m z = Mfin z) →
      (∀ z ∈ S, m z = true → mc z = true) →
      ∀ y ∈ S, mpass sz2 wordf S (P.filter Mfin) mc y = true := by
  intro P
  induction P with
  | nil =>
    intro m mc _ hM hdom y hy
    rw [List.filter_nil, mpass_nil]
    have hmy : m y = Mfin y := hM y
    exact hdom y hy (hmy.trans ((hmemS y).mp hy).2)
  | cons cu P' ihP =>
    intro m mc hPL hM hdom y hy
    have hPL' : ∀ x ∈ P', x ∈ L := fun x hx => hPL x (List.mem_cons_of_mem _ hx)
    have hM' : ∀ z, mpass sz1 wordf L P'
        (if m cu = true then
          (fun y2 => (m y2 ||
            (decide (y2 ∈ L) && !decide (y2 = cu) &&
              (payload_words cu (sz1 cu)).any
                (fun w => inBlock sz1 y2 (wordf w)))))
        else m) z = Mfin z := by
      intro z
      rw [← mpass_cons]
      exact hM z
    cases hfin : Mfin cu with
    | false =>
      have hmcu : m cu = false := by
        cases hmm : m cu
        · rfl
        · exfalso
          have h1 : mpass sz1 wordf L (cu :: P') m cu = true :=
            mpass_mono sz1 wordf L (cu :: P') m cu hmm
          rw [hM cu, hfin] at h1
          cases h1
      have hM'' : ∀ z, mpass sz1 wordf L P' m z = Mfin z := by
        intro z
        have hz := hM' z
        rw [if_neg (by simp [hmcu])] at hz
        exact hz
      rw [show (cu :: P').filter Mfin = P'.filter Mfin from by
        simp [List.filter_cons, hfin]]
      exact ihP m mc hPL' hM'' hdom y hy
    | true =>
      rw [show (cu :: P').filter Mfin = cu :: P'.filter Mfin from by
        simp [List.filter_cons, hfin]]
      rw [mpass_cons]
      by_cases hmcu : m cu = true
      · have hcuS : cu ∈ S := (hmemS cu).mpr ⟨hPL cu (by simp), hfin⟩
        have hmccu : mc cu = true := hdom cu hcuS hmcu
        rw [if_pos hmccu]
        have hM'2 : ∀ z, mpass sz1 wordf L P'
            (fun y2 => (m y2 ||
              (decide (y2 ∈ L) && !decide (y2 = cu) &&
                (payload_words cu (sz1 cu)).any
                  (fun w => inBlock sz1 y2 (wordf w))))) z = Mfin z := by
          intro z
          have hz := hM' z
          rw [if_pos hmcu] at hz
          exact hz
        refine ihP _ _ hPL' hM'2 ?_ y hy
        intro z hzS hz1
        have hz1' : (m z ||
            (decide (z ∈ L) && !decide (z = cu) &&
              (payload_words cu (sz1 cu)).any
                (fun w => inBlock sz1 z (wordf w)))) = true := hz1
        show (mc z ||
          (decide (z ∈ S) && !decide (z = cu) &&
            (payload_words cu (sz2 cu)).any
              (fun w => inBlock sz2 z (wordf w)))) = true
        rw [Bool.or_eq_true] at hz1'
        rcases hz1' with hmz | hX
        · rw [hdom z hzS hmz]
          rfl
        · simp only [Bool.and_eq_true, Bool.not_eq_true',
            decide_eq_false_iff_not, decide_eq_true_eq,
            List.any_eq_true] at hX
          obtain ⟨⟨_, hzcu⟩, w, hwmem, hwB⟩ := hX
          rw [Bool.or_eq_true]
          refine Or.inr ?_
          simp only [Bool.and_eq_true, Bool.not_eq_true',
            decide_eq_false_iff_not, decide_eq_true_eq, List.any_eq_true]
          refine ⟨⟨hzS, hzcu⟩, w, by rw [hsz cu hcuS]; exact hwmem, ?_⟩
          rw [inBlock_congr sz1 sz2 z (hsz z hzS)]
          exact hwB
      · have hM'' : ∀ z, mpass sz1 wordf L P' m z = Mfin z := by
          intro z
          have hz := hM' z
          rw [if_neg hmcu] at hz
          exact hz
        by_cases hmccu : mc cu = true
        · rw [if_pos hmccu]
          refine ihP m _ hPL' hM'' ?_ y hy
          intro z hzS hmz
          have hmcz : mc z = true := hdom z hzS hmz
          show (mc z || _) = true
          rw [hmcz]
          rfl
        · rw [if_neg hmccu]
          exact ihP m mc hPL' hM'' hdom y hy

/-- Sweeping a cycle whose blocks are all marked just clears the marks:
the walk `p :: R` and then the head `u` each get their mark cleared, and
nothing else changes. -/
lemma sweep_all_marked (u : Nat) :
    ∀ (R : List Nat) (s : GC) (prevp p : Nat),
      u ∉ p :: R → (p :: R).Nodup →
      chain s p (R ++ [u]) →
      (∀ x ∈ p :: R, (s.mem x).mark = true) → (s.mem u).mark = true →
      ∀ (fuel : Nat) (t : GC), sweep_loop u s prevp p fuel = some t →
        t.mem = (fun y => if y ∈ u :: p :: R
            then { s.mem y with mark := false } else s.mem y) ∧
        t.words = s.words ∧ t.freep = s.freep ∧ t.usedp = s.usedp ∧
        t.brk = s.brk ∧ t.lo = s.lo ∧ t.roots = s.roots ∧
        t.canGrow = s.canGrow := by
  intro R
  induction R with
  | nil =>
    intro s prevp p hu hnd hc hmk hmu fuel t h
    have hpu : p ≠ u := fun hc2 => hu (by simp [hc2])
    cases fuel with
    | zero => cases h
    | succ f =>
      rw [sweep_loop_succ, if_neg (by simp [hmk p (by simp)]),
        if_neg hpu] at h
      set s1 := setMem s p { s.mem p with mark := false } with hs1def
      have hnext1 : (s1.mem p).next = u := by
        rw [hs1def, setMem_mem_same]
        exact hc.1
      rw [hnext1] at h
      cases f with
      | zero => cases h
      | succ f2 =>
        have hmu1 : (s1.mem u).mark = true := by
          rw [hs1def, setMem_mem_other _ _ _ _ (fun hcc => hpu hcc.symm)]
          exact hmu
        rw [sweep_loop_succ, if_neg (by simp [hmu1]), if_pos rfl] at h
        injection h with h
        subst h
        refine ⟨?_, by rw [hs1def]; simp, by rw [hs1def]; simp,
          by rw [hs1def]; simp, by rw [hs1def]; simp, by rw [hs1def]; simp,
          by rw [hs1def]; simp, by rw [hs1def]; simp⟩
        funext y
        by_cases hyu : y = u
        · subst hyu
          rw [setMem_mem_same, if_pos (by simp), hs1def,
            setMem_mem_other _ _ _ _ (fun hcc => hpu hcc.symm)]
        · rw [setMem_mem_other _ _ _ _ hyu]
          by_cases hyp : y = p
          · subst hyp
            rw [hs1def, setMem_mem_same, if_pos (by simp)]
          · rw [hs1def, setMem_mem_other _ _ _ _ hyp,
              if_neg (by simp [hyu, hyp])]
  | cons r R2 ih =>
    intro s prevp p hu hnd hc hmk hmu fuel t h
    have hpu : p ≠ u := fun hc2 => hu (by simp [hc2])
    cases fuel with
    | zero => cases h
    | succ f =>
      rw [sweep_loop_succ, if_neg (by simp [hmk p (by simp)]),
        if_neg hpu] at h
      set s1 := setMem s p { s.mem p with mark := false } with hs1def
      have hnext1 : (s1.mem p).next = r := by
        rw [hs1def, setMem_mem_same]
        exact hc.1
      rw [hnext1] at h
      have hpr : p ∉ r :: R2 := (List.nodup_cons.mp hnd).1
      have hchain1 : chain s1 r (R2 ++ [u]) := by
        refine chain_congr_next s s1 ?_ _ _ hc.2
        intro z
        rw [hs1def]
        by_cases hz : z = p
        · subst hz; rw [setMem_mem_same]
        · rw [setMem_mem_other _ _ _ _ hz]
      have hmk1 : ∀ x ∈ r :: R2, (s1.mem x).mark = true := by
        intro x hx
        rw [hs1def,
          setMem_mem_other _ _ _ _ (fun hcc => hpr (by rw [← hcc]; exact hx))]
        exact hmk x (by simp [hx])
      have hmu1 : (s1.mem u).mark = true := by
        rw [hs1def, setMem_mem_other _ _ _ _ (fun hcc => hpu hcc.symm)]
        exact hmu
      obtain ⟨hmem', hw', hf', hup', hbrk', hlo', hroots', hcg'⟩ :=
        ih s1 p r (fun hcc => hu (List.mem_cons_of_mem _ hcc))
          (List.nodup_cons.mp hnd).2 hchain1 hmk1 hmu1 f t h
      refine ⟨?_, hw'.trans (by rw [hs1def]; simp),
        hf'.trans (by rw [hs1def]; simp), hup'.trans (by rw [hs1def]; simp),
        hbrk'.trans (by rw [hs1def]; simp), hlo'.trans (by rw [hs1def]; simp),
        hroots'.trans (by rw [hs1def]; simp),
        hcg'.trans (by rw [hs1def]; simp)⟩
      funext y
      rw [congrFun hmem' y]
      by_cases hyp : y = p
      · subst hyp
        rw [if_neg (by simp [hpu, hpr]), hs1def, setMem_mem_same,
          if_pos (by simp)]
      · rw [hs1def, setMem_mem_other _ _ _ _ hyp]
        by_cases hymem : y ∈ u :: r :: R2
        · rw [if_pos hymem, if_pos (by
            simp only [List.mem_cons] at hymem ⊢
            tauto)]
        · rw [if_neg hymem, if_neg (by
            simp only [List.mem_cons] at hymem ⊢
            tauto)]

lemma gc_collect_none (s : GC) (fuel : Nat) (h : s.usedp = none) :
    gc_collect s fuel = some s := by
  unfold gc_collect
  rw [h]

lemma gc_collect_some (s : GC) (fuel : Nat) (u : Nat) (h : s.usedp = some u) :
    gc_collect s fuel =
      match scan_region s u s.roots fuel with
      | none => none
      | some s1 =>
        match scan_heap s1 u fuel with
        | none => none
        | some s2 => sweep_loop u s2 u ((s2.mem u).next) fuel := by
  unfold gc_collect
  rw [h]

/-- The two mark phases of one collection, combined: only marks of used
blocks change, and the final marks are the pure pass `mpass` applied to
the root-scan marks. -/
lemma scan_phases_run (s : GC) (fs : List Nat) (u : Nat) (rest : List Nat)
    (wf : WF s fs (u :: rest))
    (fuel : Nat) (s1a s2 : GC)
    (hsr : scan_region s u s.roots fuel = some s1a)
    (hsh : scan_heap s1a u fuel = some s2) :
    MarksOnly s s2 (u :: rest) ∧ WF s2 fs (u :: rest) ∧
    markOf s2 = mpass (szOf s) s.words (u :: rest) (u :: rest)
      (fun y => ((s.mem y).mark ||
        (decide (y ∈ u :: rest) &&
          s.roots.any (fun w => inBlock (szOf s) y w)))) := by
  have hnd : (u :: rest).Nodup := usedWF_nodup s _ wf.used
  have hlinks : chain s u (rest ++ [u]) := by
    rcases wf.used.links with hbad | hl
    · cases hbad
    · exact hl
  have huq : ∀ (ptr : Int) (x : Nat), x ∈ u :: rest → ∀ y ∈ u :: rest,
      inBlock (szOf s) x ptr = true → inBlock (szOf s) y ptr = true →
      x = y :=
    fun ptr x hx => container_unique s (u :: rest) wf.used ptr x hx
  obtain ⟨hmo1, hmk1⟩ := scan_region_run s u rest hnd hlinks huq s.roots s
    (marksOnly_refl s (u :: rest)) fuel s1a hsr
  have hf1 : markOf s1a = fun y => ((s.mem y).mark ||
      (decide (y ∈ u :: rest) &&
        s.roots.any (fun w => inBlock (szOf s) y w))) :=
    funext fun y => hmk1 y
  obtain ⟨hmo2, hmk2⟩ := scan_heap_loop_run s u rest hnd hlinks huq rest []
    u rfl s1a hmo1 fuel s2 hsh
  rw [hf1] at hmk2
  exact ⟨hmo2, wf_marksOnly s s2 fs (u :: rest) wf hmo2, hmk2⟩

/-- Assembling the second collection's result: its sweep only cleared the
marks its scans had set, so the state equals the first collection's
result. -/
lemma collect2_final (t t2 t' : GC) (SL : List Nat) (u : Nat)
    (hmo : MarksOnly t t2 (u :: SL))
    (hclean2 : ∀ x ∈ u :: SL, (t.mem x).mark = false)
    (hmem' : t'.mem = fun y => if y ∈ u :: SL
        then { t2.mem y with mark := false } else t2.mem y)
    (hw : t'.words = t2.words) (hf : t'.freep = t2.freep)
    (hup : t'.usedp = t2.usedp) (hbrk : t'.brk = t2.brk)
    (hlo : t'.lo = t2.lo) (hroots : t'.roots = t2.roots)
    (hcg : t'.canGrow = t2.canGrow) : t' = t := by
  refine GC.ext ?_ ?_ ?_ ?_ ?_ ?_ ?_ ?_
  · funext y
    rw [congrFun hmem' y]
    by_cases hy : y ∈ u :: SL
    · rw [if_pos hy]
      refine Header.ext ?_ ?_ ?_
      · exact hmo.size y
      · exact hmo.next y
      · show false = (t.mem y).mark
        exact (hclean2 y hy).symm
    · rw [if_neg hy]
      exact hmo.off y hy
  · exact hw.trans hmo.words
  · exact hf.trans hmo.freep
  · exact hup.trans hmo.usedp
  · exact hbrk.trans hmo.brk
  · exact hlo.trans hmo.lo
  · exact hroots.trans hmo.roots
  · exact hcg.trans hmo.canGrow

/-- **Claim C9** (idempotence of collection): from a well-formed heap whose
used blocks all have clear mark bits — as they do in every state the
program itself produces — calling `gc_collect` twice in a row, with no
allocation and no mutation of root or heap memory between the two calls,
leaves the entire state after the second call identical to the state after
the first call: used list and free list membership, order, sizes, link and
mark fields, and both cursors included.  The second call's scans re-mark
exactly the surviving blocks and its sweep merely clears those marks
again. -/
theorem c9_idempotent (s : GC) (fs us : List Nat) (wf : WF s fs us)
    (hclean : ∀ x ∈ us, (s.mem x).mark = false)
    (fuel1 fuel2 : Nat) (t t' : GC)
    (h1 : gc_collect s fuel1 = some t) (h2 : gc_collect t fuel2 = some t') :
    t' = t := by
  cases husedp : s.usedp with
  | none =>
    rw [gc_collect_none s fuel1 husedp] at h1
    injection h1 with h1
    subst h1
    rw [gc_collect_none s fuel2 husedp] at h2
    injection h2 with h2
    exact h2.symm
  | some u =>
    cases us with
    | nil =>
      rw [wf.used.head] at husedp
      cases husedp
    | cons u0 rest =>
      have hh := wf.used.head
      rw [husedp] at hh
      injection hh with hh
      subst hh
      rw [gc_collect_some s fuel1 u husedp] at h1
      cases hsr : scan_region s u s.roots fuel1 with
      | none => rw [hsr] at h1; cases h1
      | some s1a =>
        rw [hsr] at h1
        have h1b : (match scan_heap s1a u fuel1 with
            | none => none
            | some s2 => sweep_loop u s2 u ((s2.mem u).next) fuel1)
            = some t := h1
        cases hsh : scan_heap s1a u fuel1 with
        | none => rw [hsh] at h1b; cases h1b
        | some s2 =>
          rw [hsh] at h1b
          have h1c : sweep_loop u s2 u ((s2.mem u).next) fuel1 = some t := h1b
          obtain ⟨hmo2, hwf2, hmk2⟩ :=
            scan_phases_run s fs u rest wf fuel1 s1a s2 hsr hsh
          have hlinks : chain s u (rest ++ [u]) := by
            rcases wf.used.links with hbad | hl
            · cases hbad
            · exact hl
          have hsweep :
              ((s2.mem u).mark = false ∧ t.usedp = none) ∨
              ((s2.mem u).mark = true ∧ ∃ fs',
                WF t fs' (u :: rest.filter (fun x => (s2.mem x).mark)) ∧
                (∀ x ∈ u :: rest.filter (fun x => (s2.mem x).mark),
                  (t.mem x).mark = false ∧
                  (t.mem x).size = (s2.mem x).size) ∧
                t.words = s2.words ∧ t.roots = s2.roots) := by
            cases rest with
            | nil =>
              have hnextu : (s2.mem u).next = u := (hmo2.next u).trans hlinks.1
              rw [hnextu] at h1c
              exact sweep_wrap s2 fs [] u hwf2
                (fun x hx => absurd hx (List.not_mem_nil x)) u fuel1 t h1c
            | cons r rest' =>
              have hnextu : (s2.mem u).next = r := (hmo2.next u).trans hlinks.1
              rw [hnextu] at h1c
              exact sweep_loop_run rest' s2 fs [] u r hwf2
                (fun x hx => absurd hx (List.not_mem_nil x)) fuel1 t h1c
          rcases hsweep with ⟨hmuF, hupN⟩ |
            ⟨hmuT, fs_t, hwfT, hpropsT, hwT, hrT⟩
          · rw [gc_collect_none t fuel2 hupN] at h2
            injection h2 with h2
            exact h2.symm
          · set SL := rest.filter (fun x => (s2.mem x).mark) with hSLdef
            have huT : t.usedp = some u := hwfT.used.head
            have htw : t.words = s.words := hwT.trans hmo2.words
            have htr : t.roots = s.roots := hrT.trans hmo2.roots
            rw [gc_collect_some t fuel2 u huT] at h2
            cases hsr2 : scan_region t u t.roots fuel2 with
            | none => rw [hsr2] at h2; cases h2
            | some t1a =>
              rw [hsr2] at h2
              have h2b : (match scan_heap t1a u fuel2 with
                  | none => none
                  | some w2 => sweep_loop u w2 u ((w2.mem u).next) fuel2)
                  = some t' := h2
              cases hsh2 : scan_heap t1a u fuel2 with
              | none => rw [hsh2] at h2b; cases h2b
              | some t2 =>
                rw [hsh2] at h2b
                have h2c : sweep_loop u t2 u ((t2.mem u).next) fuel2
                    = some t' := h2b
                obtain ⟨hmo2', hwf2', hmk2'⟩ :=
                  scan_phases_run t fs_t u SL hwfT fuel2 t1a t2 hsr2 hsh2
                rw [htw] at hmk2'
                have hmemS : ∀ y, y ∈ u :: SL ↔
                    (y ∈ u :: rest ∧ (s2.mem y).mark = true) := by
                  intro y
                  constructor
                  · intro hy
                    rcases List.mem_cons.mp hy with rfl | hy
                    · exact ⟨by simp, hmuT⟩
                    · rw [hSLdef] at hy
                      have h3 := List.mem_filter.mp hy
                      exact ⟨List.mem_cons_of_mem _ h3.1, h3.2⟩
                  · rintro ⟨hyL, hym⟩
                    rcases List.mem_cons.mp hyL with rfl | hyL
                    · simp
                    · refine List.mem_cons_of_mem _ ?_
                      rw [hSLdef]
                      exact List.mem_filter.mpr ⟨hyL, hym⟩
                have hszS : ∀ y ∈ u :: SL, szOf t y = szOf s y := by
                  intro y hy
                  show (t.mem y).size = (s.mem y).size
                  rw [(hpropsT y hy).2, hmo2.size y]
                have hfiltL :
                    (u :: rest).filter (fun z => (s2.mem z).mark) = u :: SL
                    := by
                  rw [hSLdef]
                  simp [List.filter_cons, hmuT]
                have hM1 : ∀ z, mpass (szOf s) s.words (u :: rest)
                    (u :: rest)
                    (fun y => ((s.mem y).mark ||
                      (decide (y ∈ u :: rest) &&
                        s.roots.any (fun w => inBlock (szOf s) y w)))) z
                    = (fun z => (s2.mem z).mark) z :=
                  fun z => (congrFun hmk2 z).symm
                have hdom : ∀ z ∈ u :: SL,
                    (fun y => ((s.mem y).mark ||
                      (decide (y ∈ u :: rest) &&
                        s.roots.any (fun w => inBlock (szOf s) y w)))) z
                      = true →
                    (fun y => ((t.mem y).mark ||
                      (decide (y ∈ u :: SL) &&
                        t.roots.any (fun w => inBlock (szOf t) y w)))) z
                      = true := by
                  intro z hz h3
                  have h3' : ((s.mem z).mark ||
                      (decide (z ∈ u :: rest) &&
                        s.roots.any (fun w => inBlock (szOf s) z w)))
                      = true := h3
                  have hzrest : z ∈ u :: rest := ((hmemS z).mp hz).1
                  have hcz : (s.mem z).mark = false := hclean z hzrest
                  rw [hcz, Bool.false_or, Bool.and_eq_true,
                    List.any_eq_true] at h3'
                  obtain ⟨_, w, hwmem, hwB⟩ := h3'
                  show ((t.mem z).mark ||
                    (decide (z ∈ u :: SL) &&
                      t.roots.any (fun w => inBlock (szOf t) z w))) = true
                  rw [(hpropsT z hz).1, Bool.false_or, Bool.and_eq_true,
                    List.any_eq_true]
                  refine ⟨decide_eq_true hz, w, ?_, ?_⟩
                  · rw [htr]; exact hwmem
                  · rw [inBlock_congr (szOf s) (szOf t) z (hszS z hz)]
                    exact hwB
                have hallm := mpass_coupling (szOf s) (szOf t) s.words
                  (u :: rest) (u :: SL) (fun z => (s2.mem z).mark) hmemS hszS
                  (u :: rest) _ _ (fun x hx => hx) hM1 hdom
                have ht2m : ∀ y ∈ u :: SL, (t2.mem y).mark = true := by
                  intro y hy
                  have h4 := congrFun hmk2' y
                  rw [show (t2.mem y).mark = markOf t2 y from rfl, h4]
                  have h5 := hallm y hy
                  rw [hfiltL] at h5
                  exact h5
                have hndT : (u :: SL).Nodup := usedWF_nodup t _ hwfT.used
                have hlinksT : chain t u (SL ++ [u]) := by
                  rcases hwfT.used.links with hbad | hl
                  · cases hbad
                  · exact hl
                have hclean2 : ∀ x ∈ u :: SL, (t.mem x).mark = false :=
                  fun x hx => (hpropsT x hx).1
                cases hSL2 : SL with
                | nil =>
                  rw [hSL2] at hlinksT
                  have hnx : (t2.mem u).next = u :=
                    (hmo2'.next u).trans hlinksT.1
                  rw [hnx] at h2c
                  cases fuel2 with
                  | zero => cases h2c
                  | succ f2 =>
                    have hmarked : (t2.mem u).mark = true := ht2m u (by simp)
                    rw [sweep_loop_succ, if_neg (by simp [hmarked]),
                      if_pos rfl] at h2c
                    injection h2c with h2c
                    subst h2c
                    refine collect2_final t t2 _ SL u hmo2' hclean2 ?_
                      (by simp) (by simp) (by simp) (by simp) (by simp)
                      (by simp) (by simp)
                    funext y
                    by_cases hy : y = u
                    · subst hy
                      rw [setMem_mem_same, if_pos (by simp)]
                    · rw [setMem_mem_other _ _ _ _ hy,
                        if_neg (by rw [hSL2]; simp [hy])]
                | cons k SL' =>
                  rw [hSL2] at hlinksT
                  have hnx : (t2.mem u).next = k :=
                    (hmo2'.next u).trans hlinksT.1
                  rw [hnx] at h2c
                  have hchainT2 : chain t2 k (SL' ++ [u]) :=
                    chain_congr_next t t2 (fun z => hmo2'.next z) _ _
                      hlinksT.2
                  have huSL : u ∉ k :: SL' := by
                    rw [← hSL2]
                    exact (List.nodup_cons.mp hndT).1
                  have hndk : (k :: SL').Nodup := by
                    rw [← hSL2]
                    exact (List.nodup_cons.mp hndT).2
                  obtain ⟨hmem', hw', hf', hup', hbrk', hlo', hroots', hcg'⟩
                    := sweep_all_marked u SL' t2 u k huSL hndk hchainT2
                      (fun x hx => ht2m x
                        (by rw [hSL2]; exact List.mem_cons_of_mem _ hx))
                      (ht2m u (by simp)) fuel2 t' h2c
                  refine collect2_final t t2 t' SL u hmo2' hclean2 ?_ hw'
                    hf' hup' hbrk' hlo' hroots' hcg'
                  rw [hmem', hSL2]

/-- Well-formedness of the C9 witness start state: after `initialize()`
and `gc_malloc(16)` the free spine is `[256]` and the used list `[510]`. -/
lemma wfc4s2 : WF c4_s2 [256] [510] := by
  refine ⟨⟨by decide, by decide,
      List.Chain.cons (by decide) List.Chain.nil,
      List.Chain.cons (by decide) List.Chain.nil,
      by decide, by decide, by decide, by decide⟩,
    ⟨by decide, Or.inr (by decide), by decide, by simp⟩,
    by decide, by decide⟩

/-- Witness for C9: initialize, allocate 16 bytes, collect twice — the
second collection returns exactly the first collection's state. -/
theorem c9_idempotent_witness : c9w2 = c9w :=
  c9_idempotent c4_s2 [256] [510] wfc4s2 (by decide) 100 100 c9w c9w2
    (by rfl) (by rfl)

end MarkAndSweep
